import Mathlib

/-!
# Verification of the Aho-Corasick pattern-matching engine

Shallow embedding of the pattern-matching engine of this repository
(`main.go`: `buildAhoCorasickAutomaton`, `Search`; `cache.go`: the result
cache) and proofs of the specification claims about it.

Go strings are modelled as lists of byte values (`List Nat`, values < 256).
The Go code iterates strings with `range`, which decodes UTF-8 runes, and
lowercases with `strings.ToLower`; both are modelled faithfully below.
Machine integers (`int`, `uint64`, ...) are modelled as `Nat`/`Int`; the
only wrap-around that matters is the 64-bit FNV hash, modelled with an
explicit `% 2^64`.
-/

/-- ASCII case folding of a single byte (upper → lower), the folding used by
the specification's phrase "after ASCII case folding". -/
def asciiFold (b : Nat) : Nat :=
  if 65 ≤ b ∧ b ≤ 90 then b + 32 else b

/-- Go `unicode.ToLower` on the rune fragment exercised in this development:
ASCII letters and the Latin-1 uppercase range (U+00C0–U+00DE except U+00D7)
map down by 32; every other rune appearing in the definitions and theorems
below (caseless runes such as U+20AC and U+FFFD, and all ASCII) is a fixed
point of Go's mapping, as it is here. -/
def toLowerRune (r : Nat) : Nat :=
  if 65 ≤ r ∧ r ≤ 90 then r + 32
  else if 192 ≤ r ∧ r ≤ 222 ∧ r ≠ 215 then r + 32
  else r

/-- One step of Go UTF-8 decoding (`utf8.DecodeRuneInString`): given the first
byte and the remaining bytes, return the decoded rune and how many bytes of
the remainder belong to it (total width = 1 + that count).  Invalid input
yields (U+FFFD, 0), i.e. Go's `(RuneError, 1)`. -/
def decodeRune (b : Nat) (rest : List Nat) : Nat × Nat :=
  if b < 128 then (b, 0)
  else if 194 ≤ b ∧ b ≤ 223 then
    match rest with
    | b1 :: _ =>
      if 128 ≤ b1 ∧ b1 ≤ 191 then ((b - 192) * 64 + (b1 - 128), 1)
      else (65533, 0)
    | [] => (65533, 0)
  else if 224 ≤ b ∧ b ≤ 239 then
    match rest with
    | b1 :: b2 :: _ =>
      if (if b = 224 then 160 ≤ b1 ∧ b1 ≤ 191
          else if b = 237 then 128 ≤ b1 ∧ b1 ≤ 159
          else 128 ≤ b1 ∧ b1 ≤ 191) ∧ (128 ≤ b2 ∧ b2 ≤ 191) then
        ((b - 224) * 4096 + (b1 - 128) * 64 + (b2 - 128), 2)
      else (65533, 0)
    | _ => (65533, 0)
  else if 240 ≤ b ∧ b ≤ 244 then
    match rest with
    | b1 :: b2 :: b3 :: _ =>
      if (if b = 240 then 144 ≤ b1 ∧ b1 ≤ 191
          else if b = 244 then 128 ≤ b1 ∧ b1 ≤ 143
          else 128 ≤ b1 ∧ b1 ≤ 191) ∧ (128 ≤ b2 ∧ b2 ≤ 191) ∧
          (128 ≤ b3 ∧ b3 ≤ 191) then
        ((b - 240) * 262144 + (b1 - 128) * 4096 + (b2 - 128) * 64 + (b3 - 128), 3)
      else (65533, 0)
    | _ => (65533, 0)
  else (65533, 0)

/-- The sequence of `(byte index, rune)` pairs produced by Go's
`for i, char := range s`, starting at byte index `i`.  Each rune consumes at
least one byte, so `fuel` = number of remaining bytes makes the recursion
structural without changing the result. -/
def goRunesAux : Nat → Nat → List Nat → List (Nat × Nat)
  | 0, _, _ => []
  | _ + 1, _, [] => []
  | fuel + 1, i, b :: rest =>
    (i, (decodeRune b rest).1) ::
      goRunesAux fuel (i + 1 + (decodeRune b rest).2) (rest.drop (decodeRune b rest).2)

/-- `for i, char := range s` as a list of `(byte index, rune)` pairs. -/
def goRunes (s : List Nat) : List (Nat × Nat) := goRunesAux s.length 0 s

/-- Go `utf8.EncodeRune`: UTF-8 encoding of a rune; surrogates and
out-of-range values encode U+FFFD. -/
def encodeRune (r : Nat) : List Nat :=
  if r < 128 then [r]
  else if r < 2048 then [192 + r / 64, 128 + r % 64]
  else if 55296 ≤ r ∧ r ≤ 57343 then [239, 191, 189]
  else if r < 65536 then [224 + r / 4096, 128 + (r / 64) % 64, 128 + r % 64]
  else if r ≤ 1114111 then
    [240 + r / 262144, 128 + (r / 4096) % 64, 128 + (r / 64) % 64, 128 + r % 64]
  else [239, 191, 189]

/-- Go `strings.ToLower`: decode the runes, lowercase each, re-encode.
(`strings.Map` replaces each invalid byte by U+FFFD, which is what
decode-then-encode yields.) -/
def goToLower (s : List Nat) : List Nat :=
  ((goRunes s).map (fun p => encodeRune (toLowerRune p.2))).flatten

/-- `ACState` of `main.go`: dense transition table (0 = no edge), failure
link, and the pattern ids output at this state. -/
structure ACState where
  next : Nat → Nat
  failure : Nat
  outputs : List Nat

/-- The zero value of `ACState` (fresh state as created by the Go code). -/
def newACState : ACState := ⟨fun _ => 0, 0, []⟩

/-- `ac.states[i]` (indices used by the Go code are always in bounds;
out-of-range reads default to the zero state). -/
def getState (sts : List ACState) (i : Nat) : ACState :=
  sts.getD i newACState

/-- `AhoCorasickAutomaton` of `main.go`. -/
structure AhoCorasickAutomaton where
  states : List ACState
  stateCount : Nat
  patternCount : Nat

/-- One character of the trie-construction loop of
`buildAhoCorasickAutomaton` (`main.go` lines 124–141): skip runes ≥ 256,
otherwise follow the goto edge, creating a fresh state when absent.
The accumulator is `(states, stateCount, state)`. -/
def trieStep (acc : List ACState × Nat × Nat) (c : Nat) : List ACState × Nat × Nat :=
  let sts := acc.1
  let cnt := acc.2.1
  let st := acc.2.2
  if 256 ≤ c then (sts, cnt, st)
  else if (getState sts st).next c = 0 then
    let sts1 := sts ++ [newACState]
    let cur := getState sts1 st
    let sts2 := sts1.set st
      { cur with next := fun x => if x = c then cnt else cur.next x }
    (sts2, cnt + 1, cnt)
  else (sts, cnt, (getState sts st).next c)

/-- The per-character loop of the trie construction (`for _, char := range
pattern`), iterating `trieStep` over the rune values. -/
def trieInsertLoop : List Nat → List ACState × Nat × Nat → List ACState × Nat × Nat
  | [], acc => acc
  | c :: cs, (sts, cnt, st) => trieInsertLoop cs (trieStep (sts, cnt, st) c)

/-- Insert one pattern into the trie (`main.go` lines 120–145): lowercase it,
walk/create goto edges for each rune < 256, then append the pattern id to the
terminal state's outputs. -/
def insertPattern (acc : List ACState × Nat) (pid : Nat) (pattern : List Nat) :
    List ACState × Nat :=
  let chars := (goRunes (goToLower pattern)).map Prod.snd
  let r := trieInsertLoop chars (acc.1, acc.2, 0)
  let sts := r.1
  let st := r.2.2
  let term := getState sts st
  (sts.set st { term with outputs := term.outputs ++ [pid] }, r.2.1)

/-- The per-pattern loop of the trie phase
(`for patternID, pattern := range patterns`). -/
def buildTrieLoop : List (Nat × List Nat) → List ACState × Nat → List ACState × Nat
  | [], acc => acc
  | p :: ps, (sts, cnt) => buildTrieLoop ps (insertPattern (sts, cnt) p.1 p.2)

/-- The trie phase of `buildAhoCorasickAutomaton`: insert every pattern with
its id, starting from the lone root state. -/
def buildTrie (patterns : List (List Nat)) : List ACState × Nat :=
  buildTrieLoop patterns.enum ([newACState], 1)

/-- The `for c := 0; c < 256; c++` loop of the failure-link initialisation
(`main.go` lines 151–157): each direct child of the root gets failure link 0
and is enqueued. -/
def initLoop : List Nat → List ACState × List Nat → List ACState × List Nat
  | [], acc => acc
  | c :: cs, (sts, q) =>
    let st := (getState sts 0).next c
    if st ≠ 0 then
      initLoop cs (sts.set st { getState sts st with failure := 0 }, q ++ [st])
    else initLoop cs (sts, q)

/-- Failure-link initialisation for depth-1 states (`main.go` lines 151–157). -/
def initQueue (sts : List ACState) : List ACState × List Nat :=
  initLoop (List.range 256) (sts, [])

/-- The failure-walk loop `for state != 0 && ac.states[state].next[c] == 0 {
state = ac.states[state].failure }` (used by the BFS at `main.go` lines
173–175 and by `Search` at lines 247–249).  The loop always terminates on the
automata the code builds; `fuel` (instantiated with the state count) makes the
model total. -/
def walkFailure (fuel : Nat) (sts : List ACState) (c : Nat) (st : Nat) : Nat :=
  match fuel with
  | 0 => st
  | fuel + 1 =>
    if st ≠ 0 ∧ (getState sts st).next c = 0 then
      walkFailure fuel sts c (getState sts st).failure
    else st

/-- Processing of one byte `c` for a dequeued state `r` in the BFS
(`main.go` lines 164–182): if `r` has a goto edge to `u` on `c`, enqueue `u`,
compute `u`'s failure link via the failure walk from `r`'s failure link, and
append the failure state's outputs to `u`'s outputs. -/
def bfsChild (r : Nat) (acc : List ACState × List Nat) (c : Nat) :
    List ACState × List Nat :=
  let sts := acc.1
  let q := acc.2
  let u := (getState sts r).next c
  if u = 0 then acc
  else
    let q1 := q ++ [u]
    let st := walkFailure sts.length sts c (getState sts r).failure
    let fu := (getState sts st).next c
    let sts1 := sts.set u { getState sts u with failure := fu }
    let sts2 := sts1.set u
      { getState sts1 u with
        outputs := (getState sts1 u).outputs ++ (getState sts1 fu).outputs }
    (sts2, q1)

/-- The `for c := 0; c < 256; c++` loop run for one dequeued state `r`
(`main.go` lines 164–182). -/
def bfsChildLoop (r : Nat) : List Nat → List ACState × List Nat → List ACState × List Nat
  | [], acc => acc
  | c :: cs, (sts, q) => bfsChildLoop r cs (bfsChild r (sts, q) c)

/-- The BFS queue loop of `buildAhoCorasickAutomaton` (`main.go` lines
160–183).  Each state is enqueued at most once, so `fuel` = number of states
suffices for the loop to run to completion. -/
def bfsLoop : Nat → List ACState × List Nat → List ACState
  | 0, acc => acc.1
  | fuel + 1, (sts, q) =>
    match q with
    | [] => sts
    | r :: q' => bfsLoop fuel (bfsChildLoop r (List.range 256) (sts, q'))

/-- `buildAhoCorasickAutomaton` (`main.go` lines 106–186).  The Go function's
error result is always `nil`, so the model returns the automaton directly. -/
def buildAhoCorasickAutomaton (patterns : List (List Nat)) :
    AhoCorasickAutomaton :=
  let t := buildTrie patterns
  let iq := initQueue t.1
  let sts := bfsLoop iq.1.length (iq.1, iq.2)
  ⟨sts, t.2, patterns.length⟩

/-- `MatchResult` of `main.go`.  `Offset` and `Length` are `uint64` in Go but
are only ever assigned the non-negative guarded values, so `Nat` is exact;
`Text` is the slice `text[Offset : Offset+Length]` of the query text. -/
structure MatchResult where
  Offset : Nat
  Length : Nat
  PatternID : Nat
  Confidence : Nat
  Text : List Nat
deriving DecidableEq

/-- The match-emission loop of `Search` (`main.go` lines 253–270): for each
pattern id output at the current state, check `patternID < len(patterns)`,
compute `offset := i - len(pattern) + 1` (Go `int` arithmetic, modelled on
`Int`), and emit the record when `0 ≤ offset ∧ offset+len ≤ len(text)`. -/
def emitOutputs (patterns : List (List Nat)) (text : List Nat) (i : Nat)
    (outs : List Nat) (results : List MatchResult) : List MatchResult :=
  outs.foldl
    (fun res pid =>
      if pid < patterns.length then
        let pattern := patterns.getD pid []
        let patternLen := pattern.length
        let offset : Int := (i : Int) - (patternLen : Int) + 1
        if 0 ≤ offset ∧ offset + (patternLen : Int) ≤ (text.length : Int) then
          res ++ [⟨offset.toNat, patternLen, pid, 95,
                   (text.drop offset.toNat).take patternLen⟩]
        else res
      else res)
    results

/-- One iteration of the scanning loop of `Search` (`main.go` lines 240–271):
skip runes ≥ 256, follow failure links until a goto exists, take the goto
(or stay at the root), then emit the new state's outputs.  The accumulator is
`(results, state)`; `i` is the byte index in the lowercased text. -/
def scanStep (a : AhoCorasickAutomaton) (patterns : List (List Nat))
    (text : List Nat) (acc : List MatchResult × Nat) (ev : Nat × Nat) :
    List MatchResult × Nat :=
  let i := ev.1
  let c := ev.2
  if 256 ≤ c then acc
  else
    let st := walkFailure a.states.length a.states c acc.2
    let state := (getState a.states st).next c
    (emitOutputs patterns text i (getState a.states state).outputs acc.1, state)

/-- The `for i, char := range lowerText` loop of `Search`, iterating
`scanStep` over the events. -/
def scanLoop (a : AhoCorasickAutomaton) (patterns : List (List Nat))
    (text : List Nat) : List (Nat × Nat) → List MatchResult × Nat → List MatchResult × Nat
  | [], acc => acc
  | ev :: evs, (results, state) =>
    scanLoop a patterns text evs (scanStep a patterns text (results, state) ev)

/-- The pure scanning pass of `Search` (`main.go` lines 231–271), i.e. the
computation performed on a cache miss: lowercase the text, run the automaton
over its runes, and collect the match records. -/
def scanText (a : AhoCorasickAutomaton) (patterns : List (List Nat))
    (text : List Nat) : List MatchResult :=
  (scanLoop a patterns text (goRunes (goToLower text)) ([], 0)).1

/-- `CacheEntry` of `cache.go`.  `Created` is the `time.Now()` insertion
timestamp, modelled as a logical clock value supplied by the caller;
`Duration` is the stored scan duration. -/
structure CacheEntry where
  Input : List Nat
  Results : List MatchResult
  Duration : Nat
  Created : Nat
  Hits : Nat
deriving DecidableEq

/-- `Cache` of `cache.go`.  The Go `map[uint64]*CacheEntry` is modelled as an
association list with distinct keys (insertion order; Go map iteration order
is unspecified, and no claim proved below depends on the order beyond
minimality of the evicted timestamp).  The mutex and the atomics serialise
the operations modelled here. -/
structure Cache where
  entries : List (Nat × CacheEntry)
  maxSize : Nat
  statsHits : Nat
  statsMisses : Nat
  statsEvictions : Nat
  statsTotalEntries : Nat
deriving DecidableEq

/-- `NewCache` of `cache.go`. -/
def NewCache (maxSize : Nat) : Cache := ⟨[], maxSize, 0, 0, 0, 0⟩

/-- The 64-bit FNV-1a hash used by `Cache.hash` (`hash/fnv`, `New64a`):
`h = offset; for each byte b: h = (h XOR b) * prime mod 2^64`. -/
def fnvHash (s : List Nat) : Nat :=
  s.foldl (fun h b => ((h ^^^ b) * 1099511628211) % 18446744073709551616)
    14695981039346656037

/-- `Cache.Get` (`cache.go` lines 51–66): look up by hash only; on a hit,
increment the entry's and the global hit counter and return the stored
results, duration and `true`; on a miss increment the miss counter and
return `(nil, 0, false)`. -/
def Cache.get (c : Cache) (input : List Nat) :
    (List MatchResult × Nat × Bool) × Cache :=
  let key := fnvHash input
  match c.entries.find? (fun kv => kv.1 = key) with
  | some kv =>
    ((kv.2.Results, kv.2.Duration, true),
     { c with
       entries := c.entries.map (fun kv' =>
         if kv'.1 = key then (kv'.1, { kv'.2 with Hits := kv'.2.Hits + 1 })
         else kv'),
       statsHits := c.statsHits + 1 })
  | none => (([], 0, false), { c with statsMisses := c.statsMisses + 1 })

/-- `Cache.evictLRU` (`cache.go` lines 93–110): find the entry with the
minimum `Created` timestamp (first encountered wins ties) and delete it,
incrementing the eviction counter; an empty cache is left unchanged. -/
def Cache.evictLRU (c : Cache) : Cache :=
  match c.entries with
  | [] => c
  | kv0 :: rest =>
    let oldest := rest.foldl
      (fun best kv => if kv.2.Created < best.2.Created then kv else best) kv0
    { c with
      entries := c.entries.eraseP (fun kv => kv.1 = oldest.1),
      statsEvictions := c.statsEvictions + 1 }

/-- `Cache.Put` (`cache.go` lines 69–90): build the entry with the current
time (`now`), evict when `len(entries) ≥ maxSize`, then store under the hash
key (overwriting any entry with the same key) and increment the
total-entries counter. -/
def Cache.put (c : Cache) (now : Nat) (input : List Nat)
    (results : List MatchResult) (duration : Nat) : Cache :=
  let key := fnvHash input
  let e : CacheEntry := ⟨input, results, duration, now, 0⟩
  let c1 := if c.maxSize ≤ c.entries.length then c.evictLRU else c
  { c1 with
    entries :=
      if c1.entries.any (fun kv => kv.1 = key) then
        c1.entries.map (fun kv => if kv.1 = key then (key, e) else kv)
      else c1.entries ++ [(key, e)],
    statsTotalEntries := c1.statsTotalEntries + 1 }

/-- `Cache.HitRatio` (`cache.go` lines 138–148): the Go function computes
`float64(hits)/float64(total) * 100.0`; the real-valued quotient is modelled
exactly on `ℚ`.  Returns 0 when no query has occurred. -/
def Cache.hitRatioPercent (c : Cache) : ℚ :=
  let total := c.statsHits + c.statsMisses
  if total = 0 then 0 else (c.statsHits : ℚ) / (total : ℚ) * 100

/-- `AhoCorasickMatcher` of `main.go` (patterns, automaton and cache).
`clock` is the logical time used for cache-entry timestamps; the Go
`initialized` flag is `true` for every matcher the constructor returns. -/
structure AhoCorasickMatcher where
  patterns : List (List Nat)
  automaton : AhoCorasickAutomaton
  cache : Cache
  clock : Nat

/-- `NewAhoCorasickMatcher` with an explicit pattern list (the constructor
builds the automaton and an empty cache; `main.go` uses capacity 10000,
kept as a parameter here). -/
def NewAhoCorasickMatcher (patterns : List (List Nat)) (cacheSize : Nat) :
    AhoCorasickMatcher :=
  ⟨patterns, buildAhoCorasickAutomaton patterns, NewCache cacheSize, 0⟩

/-- `Search` (`main.go` lines 221–279): consult the cache; on a hit return
the cached results and duration; on a miss scan the text, store the results
and return them.  Scan durations are not modelled (returned as 0). -/
def Search (m : AhoCorasickMatcher) (text : List Nat) :
    (List MatchResult × Nat) × AhoCorasickMatcher :=
  let g := m.cache.get text
  if g.1.2.2 then
    ((g.1.1, g.1.2.1), { m with cache := g.2 })
  else
    let results := scanText m.automaton m.patterns text
    let c2 := g.2.put m.clock text results 0
    ((results, 0), { m with cache := c2, clock := m.clock + 1 })

set_option maxRecDepth 400000

/-- Byte list of an ASCII string literal (used only for ASCII literals,
where Go's UTF-8 bytes coincide with the code points). -/
def asciiBytes (s : String) : List Nat := s.data.map Char.toNat

/-- The effective transition `g(q, c)` described by the specification's
failure-link invariant: follow failure links from `q` until a state with a
goto on `c` is found or the root is reached, then take that state's goto on
`c` (0, i.e. remaining at the root, when the root has no goto on `c`).  The
walk is the code's failure loop `walkFailure`. -/
def gEff (sts : List ACState) (q c : Nat) : Nat :=
  (getState sts (walkFailure sts.length sts c q)).next c

/-- A sequence of engine searches, threading the matcher state
(`engine.search` called once per text, in order). -/
def searchAll (m : AhoCorasickMatcher) (texts : List (List Nat)) :
    AhoCorasickMatcher :=
  texts.foldl (fun m t => (Search m t).2) m

/-- The rune values of a pattern that the trie walk actually consumes:
lowercased runes of value < 256, in order (runes ≥ 256 are skipped by the
construction and by the scanner). -/
def patChars (p : List Nat) : List Nat :=
  ((goRunes (goToLower p)).map Prod.snd).filter (fun c => c < 256)

/-- `StateWord sts s w`: state `s` is reached from the root by following
goto edges labelled by the characters of `w` (read left to right). -/
inductive StateWord (sts : List ACState) : Nat → List Nat → Prop where
  | root : StateWord sts 0 []
  | step {p : Nat} {w : List Nat} {c s : Nat} :
      StateWord sts p w → (getState sts p).next c = s → s ≠ 0 →
      StateWord sts s (w ++ [c])

/-- `w` labels some node of the goto trie. -/
def IsNode (sts : List ACState) (w : List Nat) : Prop := ∃ s, StateWord sts s w

/-- Well-formedness of the goto skeleton produced by the trie phase: states
form a rooted tree whose edges always lead to strictly larger indices within
bounds, edges are labelled by bytes < 256 and enter each state at most once,
and every state is reachable. -/
structure TrieSkeleton (sts : List ACState) : Prop where
  posLen : 0 < sts.length
  edgeLt : ∀ s c, (getState sts s).next c ≠ 0 → s < (getState sts s).next c
  edgeBound : ∀ s c, (getState sts s).next c ≠ 0 → (getState sts s).next c < sts.length
  edgeChar : ∀ s c, (getState sts s).next c ≠ 0 → c < 256
  edgeInj : ∀ s₁ c₁ s₂ c₂, (getState sts s₁).next c₁ ≠ 0 →
      (getState sts s₁).next c₁ = (getState sts s₂).next c₂ → s₁ = s₂ ∧ c₁ = c₂
  allReach : ∀ s, s < sts.length → ∃ w, StateWord sts s w

/-- `FailSpec sts s t`: for the word `w` of `s`, `t` is the node of the
longest proper suffix of `w` that labels a node (the semantic failure
link of the Aho-Corasick construction). -/
def FailSpec (sts : List ACState) (s t : Nat) : Prop :=
  ∀ w, StateWord sts s w →
    ∃ v, StateWord sts t v ∧ v <:+ w ∧ v.length < w.length ∧
      ∀ u, u <:+ w → u.length < w.length → IsNode sts u → u.length ≤ v.length

/-- Soundness of output lists with respect to the pattern list `L`: every
id output at a state names a pattern whose consumed characters are a suffix
of the state's word. -/
def OutputsSound (sts : List ACState) (L : List (List Nat)) : Prop :=
  ∀ s w id, StateWord sts s w → id ∈ (getState sts s).outputs →
    ∃ pat, L[id]? = some pat ∧ patChars pat <:+ w

/-- Completeness of output lists: every pattern whose consumed characters
are a non-empty suffix of a state's word is output at that state.  (The code
does not propagate the root's outputs to depth-1 states, so ids of patterns
with no consumed characters are exempt.) -/
def OutputsComplete (sts : List ACState) (L : List (List Nat)) : Prop :=
  ∀ s w id pat, StateWord sts s w → L[id]? = some pat → patChars pat ≠ [] →
    patChars pat <:+ w → id ∈ (getState sts s).outputs

/-- Word-level version of `FailSpec`: `t` is the node of the longest proper
suffix of `wu` that labels a node. -/
def FailSpecW (sts : List ACState) (wu : List Nat) (t : Nat) : Prop :=
  ∃ v, StateWord sts t v ∧ v <:+ wu ∧ v.length < wu.length ∧
    ∀ u, u <:+ wu → u.length < wu.length → IsNode sts u → u.length ≤ v.length

/-- The running invariant of the scanning loop: the current state is the
node of the longest suffix of the consumed character sequence that labels a
node of the trie. -/
def MaxSuffixState (sts : List ACState) (txt : List Nat) (s : Nat) : Prop :=
  ∃ v, StateWord sts s v ∧ v <:+ txt ∧
    ∀ u, u <:+ txt → IsNode sts u → u.length ≤ v.length

/-- A byte list consisting of ASCII bytes only. -/
def AsciiText (l : List Nat) : Prop := ∀ b ∈ l, b < 128

/-- The loop invariant of the breadth-first failure-link pass of
`buildAhoCorasickAutomaton`, relating the current state list `sts` and
queue `q` to the trie `sts0` produced by the construction phase; `done`
lists the already dequeued states in dequeue order. -/
structure BfsInv (sts0 sts : List ACState) (done q : List Nat) : Prop where
  len : sts.length = sts0.length
  nextEq : ∀ j, (getState sts j).next = (getState sts0 j).next
  nodupE : (done ++ q).Nodup
  zeroE : 0 ∉ done ++ q
  boundE : ∀ s ∈ done ++ q, s < sts0.length
  memE : ∀ p c s, (getState sts0 p).next c = s → s ≠ 0 →
    (s ∈ done ++ q ↔ p = 0 ∨ p ∈ done)
  sorted : (done ++ q).Pairwise (fun a b => ∀ wa wb, StateWord sts0 a wa →
    StateWord sts0 b wb → wa.length ≤ wb.length)
  fail : ∀ s ∈ done ++ q, FailSpec sts0 s ((getState sts s).failure)
  failMem : ∀ s ∈ done ++ q, (getState sts s).failure = 0 ∨
    (getState sts s).failure ∈ done ++ q
  untouched : ∀ s, s ∉ done ++ q → getState sts s = getState sts0 s
  outs : ∀ s ∈ done ++ q, ∀ w, StateWord sts0 s w →
    (w.length = 1 → (getState sts s).outputs = (getState sts0 s).outputs) ∧
    (2 ≤ w.length → (getState sts s).outputs =
      (getState sts0 s).outputs ++
        (getState sts ((getState sts s).failure)).outputs)

/-- The soundness property of one match record on ASCII input: its pattern
id names a pattern of the list, its length is that pattern's length, it lies
within the text, and the corresponding slice of the text equals the pattern
after ASCII case folding. -/
def SoundRec (L : List (List Nat)) (T : List Nat) (r : MatchResult) : Prop :=
  ∃ pat, L[r.PatternID]? = some pat ∧ r.Length = pat.length ∧
    r.Offset + r.Length ≤ T.length ∧
    ((T.map asciiFold).drop r.Offset).take r.Length = pat.map asciiFold

/-- A fresh matcher's first `Search` is a cache miss, so it returns exactly
the scan of the text. -/
theorem Search_fresh (patterns : List (List Nat)) (cap : Nat) (text : List Nat) :
    (Search (NewAhoCorasickMatcher patterns cap) text).1.1 =
      scanText (buildAhoCorasickAutomaton patterns) patterns text := by
  simp [Search, NewAhoCorasickMatcher, NewCache, Cache.get]

/-- C4 (counterexample): on patterns `["according to", "to"]` and text
`"According To The Jury"`, `Search` emits the two matches that end at
position 11 in the terminal state's output-list order `[0, 1]` — i.e.
`(0,12,0)` before `(10,2,1)` — not in the order `(10,2,1)`, `(0,12,0)`
asserted by the claim. -/
theorem search_tiebreak_order_counterexample :
    ((Search (NewAhoCorasickMatcher [asciiBytes "according to", asciiBytes "to"] 10000)
        (asciiBytes "According To The Jury")).1.1.map
      (fun r => (r.Offset, r.Length, r.PatternID)) = [(0, 12, 0), (10, 2, 1)]) ∧
    ([((0 : Nat), (12 : Nat), (0 : Nat)), ((10 : Nat), (2 : Nat), (1 : Nat))] ≠
      [((10 : Nat), (2 : Nat), (1 : Nat)), ((0 : Nat), (12 : Nat), (0 : Nat))]) :=
  ⟨by decide, by decide⟩

/-- C4 (amended): `Search` on patterns `["according to", "to"]` and text
`"According To The Jury"` returns exactly the matches `(0, 12, 0)` then
`(10, 2, 1)`, both ending at position 11, in the terminal state's
output-list order (local id first, then the ids propagated from the failure
state). -/
theorem search_tiebreak_actual :
    (Search (NewAhoCorasickMatcher [asciiBytes "according to", asciiBytes "to"] 10000)
        (asciiBytes "According To The Jury")).1.1 =
      [⟨0, 12, 0, 95, asciiBytes "According To"⟩,
       ⟨10, 2, 1, 95, asciiBytes "To"⟩] := by decide

/-- C1 (counterexample): for the single non-empty pattern `"€"` (bytes
`E2 82 AC`, unchanged by ASCII case folding) and the text `"€"`, the bytes
`T[0..3)` equal the pattern after ASCII case folding, yet `Search` returns
no match at all: the pattern's only rune is ≥ 256 and is skipped during both
construction and scanning. -/
theorem scan_euro_misses_euro :
    (Search (NewAhoCorasickMatcher [[226, 130, 172]] 10000) [226, 130, 172]).1.1 = [] ∧
    ((([226, 130, 172] : List Nat).drop 0).take 3).map asciiFold =
      ([226, 130, 172] : List Nat).map asciiFold ∧
    ([226, 130, 172] : List Nat) ≠ [] :=
  ⟨by decide, by decide, by decide⟩

/-- C2 (counterexample): patterns `["ab"]`, text `"a€b"` (bytes
`61 E2 82 AC 62`).  The rune `€` is skipped without resetting the state, so
`Search` emits the record `(offset 3, length 2, id 0)`, whose text slice
`T[3..5)` = `AC 62` does not equal the pattern `"ab"`, with or without ASCII
case folding. -/
theorem scan_unsound_nonascii :
    (Search (NewAhoCorasickMatcher [[97, 98]] 10000) [97, 226, 130, 172, 98]).1.1 =
      [⟨3, 2, 0, 95, [172, 98]⟩] ∧
    ((([97, 226, 130, 172, 98] : List Nat).drop 3).take 2).map asciiFold ≠
      ([97, 98] : List Nat).map asciiFold :=
  ⟨by decide, by decide⟩

/-- C3 (counterexample): for the pattern list `["a"]`, state 1 is reached
from the root (`p = 0`) by byte `c = 97`; the claimed invariant demands
`f(1) = g(f(0), 97)`, and the walk from `f(0) = 0` stops at the root, which
has a goto on 97, so `g(f(0), 97) = 1`; but the built automaton sets
`f(1) = 0 ≠ 1`. -/
theorem failure_depth1_counterexample :
    (getState (buildAhoCorasickAutomaton [[97]]).states 0).next 97 = 1 ∧
    gEff (buildAhoCorasickAutomaton [[97]]).states
      ((getState (buildAhoCorasickAutomaton [[97]]).states 0).failure) 97 = 1 ∧
    (getState (buildAhoCorasickAutomaton [[97]]).states 1).failure = 0 ∧
    (0 : Nat) ≠ 1 :=
  ⟨by decide, by decide, by decide, by decide⟩

/-- C5 (counterexample): the pattern `"€"` (bytes `E2 82 AC`) is *not*
stored byte-by-byte: the built automaton has no goto edge on the raw byte
`0xE2` from the root and creates no state at all (its single rune ≥ 256 is
skipped), whereas raw-byte storage would create three states. -/
theorem build_euro_no_raw_byte_edge :
    (getState (buildAhoCorasickAutomaton [[226, 130, 172]]).states 0).next 226 = 0 ∧
    (buildAhoCorasickAutomaton [[226, 130, 172]]).stateCount = 1 :=
  ⟨by decide, by decide⟩

/-- C6 (counterexample): the empty pattern is *not* skipped: building from
`[""]` appends id 0 to the root state's output list, and scanning the text
`"a"` emits the zero-length match `(offset 1, length 0, id 0)` whose
pattern id refers to the empty pattern. -/
theorem empty_pattern_emits_match :
    (getState (buildAhoCorasickAutomaton [[]]).states 0).outputs = [0] ∧
    (Search (NewAhoCorasickMatcher [[]] 10000) [97]).1.1 = [⟨1, 0, 0, 95, []⟩] :=
  ⟨by decide, by decide⟩

/-- C7 (counterexample): after `N = 1` distinct-text search (`"a"`) and
`M = 1` repeated search of the same text on a fresh engine, `HitRatio`
returns 50 (the Go function multiplies by 100), not the fraction
`M / (N + M) = 1/2`. -/
theorem hitRatio_percent_counterexample :
    (Search (Search (NewAhoCorasickMatcher [[98]] 10) [97]).2 [97]).2.cache.hitRatioPercent
      = 50 ∧ (50 : ℚ) ≠ 1 / (1 + 1) := by
  constructor
  · have h1 : (Search (Search (NewAhoCorasickMatcher [[98]] 10) [97]).2 [97]).2.cache.statsHits
        = 1 := by decide
    have h2 : (Search (Search (NewAhoCorasickMatcher [[98]] 10) [97]).2 [97]).2.cache.statsMisses
        = 1 := by decide
    rw [Cache.hitRatioPercent, h1, h2]
    norm_num
  · norm_num

/-- C8 (counterexample): a cache with configured capacity 0 has reached its
capacity (0 entries ≥ 0), yet `Put` of a new key removes no entry and does
not increment the eviction counter: the entry count grows to 1 and
`evictions` stays 0, contradicting the claim's "removes exactly one entry
… and increments the evictions counter by one". -/
theorem put_capacity_zero_counterexample :
    (NewCache 0).maxSize ≤ (NewCache 0).entries.length ∧
    ((NewCache 0).put 0 [97] [] 0).statsEvictions = 0 ∧
    ((NewCache 0).put 0 [97] [] 0).entries.length = 1 ∧ (0 : Nat) ≠ 0 + 1 :=
  ⟨by decide, by decide, by decide, by decide⟩

/-- After replacing the entry under `key`, `find?` by `key` returns the new
entry, provided some entry with that key exists. -/
theorem find?_map_replace (l : List (Nat × CacheEntry)) (key : Nat) (e : CacheEntry)
    (h : l.any (fun kv => kv.1 = key)) :
    (l.map (fun kv => if kv.1 = key then (key, e) else kv)).find?
      (fun kv => kv.1 = key) = some (key, e) := by
  induction l with
  | nil => simp at h
  | cons kv l ih =>
    by_cases hk : kv.1 = key
    · simp [List.find?_cons_of_pos, hk]
    · simp only [List.any_cons, Bool.or_eq_true, decide_eq_true_eq] at h
      rcases h with h | h
      · exact absurd h hk
      · simp only [List.map_cons, if_neg hk]
        rw [List.find?_cons_of_neg _ (by simpa using hk)]
        exact ih (by simpa using h)

/-- Appending a fresh entry under `key` to a list with no entry under `key`
makes `find?` by `key` return the fresh entry. -/
theorem find?_append_fresh (l : List (Nat × CacheEntry)) (key : Nat) (e : CacheEntry)
    (h : ¬ l.any (fun kv => kv.1 = key)) :
    (l ++ [(key, e)]).find? (fun kv => kv.1 = key) = some (key, e) := by
  induction l with
  | nil => simp [List.find?_cons_of_pos]
  | cons kv l ih =>
    simp only [List.any_cons, Bool.or_eq_true, decide_eq_true_eq, not_or] at h
    simp only [List.cons_append]
    rw [List.find?_cons_of_neg _ (by simpa using h.1)]
    exact ih (by simpa using h.2)

/-- The entry list of a cache after `Put` always finds the freshly stored
entry under the stored key. -/
theorem put_entries_find? (c : Cache) (now : Nat) (input : List Nat)
    (results : List MatchResult) (duration : Nat) :
    (c.put now input results duration).entries.find?
        (fun kv => kv.1 = fnvHash input) =
      some (fnvHash input, ⟨input, results, duration, now, 0⟩) := by
  unfold Cache.put
  by_cases hin :
      (if c.maxSize ≤ c.entries.length then c.evictLRU else c).entries.any
        (fun kv => kv.1 = fnvHash input)
  · simp only [hin, if_true]
    exact find?_map_replace _ _ _ hin
  · have hf : (if c.maxSize ≤ c.entries.length then c.evictLRU else c).entries.any
        (fun kv => kv.1 = fnvHash input) = false := by
      cases hx : (if c.maxSize ≤ c.entries.length then c.evictLRU else c).entries.any
        (fun kv => kv.1 = fnvHash input)
      · rfl
      · exact absurd hx hin
    simp only [hf, Bool.false_eq_true, if_false]
    exact find?_append_fresh _ _ _ (by rw [hf]; simp)

/-- C9: the cache resolves lookups by the FNV-1a hash alone: for any two
texts with equal hashes (in particular any two distinct colliding texts),
after `Put(t1, results, duration)` a `Get(t2)` returns `t1`\'s stored
results and duration with `hit = true`, without comparing text bytes. -/
theorem get_resolves_by_hash_alone (c : Cache) (now : Nat) (t1 t2 : List Nat)
    (results : List MatchResult) (duration : Nat)
    (h : fnvHash t1 = fnvHash t2) :
    ((c.put now t1 results duration).get t2).1 = (results, duration, true) := by
  have hf := put_entries_find? c now t1 results duration
  unfold Cache.get
  rw [← h]
  dsimp only
  rw [hf]

/-- C9 (witness): concrete instance of `get_resolves_by_hash_alone`. -/
theorem get_resolves_by_hash_alone_witness :
    fnvHash [97] = fnvHash [97] ∧
    (((NewCache 5).put 3 [97] [⟨0, 1, 0, 95, [97]⟩] 7).get [97]).1 =
      ([⟨0, 1, 0, 95, [97]⟩], 7, true) :=
  ⟨rfl, get_resolves_by_hash_alone (NewCache 5) 3 [97] [97] [⟨0, 1, 0, 95, [97]⟩] 7 rfl⟩

/-- The fold inside `evictLRU` returns an element of the scanned list whose
`Created` timestamp is minimal (the first one encountered wins ties, as in
the Go loop's strict `Before` comparison). -/
theorem foldl_oldest_spec (kv0 : Nat × CacheEntry) (rest : List (Nat × CacheEntry)) :
    (rest.foldl (fun best kv => if kv.2.Created < best.2.Created then kv else best) kv0)
      ∈ kv0 :: rest ∧
    ∀ kv' ∈ kv0 :: rest,
      (rest.foldl (fun best kv => if kv.2.Created < best.2.Created then kv else best)
        kv0).2.Created ≤ kv'.2.Created := by
  induction rest generalizing kv0 with
  | nil =>
    constructor
    · simp
    · intro kv' hkv'
      have h := List.mem_singleton.mp hkv'
      subst h
      exact le_refl _
  | cons kv rest ih =>
    simp only [List.foldl_cons]
    by_cases hlt : kv.2.Created < kv0.2.Created
    · rw [if_pos hlt]
      obtain ⟨hmem, hmin⟩ := ih kv
      constructor
      · rcases List.mem_cons.mp hmem with h | h
        · rw [h]
          exact List.mem_cons_of_mem _ (List.mem_cons_self _ _)
        · exact List.mem_cons_of_mem _ (List.mem_cons_of_mem _ h)
      · intro kv' hkv'
        rcases List.mem_cons.mp hkv' with h | h
        · rw [h]
          exact le_trans (hmin kv (List.mem_cons_self _ _)) (le_of_lt hlt)
        · exact hmin kv' h
    · rw [if_neg hlt]
      obtain ⟨hmem, hmin⟩ := ih kv0
      constructor
      · rcases List.mem_cons.mp hmem with h | h
        · rw [h]
          exact List.mem_cons_self _ _
        · exact List.mem_cons_of_mem _ (List.mem_cons_of_mem _ h)
      · intro kv' hkv'
        rcases List.mem_cons.mp hkv' with h | h
        · rw [h]
          exact hmin kv0 (List.mem_cons_self _ _)
        · rcases List.mem_cons.mp h with h2 | h2
          · rw [h2]
            exact le_trans (hmin kv0 (List.mem_cons_self _ _)) (le_of_not_lt hlt)
          · exact hmin kv' (List.mem_cons_of_mem _ h2)

/-- C8 (amended): on a cache with capacity ≥ 1 whose entry count has reached
the capacity and whose keys are distinct (as they are for a Go map), a `Put`
of a new key removes exactly one stored entry — one whose insertion
timestamp is minimal over all stored entries — appends the new entry, and
increments the eviction counter by one. -/
theorem put_evicts_oldest (c : Cache) (now : Nat) (input : List Nat)
    (results : List MatchResult) (duration : Nat)
    (hcap : 1 ≤ c.maxSize) (hfull : c.maxSize ≤ c.entries.length)
    (hnodup : (c.entries.map Prod.fst).Nodup)
    (hnew : ∀ kv ∈ c.entries, kv.1 ≠ fnvHash input) :
    ∃ l₁ l₂ kv, c.entries = l₁ ++ kv :: l₂ ∧
      (∀ kv' ∈ c.entries, kv.2.Created ≤ kv'.2.Created) ∧
      (c.put now input results duration).entries =
        l₁ ++ l₂ ++ [(fnvHash input, ⟨input, results, duration, now, 0⟩)] ∧
      (c.put now input results duration).statsEvictions = c.statsEvictions + 1 := by
  rcases hent : c.entries with _ | ⟨kv0, rest⟩
  · rw [hent] at hfull
    simp at hfull
    omega
  · obtain ⟨homem0, hmin0⟩ := foldl_oldest_spec kv0 rest
    set oldest := rest.foldl
      (fun best kv => if kv.2.Created < best.2.Created then kv else best) kv0 with holdest
    have homem : oldest ∈ c.entries := by rw [hent]; exact homem0
    obtain ⟨a', l₁, l₂, hl₁, hpa', hsplit, herase⟩ :=
      @List.exists_of_eraseP _ (fun x => decide (x.1 = oldest.1)) _ _ homem (by simp)
    have ha'mem : a' ∈ c.entries := by
      rw [hsplit]
      exact List.mem_append_right _ (List.mem_cons_self _ _)
    have ha'key : a'.1 = oldest.1 := by simpa using hpa'
    have ha' : a' = oldest := List.inj_on_of_nodup_map hnodup ha'mem homem ha'key
    have hevict : c.evictLRU =
        { c with entries := c.entries.eraseP (fun kv => kv.1 = oldest.1),
                 statsEvictions := c.statsEvictions + 1 } := by
      unfold Cache.evictLRU
      rw [hent]
    have hanyf : (c.evictLRU).entries.any (fun kv => kv.1 = fnvHash input) = false := by
      rw [hevict]
      simp only [List.any_eq_false, decide_eq_true_eq]
      intro kv hkv
      exact hnew kv (List.eraseP_subset _ hkv)
    have hput : (c.put now input results duration).entries =
        c.entries.eraseP (fun kv => kv.1 = oldest.1) ++
          [(fnvHash input, ⟨input, results, duration, now, 0⟩)] ∧
        (c.put now input results duration).statsEvictions = c.statsEvictions + 1 := by
      unfold Cache.put
      simp only [hfull, if_true, hanyf, Bool.false_eq_true, if_false]
      rw [hevict]
      exact ⟨rfl, rfl⟩
    refine ⟨l₁, l₂, oldest, ?_, ?_, ?_, ?_⟩
    · rw [← ha', ← hsplit]
      exact hent.symm
    · intro kv' hkv'
      exact hmin0 kv' hkv'
    · rw [hput.1, herase]
    · exact hput.2

/-- C8 (witness): capacity 2, `put(A); put(B); put(C)` — instantiates
`put_evicts_oldest` at the cache holding A and B; an oldest-insertion entry
(A) is removed, the eviction counter becomes 1. -/
theorem put_evicts_oldest_witness :
    (1 ≤ (((NewCache 2).put 0 [65] [] 0).put 1 [66] [] 0).maxSize) ∧
    (∃ l₁ l₂ kv,
      (((NewCache 2).put 0 [65] [] 0).put 1 [66] [] 0).entries = l₁ ++ kv :: l₂ ∧
      (∀ kv' ∈ (((NewCache 2).put 0 [65] [] 0).put 1 [66] [] 0).entries,
        kv.2.Created ≤ kv'.2.Created) ∧
      (((((NewCache 2).put 0 [65] [] 0).put 1 [66] [] 0)).put 2 [67] [] 0).entries =
        l₁ ++ l₂ ++ [(fnvHash [67], ⟨[67], [], 0, 2, 0⟩)] ∧
      (((((NewCache 2).put 0 [65] [] 0).put 1 [66] [] 0)).put 2 [67] [] 0).statsEvictions =
        (((NewCache 2).put 0 [65] [] 0).put 1 [66] [] 0).statsEvictions + 1) :=
  ⟨by decide,
   put_evicts_oldest (((NewCache 2).put 0 [65] [] 0).put 1 [66] [] 0) 2 [67] [] 0
     (by decide) (by decide) (by decide) (by decide)⟩

/-- `find?` by key returns `none` exactly when the key is absent. -/
theorem find?_eq_none_of_key_not_mem (l : List (Nat × CacheEntry)) (key : Nat)
    (h : key ∉ l.map Prod.fst) :
    l.find? (fun kv => kv.1 = key) = none := by
  induction l with
  | nil => rfl
  | cons kv l ih =>
    simp only [List.map_cons, List.mem_cons, not_or] at h
    rw [List.find?_cons_of_neg _ (by simpa using Ne.symm h.1)]
    exact ih h.2

/-- `find?` by key succeeds when the key is present. -/
theorem find?_eq_some_of_key_mem (l : List (Nat × CacheEntry)) (key : Nat)
    (h : key ∈ l.map Prod.fst) :
    ∃ kv, l.find? (fun kv => kv.1 = key) = some kv := by
  induction l with
  | nil => simp at h
  | cons kv l ih =>
    by_cases hk : kv.1 = key
    · exact ⟨kv, List.find?_cons_of_pos _ (by simpa using hk)⟩
    · rw [List.find?_cons_of_neg _ (by simpa using hk)]
      refine ih ?_
      simp only [List.map_cons, List.mem_cons] at h
      rcases h with h | h
      · exact absurd h.symm hk
      · exact h

/-- The hit-path update of `Get` preserves the key list. -/
theorem keys_map_bump (l : List (Nat × CacheEntry)) (key : Nat) :
    (l.map (fun kv' => if kv'.1 = key then (kv'.1, { kv'.2 with Hits := kv'.2.Hits + 1 })
      else kv')).map Prod.fst = l.map Prod.fst := by
  induction l with
  | nil => rfl
  | cons kv l ih =>
    by_cases hk : kv.1 = key
    · simp [hk, ih]
    · simp [hk, ih]

/-- Effect of a `Search` that misses on a cache with spare room: the text's
hash key is appended, the miss counter increments, everything else relevant
is preserved. -/
theorem Search_step_miss (m : AhoCorasickMatcher) (t : List Nat)
    (hnot : fnvHash t ∉ m.cache.entries.map Prod.fst)
    (hroom : m.cache.entries.length < m.cache.maxSize) :
    ((Search m t).2.cache.entries.map Prod.fst
        = m.cache.entries.map Prod.fst ++ [fnvHash t]) ∧
    (Search m t).2.cache.statsHits = m.cache.statsHits ∧
    (Search m t).2.cache.statsMisses = m.cache.statsMisses + 1 ∧
    (Search m t).2.cache.maxSize = m.cache.maxSize := by
  have hfind := find?_eq_none_of_key_not_mem m.cache.entries (fnvHash t) hnot
  have hget : m.cache.get t = (([], 0, false),
      { m.cache with statsMisses := m.cache.statsMisses + 1 }) := by
    unfold Cache.get
    dsimp only
    rw [hfind]
  have hnoevict : ¬ m.cache.maxSize ≤ m.cache.entries.length := by omega
  have hanyf : m.cache.entries.any (fun kv => kv.1 = fnvHash t) = false := by
    simp only [List.any_eq_false, decide_eq_true_eq]
    intro kv hkv
    intro he
    exact hnot (he ▸ List.mem_map_of_mem Prod.fst hkv)
  unfold Search
  rw [hget]
  simp only [Bool.false_eq_true, if_false]
  unfold Cache.put
  simp only [hnoevict, if_false, hanyf, Bool.false_eq_true]
  refine ⟨?_, ?_, ?_, ?_⟩ <;> simp

/-- Effect of a `Search` that hits: counters move to hits, keys and sizes are
preserved. -/
theorem Search_step_hit (m : AhoCorasickMatcher) (t : List Nat)
    (hmem : fnvHash t ∈ m.cache.entries.map Prod.fst) :
    ((Search m t).2.cache.entries.map Prod.fst = m.cache.entries.map Prod.fst) ∧
    (Search m t).2.cache.statsHits = m.cache.statsHits + 1 ∧
    (Search m t).2.cache.statsMisses = m.cache.statsMisses ∧
    (Search m t).2.cache.maxSize = m.cache.maxSize := by
  obtain ⟨kv, hfind⟩ := find?_eq_some_of_key_mem m.cache.entries (fnvHash t) hmem
  have hget : m.cache.get t = ((kv.2.Results, kv.2.Duration, true),
      { m.cache with
        entries := m.cache.entries.map (fun kv' =>
          if kv'.1 = fnvHash t then (kv'.1, { kv'.2 with Hits := kv'.2.Hits + 1 })
          else kv'),
        statsHits := m.cache.statsHits + 1 }) := by
    unfold Cache.get
    dsimp only
    rw [hfind]
  unfold Search
  rw [hget]
  simp only [if_true]
  refine ⟨keys_map_bump _ _, ?_, ?_, ?_⟩ <;> simp

/-- Searching a list of pairwise-hash-distinct fresh texts on a cache with
enough room: every search misses, the keys accumulate in order, and no hit
is recorded. -/
theorem searchAll_fresh (ts : List (List Nat)) :
    ∀ m : AhoCorasickMatcher,
    (ts.map fnvHash).Nodup →
    (∀ t ∈ ts, fnvHash t ∉ m.cache.entries.map Prod.fst) →
    m.cache.entries.length + ts.length ≤ m.cache.maxSize →
    ((searchAll m ts).cache.entries.map Prod.fst
        = m.cache.entries.map Prod.fst ++ ts.map fnvHash) ∧
    (searchAll m ts).cache.statsHits = m.cache.statsHits ∧
    (searchAll m ts).cache.statsMisses = m.cache.statsMisses + ts.length ∧
    (searchAll m ts).cache.maxSize = m.cache.maxSize := by
  induction ts with
  | nil => intro m _ _ _; simp [searchAll]
  | cons t ts ih =>
    intro m hnodup hfresh hroom
    have hlen : m.cache.entries.length = (m.cache.entries.map Prod.fst).length := by simp
    have hstep := Search_step_miss m t (hfresh t (by simp))
      (by simp only [List.length_cons] at hroom; omega)
    have hnc : fnvHash t ∉ ts.map fnvHash ∧ (ts.map fnvHash).Nodup :=
      List.nodup_cons.mp (by rw [List.map_cons] at hnodup; exact hnodup)
    have hnodup' : (ts.map fnvHash).Nodup := hnc.2
    have hfresh' : ∀ t' ∈ ts, fnvHash t' ∉ (Search m t).2.cache.entries.map Prod.fst := by
      intro t' ht'
      rw [hstep.1]
      simp only [List.mem_append, List.mem_singleton, not_or]
      constructor
      · exact hfresh t' (List.mem_cons_of_mem _ ht')
      · intro he
        exact hnc.1 (he ▸ List.mem_map_of_mem fnvHash ht')
    have hroom' : (Search m t).2.cache.entries.length + ts.length ≤
        (Search m t).2.cache.maxSize := by
      have h1 : (Search m t).2.cache.entries.length =
          m.cache.entries.length + 1 := by
        have := congrArg List.length hstep.1
        simpa using this
      rw [h1, hstep.2.2.2]
      simp only [List.length_cons] at hroom
      omega
    obtain ⟨k1, k2, k3, k4⟩ := ih (Search m t).2 hnodup' hfresh' hroom'
    have hall : searchAll m (t :: ts) = searchAll (Search m t).2 ts := by
      simp [searchAll]
    rw [hall]
    refine ⟨?_, ?_, ?_, ?_⟩
    · rw [k1, hstep.1]
      simp
    · rw [k2, hstep.2.1]
    · rw [k3, hstep.2.2.1]
      simp only [List.length_cons]
      omega
    · rw [k4, hstep.2.2.2]

/-- Repeating a search of a text whose key is cached: every search hits. -/
theorem searchAll_repeat (M : Nat) :
    ∀ m : AhoCorasickMatcher, ∀ t : List Nat,
    fnvHash t ∈ m.cache.entries.map Prod.fst →
    (searchAll m (List.replicate M t)).cache.statsHits = m.cache.statsHits + M ∧
    (searchAll m (List.replicate M t)).cache.statsMisses = m.cache.statsMisses := by
  induction M with
  | zero => intro m t _; simp [searchAll]
  | succ M ih =>
    intro m t hmem
    have hstep := Search_step_hit m t hmem
    have hmem' : fnvHash t ∈ (Search m t).2.cache.entries.map Prod.fst := by
      rw [hstep.1]; exact hmem
    have hall : searchAll m (List.replicate (M + 1) t) =
        searchAll (Search m t).2 (List.replicate M t) := by
      simp [searchAll, List.replicate_succ]
    rw [hall]
    obtain ⟨k1, k2⟩ := ih (Search m t).2 t hmem'
    refine ⟨?_, ?_⟩
    · rw [k1, hstep.2.1]; omega
    · rw [k2, hstep.2.2.1]

/-- C7 (amended): `HitRatio` returns the *percentage*
`100 · hits / (hits + misses)` (0 when no query has occurred); consequently,
after `N` distinct-text searches (pairwise-distinct FNV-1a hashes) followed
by `M` repeated searches of the first text on a fresh engine with capacity
≥ N, it returns `100 · M / (N + M)`, not the fraction `M / (N + M)`. -/
theorem hitRatio_scenario (patterns : List (List Nat)) (cap : Nat)
    (t0 : List Nat) (rest : List (List Nat)) (M : Nat)
    (hnodup : ((t0 :: rest).map fnvHash).Nodup)
    (hcap : (t0 :: rest).length ≤ cap) :
    (NewAhoCorasickMatcher patterns cap).cache.hitRatioPercent = 0 ∧
    (searchAll (searchAll (NewAhoCorasickMatcher patterns cap) (t0 :: rest))
        (List.replicate M t0)).cache.hitRatioPercent =
      (M : ℚ) / (((t0 :: rest).length : ℚ) + (M : ℚ)) * 100 := by
  constructor
  · simp [NewAhoCorasickMatcher, NewCache, Cache.hitRatioPercent]
  · have h1 := searchAll_fresh (t0 :: rest) (NewAhoCorasickMatcher patterns cap)
      hnodup (by simp [NewAhoCorasickMatcher, NewCache])
      (by simpa [NewAhoCorasickMatcher, NewCache] using hcap)
    have hmem : fnvHash t0 ∈
        (searchAll (NewAhoCorasickMatcher patterns cap) (t0 :: rest)).cache.entries.map
          Prod.fst := by
      rw [h1.1]
      simp [NewAhoCorasickMatcher, NewCache]
    have h2 := searchAll_repeat M
      (searchAll (NewAhoCorasickMatcher patterns cap) (t0 :: rest)) t0 hmem
    have hhits : (searchAll (searchAll (NewAhoCorasickMatcher patterns cap) (t0 :: rest))
        (List.replicate M t0)).cache.statsHits = M := by
      rw [h2.1, h1.2.1]
      simp [NewAhoCorasickMatcher, NewCache]
    have hmiss : (searchAll (searchAll (NewAhoCorasickMatcher patterns cap) (t0 :: rest))
        (List.replicate M t0)).cache.statsMisses = (t0 :: rest).length := by
      rw [h2.2, h1.2.2.1]
      simp [NewAhoCorasickMatcher, NewCache]
    rw [Cache.hitRatioPercent, hhits, hmiss]
    have hne : M + (t0 :: rest).length ≠ 0 := by simp
    rw [if_neg hne]
    have : ((M + (t0 :: rest).length : Nat) : ℚ) =
        ((t0 :: rest).length : ℚ) + (M : ℚ) := by
      push_cast
      ring
    rw [this]

/-- C7 (witness): `hitRatio_scenario` instantiated with `N = 2` texts
(`"a"`, `"b"`) and `M = 3`: the hit ratio is `100 · 3 / 5 = 60`, not `3/5`. -/
theorem hitRatio_scenario_witness :
    (([[97], [98]] : List (List Nat)).map fnvHash).Nodup ∧
    (searchAll (searchAll (NewAhoCorasickMatcher [[99]] 10) [[97], [98]])
        (List.replicate 3 [97])).cache.hitRatioPercent =
      (3 : ℚ) / (((2 : Nat) : ℚ) + (3 : ℚ)) * 100 :=
  ⟨by decide,
   (hitRatio_scenario [[99]] 10 [97] [[98]] 3 (by decide) (by decide)).2⟩

/-- Every record produced by the emission loop either was already in the
accumulator or is a freshly emitted record: its pattern id passed the
`patternID < len(patterns)` guard, its length is the pattern's byte length,
its confidence is 95, its offset satisfies the Go arithmetic
`offset = i - patternLen + 1` and the bounds guard, and its `Text` field is
the corresponding slice of the query text. -/
theorem emitOutputs_mem (patterns : List (List Nat)) (text : List Nat) (i : Nat)
    (outs : List Nat) :
    ∀ results, ∀ r ∈ emitOutputs patterns text i outs results,
      r ∈ results ∨
        (r.PatternID < patterns.length ∧
         r.Length = (patterns.getD r.PatternID []).length ∧
         r.Confidence = 95 ∧
         ((r.Offset : Int) = (i : Int) - (r.Length : Int) + 1) ∧
         i + 1 ≤ text.length ∧
         r.Offset + r.Length ≤ text.length ∧
         r.Text = (text.drop r.Offset).take r.Length) := by
  induction outs with
  | nil => intro results r hr; exact Or.inl hr
  | cons pid outs ih =>
    intro results r hr
    have hexp : emitOutputs patterns text i (pid :: outs) results =
        emitOutputs patterns text i outs
          (if pid < patterns.length then
            (if 0 ≤ (i : Int) - ((patterns.getD pid []).length : Int) + 1 ∧
                (i : Int) - ((patterns.getD pid []).length : Int) + 1 +
                  ((patterns.getD pid []).length : Int) ≤ (text.length : Int) then
              results ++ [⟨((i : Int) - ((patterns.getD pid []).length : Int) + 1).toNat,
                (patterns.getD pid []).length, pid, 95,
                (text.drop ((i : Int) - ((patterns.getD pid []).length : Int) + 1).toNat).take
                  (patterns.getD pid []).length⟩]
            else results)
          else results) := rfl
    rw [hexp] at hr
    rcases ih _ r hr with h | h
    · by_cases h1 : pid < patterns.length
      · rw [if_pos h1] at h
        by_cases h2 : 0 ≤ (i : Int) - ((patterns.getD pid []).length : Int) + 1 ∧
            (i : Int) - ((patterns.getD pid []).length : Int) + 1 +
              ((patterns.getD pid []).length : Int) ≤ (text.length : Int)
        · rw [if_pos h2] at h
          rcases List.mem_append.mp h with h | h
          · exact Or.inl h
          · right
            have hre := List.mem_singleton.mp h
            subst hre
            have hoff : ((((i : Int) - ((patterns.getD pid []).length : Int) + 1).toNat : Int))
                = (i : Int) - ((patterns.getD pid []).length : Int) + 1 :=
              Int.toNat_of_nonneg h2.1
            obtain ⟨h2a, h2b⟩ := h2
            dsimp only
            refine ⟨h1, rfl, rfl, ?_, ?_, ?_, rfl⟩
            · exact hoff
            · omega
            · omega
        · rw [if_neg h2] at h
          exact Or.inl h
      · rw [if_neg h1] at h
        exact Or.inl h
    · exact Or.inr h

/-- Every record in the final scan accumulator was in the initial one or was
emitted at some event index, with the guarantees of `emitOutputs_mem`. -/
theorem scanLoop_mem (a : AhoCorasickAutomaton) (patterns : List (List Nat))
    (text : List Nat) (evs : List (Nat × Nat)) :
    ∀ acc, ∀ r ∈ (scanLoop a patterns text evs acc).1,
      r ∈ acc.1 ∨ ∃ i : Nat,
        (r.PatternID < patterns.length ∧
         r.Length = (patterns.getD r.PatternID []).length ∧
         r.Confidence = 95 ∧
         ((r.Offset : Int) = (i : Int) - (r.Length : Int) + 1) ∧
         i + 1 ≤ text.length ∧
         r.Offset + r.Length ≤ text.length ∧
         r.Text = (text.drop r.Offset).take r.Length) := by
  induction evs with
  | nil => intro acc r hr; exact Or.inl hr
  | cons ev evs ih =>
    intro acc r hr
    have hexp : scanLoop a patterns text (ev :: evs) acc =
        scanLoop a patterns text evs (scanStep a patterns text (acc.1, acc.2) ev) := by
      rcases acc with ⟨res, st⟩
      rfl
    rw [hexp] at hr
    rcases ih _ r hr with h | h
    · unfold scanStep at h
      by_cases hc : 256 ≤ ev.2
      · rw [if_pos hc] at h
        exact Or.inl h
      · rw [if_neg hc] at h
        simp only at h
        rcases emitOutputs_mem patterns text ev.1 _ _ r h with h2 | h2
        · exact Or.inl h2
        · exact Or.inr ⟨ev.1, h2⟩
    · exact Or.inr h

/-- C10: implicit bounds safety of `Search`.  Every match record returned by
a search satisfies `Offset + Length ≤ len(text)` (with `Offset ≥ 0` by the
sign guard, represented exactly by `Nat`), and its `Text` field is the slice
`text[Offset : Offset+Length]` of the original, unfolded query text;
candidates failing the offset guards are dropped, never emitted. -/
theorem scanText_bounds_safe (patterns : List (List Nat)) (cap : Nat)
    (text : List Nat) (r : MatchResult)
    (hr : r ∈ (Search (NewAhoCorasickMatcher patterns cap) text).1.1) :
    r.Offset + r.Length ≤ text.length ∧
    r.Text = (text.drop r.Offset).take r.Length := by
  rw [Search_fresh] at hr
  unfold scanText at hr
  rcases scanLoop_mem _ patterns text _ _ r hr with h | ⟨i, h⟩
  · simp at h
  · exact ⟨h.2.2.2.2.2.1, h.2.2.2.2.2.2⟩

/-- C10 (witness): concrete instance of `scanText_bounds_safe` for the match
of pattern `"ab"` in text `"xabx"`. -/
theorem scanText_bounds_safe_witness :
    (⟨1, 2, 0, 95, [97, 98]⟩ : MatchResult) ∈
      (Search (NewAhoCorasickMatcher [[97, 98]] 5) [120, 97, 98, 120]).1.1 ∧
    ((⟨1, 2, 0, 95, [97, 98]⟩ : MatchResult).Offset +
        (⟨1, 2, 0, 95, [97, 98]⟩ : MatchResult).Length ≤
      ([120, 97, 98, 120] : List Nat).length ∧
     (⟨1, 2, 0, 95, [97, 98]⟩ : MatchResult).Text =
      (([120, 97, 98, 120] : List Nat).drop
        (⟨1, 2, 0, 95, [97, 98]⟩ : MatchResult).Offset).take
        (⟨1, 2, 0, 95, [97, 98]⟩ : MatchResult).Length) :=
  ⟨by decide,
   scanText_bounds_safe [[97, 98]] 5 [120, 97, 98, 120] ⟨1, 2, 0, 95, [97, 98]⟩
     (by decide)⟩

/-- Reading a state after `set`: the written value inside bounds, otherwise
the old read. -/
theorem getState_set (sts : List ACState) (i : Nat) (a : ACState) (j : Nat) :
    getState (sts.set i a) j =
      if i = j ∧ i < sts.length then a else getState sts j := by
  unfold getState
  rw [List.getD_eq_getElem?_getD, List.getD_eq_getElem?_getD, List.getElem?_set]
  by_cases h1 : i = j
  · subst h1
    by_cases h2 : i < sts.length
    · simp [h2]
    · simp [h2, List.getElem?_eq_none (Nat.le_of_not_lt h2)]
  · simp [h1]

/-- Reading inside the left part of an append. -/
theorem getState_append_left (sts l : List ACState) (j : Nat) (h : j < sts.length) :
    getState (sts ++ l) j = getState sts j := by
  unfold getState
  rw [List.getD_eq_getElem?_getD, List.getD_eq_getElem?_getD, List.getElem?_append_left h]

/-- Reading past the end yields the zero state. -/
theorem getState_of_ge (sts : List ACState) (j : Nat) (h : sts.length ≤ j) :
    getState sts j = newACState := by
  unfold getState
  rw [List.getD_eq_getElem?_getD, List.getElem?_eq_none h]
  rfl

/-- Appending a fresh zero state never changes any read. -/
theorem getState_append_default (sts : List ACState) (j : Nat) :
    getState (sts ++ [newACState]) j = getState sts j := by
  rcases Nat.lt_trichotomy j sts.length with h | h | h
  · exact getState_append_left _ _ _ h
  · subst h
    unfold getState
    rw [List.getD_eq_getElem?_getD, List.getD_eq_getElem?_getD,
      List.getElem?_concat_length, List.getElem?_eq_none (le_refl _)]
    rfl
  · rw [getState_of_ge _ _ (by simp; omega), getState_of_ge _ _ (by omega)]

/-- A trie-construction step never changes any state's output list. -/
theorem trieStep_outputs (acc : List ACState × Nat × Nat) (c j : Nat) :
    (getState (trieStep acc c).1 j).outputs = (getState acc.1 j).outputs := by
  rcases acc with ⟨sts, cnt, st⟩
  unfold trieStep
  dsimp only
  by_cases h1 : 256 ≤ c
  · rw [if_pos h1]
  · rw [if_neg h1]
    by_cases h2 : (getState sts st).next c = 0
    · rw [if_pos h2]
      dsimp only
      rw [getState_set]
      by_cases h3 : st = j ∧ st < (sts ++ [newACState]).length
      · rw [if_pos h3]
        dsimp only
        rw [getState_append_default, h3.1]
      · rw [if_neg h3, getState_append_default]
    · rw [if_neg h2]

/-- A trie-construction step never shrinks the state array. -/
theorem trieStep_length_le (acc : List ACState × Nat × Nat) (c : Nat) :
    acc.1.length ≤ (trieStep acc c).1.length := by
  rcases acc with ⟨sts, cnt, st⟩
  unfold trieStep
  dsimp only
  by_cases h1 : 256 ≤ c
  · rw [if_pos h1]
  · rw [if_neg h1]
    by_cases h2 : (getState sts st).next c = 0
    · rw [if_pos h2]
      simp
    · rw [if_neg h2]

/-- The per-character trie loop changes no output list. -/
theorem trieInsertLoop_outputs (cs : List Nat) :
    ∀ acc : List ACState × Nat × Nat, ∀ j,
      (getState (trieInsertLoop cs acc).1 j).outputs = (getState acc.1 j).outputs := by
  induction cs with
  | nil => intro acc j; rfl
  | cons c cs ih =>
    intro acc j
    rcases acc with ⟨sts, cnt, st⟩
    show (getState (trieInsertLoop cs (trieStep (sts, cnt, st) c)).1 j).outputs = _
    rw [ih _ j, trieStep_outputs]

/-- The per-character trie loop never shrinks the state array. -/
theorem trieInsertLoop_length_le (cs : List Nat) :
    ∀ acc : List ACState × Nat × Nat,
      acc.1.length ≤ (trieInsertLoop cs acc).1.length := by
  induction cs with
  | nil => intro acc; exact le_refl _
  | cons c cs ih =>
    intro acc
    rcases acc with ⟨sts, cnt, st⟩
    exact le_trans (trieStep_length_le (sts, cnt, st) c) (ih _)

/-- Inserting a pattern never shrinks the state array. -/
theorem insertPattern_length_le (acc : List ACState × Nat) (pid : Nat) (p : List Nat) :
    acc.1.length ≤ (insertPattern acc pid p).1.length := by
  unfold insertPattern
  dsimp only
  rw [List.length_set]
  exact trieInsertLoop_length_le ((goRunes (goToLower p)).map Prod.snd) (acc.1, acc.2, 0)

/-- Inserting a pattern either leaves the root's outputs unchanged or appends
exactly the pattern's id (the latter when the walk ends back at the root). -/
theorem insertPattern_root_outputs (acc : List ACState × Nat) (pid : Nat) (p : List Nat) :
    (getState (insertPattern acc pid p).1 0).outputs = (getState acc.1 0).outputs ∨
    (getState (insertPattern acc pid p).1 0).outputs =
      (getState acc.1 0).outputs ++ [pid] := by
  unfold insertPattern
  dsimp only
  rw [getState_set]
  set r := trieInsertLoop ((goRunes (goToLower p)).map Prod.snd) (acc.1, acc.2, 0) with hr
  by_cases h : r.2.2 = 0 ∧ r.2.2 < r.1.length
  · rw [if_pos h]
    right
    dsimp only
    rw [← h.1, trieInsertLoop_outputs]
  · rw [if_neg h]
    left
    rw [trieInsertLoop_outputs]

/-- Inserting the empty pattern appends its id to the root's outputs (the
walk over zero characters stays at the root). -/
theorem insertPattern_empty_root (acc : List ACState × Nat) (pid : Nat)
    (h : 0 < acc.1.length) :
    (getState (insertPattern acc pid []).1 0).outputs =
      (getState acc.1 0).outputs ++ [pid] := by
  unfold insertPattern
  dsimp only
  have hch : ((goRunes (goToLower ([] : List Nat))).map Prod.snd) = [] := rfl
  rw [hch]
  show (getState (acc.1.set 0 _) 0).outputs = _
  rw [getState_set, if_pos ⟨rfl, h⟩]
  rfl

/-- Over the whole trie phase: the ids of empty patterns all appear in the
root's outputs, existing root outputs are preserved, and the state array
stays non-empty. -/
theorem buildTrieLoop_root_mem (ps : List (Nat × List Nat)) :
    ∀ acc : List ACState × Nat, 0 < acc.1.length →
      (∀ pid, (pid, ([] : List Nat)) ∈ ps →
        pid ∈ (getState (buildTrieLoop ps acc).1 0).outputs) ∧
      (∀ i, i ∈ (getState acc.1 0).outputs →
        i ∈ (getState (buildTrieLoop ps acc).1 0).outputs) ∧
      0 < (buildTrieLoop ps acc).1.length := by
  induction ps with
  | nil =>
    intro acc h
    exact ⟨fun pid hmem => absurd hmem (List.not_mem_nil _), fun i hi => hi, h⟩
  | cons q ps ih =>
    intro acc h
    rcases acc with ⟨sts, cnt⟩
    have hstep : buildTrieLoop (q :: ps) (sts, cnt) =
        buildTrieLoop ps (insertPattern (sts, cnt) q.1 q.2) := rfl
    have hlen : 0 < (insertPattern (sts, cnt) q.1 q.2).1.length :=
      lt_of_lt_of_le h (insertPattern_length_le (sts, cnt) q.1 q.2)
    obtain ⟨k1, k2, k3⟩ := ih (insertPattern (sts, cnt) q.1 q.2) hlen
    rw [hstep]
    refine ⟨?_, ?_, k3⟩
    · intro pid hmem
      rcases List.mem_cons.mp hmem with hh | hh
      · have hq : q = (pid, ([] : List Nat)) := hh.symm
        subst hq
        refine k2 pid ?_
        rw [insertPattern_empty_root (sts, cnt) pid h]
        simp
      · exact k1 pid hh
    · intro i hi
      refine k2 i ?_
      rcases insertPattern_root_outputs (sts, cnt) q.1 q.2 with he | he
      · rw [he]; exact hi
      · rw [he]; exact List.mem_append_left _ hi

/-- The failure-initialisation loop never touches the root state. -/
theorem initLoop_root (cs : List Nat) :
    ∀ acc : List ACState × List Nat,
      getState (initLoop cs acc).1 0 = getState acc.1 0 := by
  induction cs with
  | nil => intro acc; rfl
  | cons c cs ih =>
    intro acc
    rcases acc with ⟨sts, q⟩
    unfold initLoop
    dsimp only
    by_cases h : (getState sts 0).next c ≠ 0
    · rw [if_pos h]
      rw [ih _]
      dsimp only
      rw [getState_set, if_neg (fun hc => h hc.1)]
    · rw [if_neg h]
      exact ih _

/-- A BFS child step never touches the root state. -/
theorem bfsChild_root (r : Nat) (acc : List ACState × List Nat) (c : Nat) :
    getState (bfsChild r acc c).1 0 = getState acc.1 0 := by
  rcases acc with ⟨sts, q⟩
  unfold bfsChild
  dsimp only
  by_cases h : (getState sts r).next c = 0
  · rw [if_pos h]
  · rw [if_neg h]
    dsimp only
    rw [getState_set, if_neg (by intro hc; exact h hc.1), getState_set,
      if_neg (by intro hc; exact h hc.1)]

/-- The BFS per-byte loop never touches the root state. -/
theorem bfsChildLoop_root (r : Nat) (cs : List Nat) :
    ∀ acc : List ACState × List Nat,
      getState (bfsChildLoop r cs acc).1 0 = getState acc.1 0 := by
  induction cs with
  | nil => intro acc; rfl
  | cons c cs ih =>
    intro acc
    rcases acc with ⟨sts, q⟩
    show getState (bfsChildLoop r cs (bfsChild r (sts, q) c)).1 0 = _
    rw [ih _, bfsChild_root]

/-- The BFS queue loop never touches the root state. -/
theorem bfsLoop_root (fuel : Nat) :
    ∀ acc : List ACState × List Nat,
      getState (bfsLoop fuel acc) 0 = getState acc.1 0 := by
  induction fuel with
  | zero => intro acc; rfl
  | succ fuel ih =>
    intro acc
    rcases acc with ⟨sts, q⟩
    rcases q with _ | ⟨r, q'⟩
    · rfl
    · show getState (bfsLoop fuel (bfsChildLoop r (List.range 256) (sts, q'))) 0 = _
      rw [ih _, bfsChildLoop_root]

/-- C6 (amended): empty patterns are *not* rejected: for every pattern list,
the id of each empty pattern is appended to the root state's output list of
the built automaton (and a scan can therefore emit zero-length matches
carrying that id, as `empty_pattern_emits_match` shows concretely). -/
theorem empty_pattern_root_output (L : List (List Nat)) (i : Nat)
    (h : L[i]? = some ([] : List Nat)) :
    i ∈ (getState (buildAhoCorasickAutomaton L).states 0).outputs := by
  have hmem : (i, ([] : List Nat)) ∈ L.enum := by
    rw [List.mk_mem_enum_iff_getElem?]
    exact h
  unfold buildAhoCorasickAutomaton
  dsimp only
  rw [bfsLoop_root]
  dsimp only
  unfold initQueue
  rw [initLoop_root]
  dsimp only
  unfold buildTrie
  have hroot := buildTrieLoop_root_mem L.enum ([newACState], 1) (by simp)
  exact hroot.1 i hmem

/-- C6 (witness): `empty_pattern_root_output` at the one-element list
containing only the empty pattern. -/
theorem empty_pattern_root_output_witness :
    ([[]] : List (List Nat))[0]? = some ([] : List Nat) ∧
    0 ∈ (getState (buildAhoCorasickAutomaton [[]]).states 0).outputs :=
  ⟨by decide, empty_pattern_root_output [[]] 0 (by decide)⟩

/-- A scan step on a rune ≥ 256 leaves the accumulator unchanged. -/
theorem scanStep_skip (a : AhoCorasickAutomaton) (patterns : List (List Nat))
    (text : List Nat) (acc : List MatchResult × Nat) (ev : Nat × Nat)
    (h : 256 ≤ ev.2) :
    scanStep a patterns text acc ev = acc := by
  unfold scanStep
  rw [if_pos h]

/-- Scanning ignores every event whose rune is ≥ 256: the scan over the full
event list equals the scan over the sub-list of events with rune < 256 (in
particular skipped runes do not reset the state and never fail). -/
theorem scanLoop_skip_filter (a : AhoCorasickAutomaton) (patterns : List (List Nat))
    (text : List Nat) (evs : List (Nat × Nat)) :
    ∀ acc : List MatchResult × Nat,
      scanLoop a patterns text evs acc =
        scanLoop a patterns text (evs.filter (fun ev => ev.2 < 256)) acc := by
  induction evs with
  | nil => intro acc; rfl
  | cons ev evs ih =>
    intro acc
    rcases acc with ⟨res, st⟩
    by_cases hc : 256 ≤ ev.2
    · have hfilter : ((ev :: evs).filter (fun ev => ev.2 < 256)) =
          evs.filter (fun ev => ev.2 < 256) := by
        rw [List.filter_cons]
        have : ¬ ev.2 < 256 := by omega
        simp [this]
      rw [hfilter]
      show scanLoop a patterns text evs (scanStep a patterns text (res, st) ev) = _
      rw [scanStep_skip _ _ _ _ _ hc]
      exact ih (res, st)
    · have hfilter : ((ev :: evs).filter (fun ev => ev.2 < 256)) =
          ev :: evs.filter (fun ev => ev.2 < 256) := by
        rw [List.filter_cons]
        have : ev.2 < 256 := by omega
        simp [this]
      rw [hfilter]
      show scanLoop a patterns text evs (scanStep a patterns text (res, st) ev) =
        scanLoop a patterns text (ev :: evs.filter (fun ev => ev.2 < 256)) (res, st)
      show _ = scanLoop a patterns text (evs.filter (fun ev => ev.2 < 256))
        (scanStep a patterns text (res, st) ev)
      exact ih _

/-- C5 (amended): non-ASCII input is handled per decoded *rune*, not per raw
byte: (a) runes ≥ 256 are skipped during scanning — the scan equals the scan
of the rune-events below 256, so they never change the state or cause a
failure (they are likewise skipped at construction, `trieStep`); and (b) a
pattern consisting of one rune in [128, 256) (two UTF-8 bytes) is stored as
a single goto edge on the rune's Unicode-lowercased value. -/
theorem scan_runes_not_bytes :
    (∀ (a : AhoCorasickAutomaton) (patterns : List (List Nat)) (text : List Nat)
        (evs : List (Nat × Nat)) (acc : List MatchResult × Nat),
      scanLoop a patterns text evs acc =
        scanLoop a patterns text (evs.filter (fun ev => ev.2 < 256)) acc) ∧
    (∀ r : Nat, 128 ≤ r → r < 256 →
      (getState (buildAhoCorasickAutomaton [encodeRune r]).states 0).next
        (toLowerRune r) ≠ 0) := by
  constructor
  · intro a patterns text evs acc
    exact scanLoop_skip_filter a patterns text evs acc
  · have hall : ∀ r ∈ List.range' 128 128,
        (getState (buildAhoCorasickAutomaton [encodeRune r]).states 0).next
          (toLowerRune r) ≠ 0 := by decide
    intro r h1 h2
    exact hall r (by rw [List.mem_range'_1]; omega)

/-- C5 (witness): `scan_runes_not_bytes` instantiated: the euro-sign event
(rune 8364) is dropped from a concrete scan, and the Latin-1 pattern `"é"`
(rune 233) is stored as a root edge on 233. -/
theorem scan_runes_not_bytes_witness :
    (scanLoop (buildAhoCorasickAutomaton [[97]]) [[97]] [97] [(0, 8364), (0, 97)] ([], 0) =
      scanLoop (buildAhoCorasickAutomaton [[97]]) [[97]] [97]
        ([(0, 8364), (0, 97)].filter (fun ev => ev.2 < 256)) ([], 0)) ∧
    ((getState (buildAhoCorasickAutomaton [encodeRune 233]).states 0).next
      (toLowerRune 233) ≠ 0) :=
  ⟨scan_runes_not_bytes.1 _ _ _ _ _,
   scan_runes_not_bytes.2 233 (by decide) (by decide)⟩

/-- Inversion by word shape: an empty word forces the root, a snoc word
forces a goto step. -/
theorem word_shape_inv {sts : List ACState} {s : Nat} {w0 : List Nat}
    (h : StateWord sts s w0) :
    (w0 = [] → s = 0) ∧
    (∀ w c, w0 = w ++ [c] →
      ∃ p, StateWord sts p w ∧ (getState sts p).next c = s ∧ s ≠ 0) := by
  cases h with
  | root =>
    refine ⟨fun _ => rfl, ?_⟩
    intro w c hw
    exact absurd hw.symm (by simp)
  | step hp he hne =>
    rename_i p w' c'
    refine ⟨fun hw => absurd hw (by simp), ?_⟩
    intro w c hw
    have hc : c' = c := by
      have := congrArg (fun l => List.getLast? l) hw
      simpa using this
    subst hc
    have hw' : w' = w := by
      have := congrArg (fun l => List.dropLast l) hw
      simpa using this
    subst hw'
    exact ⟨p, hp, he, hne⟩

/-- Only the root carries the empty word. -/
theorem word_nil_state {sts : List ACState} {s : Nat}
    (h : StateWord sts s []) : s = 0 :=
  (word_shape_inv h).1 rfl

/-- The root carries only the empty word. -/
theorem word_of_root {sts : List ACState} {w : List Nat}
    (h : StateWord sts 0 w) : w = [] := by
  cases h with
  | root => rfl
  | step hp he hne => exact absurd rfl hne

/-- Snoc inversion of `StateWord`. -/
theorem word_snoc_inv {sts : List ACState} {s c : Nat} {w : List Nat}
    (h : StateWord sts s (w ++ [c])) :
    ∃ p, StateWord sts p w ∧ (getState sts p).next c = s ∧ s ≠ 0 :=
  (word_shape_inv h).2 w c rfl

/-- A word determines its node: `StateWord` is functional in the word. -/
theorem node_unique {sts : List ACState} {w : List Nat} {s₁ s₂ : Nat}
    (h₁ : StateWord sts s₁ w) (h₂ : StateWord sts s₂ w) : s₁ = s₂ := by
  induction h₁ generalizing s₂ with
  | root => exact (word_nil_state h₂).symm
  | step hp he hne ih =>
    obtain ⟨p₂, hp₂, he₂, _⟩ := word_snoc_inv h₂
    rw [ih hp₂] at he
    exact he.symm.trans he₂

/-- States reached by non-empty words are non-root, and words of non-root
states are non-empty. -/
theorem word_ne_nil {sts : List ACState} {s : Nat} {w : List Nat}
    (h : StateWord sts s w) (hs : s ≠ 0) : w ≠ [] := by
  cases h with
  | root => exact absurd rfl hs
  | step _ _ _ => simp

/-- Under the skeleton invariants a node determines its word. -/
theorem word_unique {sts : List ACState} (hinv : TrieSkeleton sts) :
    ∀ {s : Nat} {w₁ w₂ : List Nat},
      StateWord sts s w₁ → StateWord sts s w₂ → w₁ = w₂ := by
  intro s w₁ w₂ h₁ h₂
  induction h₁ generalizing w₂ with
  | root => exact (word_of_root h₂).symm
  | step hp he hne ih =>
    rename_i p w c s'
    rcases h₂ with _ | ⟨hp₂, he₂, hne₂⟩
    · exact absurd rfl hne
    · rename_i p₂ w₂' c₂
      have hinj := hinv.edgeInj p₂ c₂ p c (by rw [he₂]; exact hne) (by rw [he₂, he])
      obtain ⟨hps, hcs⟩ := hinj
      subst hps
      subst hcs
      rw [ih hp₂]

/-- Words never exceed their state index. -/
theorem word_length_le {sts : List ACState} (hinv : TrieSkeleton sts) :
    ∀ {s : Nat} {w : List Nat}, StateWord sts s w → w.length ≤ s := by
  intro s w h
  induction h with
  | root => exact le_refl 0
  | step hp he hne ih =>
    rename_i p w c s'
    have := hinv.edgeLt p c (by rw [he]; exact hne)
    rw [he] at this
    simp only [List.length_append, List.length_cons, List.length_nil]
    omega

/-- Every reached state is in bounds. -/
theorem word_state_lt {sts : List ACState} (hinv : TrieSkeleton sts) :
    ∀ {s : Nat} {w : List Nat}, StateWord sts s w → s < sts.length := by
  intro s w h
  cases h with
  | root => exact hinv.posLen
  | step hp he hne =>
    rename_i p w' c
    have := hinv.edgeBound p c (by rw [he]; exact hne)
    rw [he] at this
    exact this

/-- `StateWord` only depends on the goto skeleton: it transfers along any
update that preserves the non-zero goto edges. -/
theorem StateWord.mono {sts sts' : List ACState}
    (hpres : ∀ p c, (getState sts p).next c ≠ 0 →
      (getState sts' p).next c = (getState sts p).next c) :
    ∀ {s : Nat} {w : List Nat}, StateWord sts s w → StateWord sts' s w := by
  intro s w h
  induction h with
  | root => exact StateWord.root
  | step hp he hne ih =>
    rename_i p w' c s'
    refine StateWord.step ih ?_ hne
    rw [hpres p c (by rw [he]; exact hne), he]

/-- `trieStep` on a rune ≥ 256 is the identity. -/
theorem trieStep_skip256 (acc : List ACState × Nat × Nat) (c : Nat) (h : 256 ≤ c) :
    trieStep acc c = acc := by
  rcases acc with ⟨sts, cnt, st⟩
  unfold trieStep
  rw [if_pos h]

/-- `trieStep` along an existing goto edge just moves the current state. -/
theorem trieStep_found (sts : List ACState) (cnt st c : Nat) (hc : ¬ 256 ≤ c)
    (h : (getState sts st).next c ≠ 0) :
    trieStep (sts, cnt, st) c = (sts, cnt, (getState sts st).next c) := by
  unfold trieStep
  rw [if_neg hc, if_neg h]

/-- `trieStep` with no existing edge appends a fresh state and adds the edge. -/
theorem trieStep_create (sts : List ACState) (cnt st c : Nat) (hc : ¬ 256 ≤ c)
    (h : (getState sts st).next c = 0) :
    trieStep (sts, cnt, st) c =
      ((sts ++ [newACState]).set st
        ⟨fun x => if x = c then cnt else (getState sts st).next x,
         (getState sts st).failure, (getState sts st).outputs⟩,
       cnt + 1, cnt) := by
  unfold trieStep
  rw [if_neg hc, if_pos h]
  simp only [getState_append_default]

/-- Goto table of the states after an edge-creating `trieStep`. -/
theorem trieStep_create_next (sts : List ACState) (cnt st c : Nat) (hc : ¬ 256 ≤ c)
    (h : (getState sts st).next c = 0) (hst : st < sts.length) :
    ∀ s c', (getState (trieStep (sts, cnt, st) c).1 s).next c' =
      if s = st ∧ c' = c then cnt else (getState sts s).next c' := by
  intro s c'
  rw [trieStep_create sts cnt st c hc h]
  dsimp only
  rw [getState_set]
  by_cases hs : st = s ∧ st < (sts ++ [newACState]).length
  · rw [if_pos hs]
    dsimp only
    by_cases hc' : c' = c
    · subst hc'
      rw [if_pos rfl, if_pos ⟨hs.1.symm, rfl⟩]
    · rw [if_neg hc', if_neg (fun hh => hc' hh.2), hs.1]
  · have hst2 : st < (sts ++ [newACState]).length := by
      rw [List.length_append]; omega
    have hsne : ¬ st = s := fun hh => hs ⟨hh, hst2⟩
    rw [if_neg hs, getState_append_default,
      if_neg (fun hh => hsne hh.1.symm)]

/-- Failure links are untouched by `trieStep`. -/
theorem trieStep_failure (acc : List ACState × Nat × Nat) (c j : Nat) :
    (getState (trieStep acc c).1 j).failure = (getState acc.1 j).failure := by
  rcases acc with ⟨sts, cnt, st⟩
  by_cases h1 : 256 ≤ c
  · rw [trieStep_skip256 _ _ h1]
  · by_cases h2 : (getState sts st).next c = 0
    · rw [trieStep_create sts cnt st c h1 h2]
      dsimp only
      rw [getState_set]
      by_cases h3 : st = j ∧ st < (sts ++ [newACState]).length
      · rw [if_pos h3]
        dsimp only
        rw [h3.1]
      · rw [if_neg h3, getState_append_default]
    · rw [trieStep_found sts cnt st c h1 h2]

/-- The full invariant-preservation statement for one `trieStep`. -/
theorem trieStep_spec (sts : List ACState) (cnt st c : Nat) (w₀ : List Nat)
    (hskel : TrieSkeleton sts) (hcnt : cnt = sts.length)
    (hst : st < sts.length) (hw : StateWord sts st w₀) :
    TrieSkeleton (trieStep (sts, cnt, st) c).1 ∧
    (trieStep (sts, cnt, st) c).2.1 = (trieStep (sts, cnt, st) c).1.length ∧
    (trieStep (sts, cnt, st) c).2.2 < (trieStep (sts, cnt, st) c).1.length ∧
    StateWord (trieStep (sts, cnt, st) c).1 (trieStep (sts, cnt, st) c).2.2
      (w₀ ++ if c < 256 then [c] else []) ∧
    (∀ p c', (getState sts p).next c' ≠ 0 →
      (getState (trieStep (sts, cnt, st) c).1 p).next c' = (getState sts p).next c') ∧
    sts.length ≤ (trieStep (sts, cnt, st) c).1.length := by
  by_cases h1 : 256 ≤ c
  · rw [trieStep_skip256 _ _ h1]
    have : ¬ c < 256 := by omega
    rw [if_neg this]
    simp only [List.append_nil]
    exact ⟨hskel, hcnt, hst, hw, fun p c' hh => trivial, le_refl _⟩
  · have hc256 : c < 256 := by omega
    rw [if_pos hc256]
    by_cases h2 : (getState sts st).next c = 0
    · -- create a fresh state
      have hnext := trieStep_create_next sts cnt st c h1 h2 hst
      have hshape := trieStep_create sts cnt st c h1 h2
      have hlen : (trieStep (sts, cnt, st) c).1.length = sts.length + 1 := by
        rw [hshape]
        simp
      have hcnt' : (trieStep (sts, cnt, st) c).2.1 = cnt + 1 := by rw [hshape]
      have hst' : (trieStep (sts, cnt, st) c).2.2 = cnt := by rw [hshape]
      have hpres : ∀ p c', (getState sts p).next c' ≠ 0 →
          (getState (trieStep (sts, cnt, st) c).1 p).next c' = (getState sts p).next c' := by
        intro p c' hne
        rw [hnext p c']
        rw [if_neg ?_]
        intro hh
        rw [hh.1, hh.2] at hne
        exact hne h2
      have hmono : ∀ {s : Nat} {w : List Nat}, StateWord sts s w →
          StateWord (trieStep (sts, cnt, st) c).1 s w :=
        fun h => StateWord.mono hpres h
      have hwordnew : StateWord (trieStep (sts, cnt, st) c).1 cnt (w₀ ++ [c]) := by
        refine StateWord.step (hmono hw) ?_ (by omega)
        rw [hnext st c, if_pos ⟨rfl, rfl⟩]
      refine ⟨?_, ?_, ?_, ?_, hpres, ?_⟩
      · constructor
        · rw [hlen]; omega
        · intro s c' hne
          rw [hnext s c'] at hne ⊢
          by_cases hh : s = st ∧ c' = c
          · rw [if_pos hh] at hne ⊢
            omega
          · rw [if_neg hh] at hne ⊢
            exact hskel.edgeLt s c' hne
        · intro s c' hne
          rw [hlen]
          rw [hnext s c'] at hne ⊢
          by_cases hh : s = st ∧ c' = c
          · rw [if_pos hh] at hne ⊢
            omega
          · rw [if_neg hh] at hne ⊢
            have := hskel.edgeBound s c' hne
            omega
        · intro s c' hne
          rw [hnext s c'] at hne
          by_cases hh : s = st ∧ c' = c
          · rw [hh.2]; exact hc256
          · rw [if_neg hh] at hne
            exact hskel.edgeChar s c' hne
        · intro s₁ c₁ s₂ c₂ hne heq
          rw [hnext s₁ c₁] at hne heq
          rw [hnext s₂ c₂] at heq
          by_cases hh1 : s₁ = st ∧ c₁ = c
          · rw [if_pos hh1] at hne heq
            by_cases hh2 : s₂ = st ∧ c₂ = c
            · exact ⟨hh1.1.trans hh2.1.symm, hh1.2.trans hh2.2.symm⟩
            · rw [if_neg hh2] at heq
              have := hskel.edgeBound s₂ c₂ (by omega)
              omega
          · rw [if_neg hh1] at hne heq
            by_cases hh2 : s₂ = st ∧ c₂ = c
            · rw [if_pos hh2] at heq
              have := hskel.edgeBound s₁ c₁ hne
              omega
            · rw [if_neg hh2] at heq
              exact hskel.edgeInj s₁ c₁ s₂ c₂ hne heq
        · intro s hs
          rw [hlen] at hs
          by_cases hh : s < sts.length
          · obtain ⟨w, hwv⟩ := hskel.allReach s hh
            exact ⟨w, hmono hwv⟩
          · have : s = cnt := by omega
            subst this
            exact ⟨w₀ ++ [c], hwordnew⟩
      · rw [hcnt', hlen, hcnt]
      · rw [hst', hlen]
        omega
      · rw [hst']
        exact hwordnew
      · rw [hlen]
        omega
    · rw [trieStep_found sts cnt st c h1 h2]
      dsimp only
      refine ⟨hskel, hcnt, hskel.edgeBound st c h2, ?_, fun p c' _ => rfl, le_refl _⟩
      exact StateWord.step hw rfl h2

/-- The per-character trie loop changes no failure link. -/
theorem trieInsertLoop_failure (cs : List Nat) :
    ∀ acc : List ACState × Nat × Nat, ∀ j,
      (getState (trieInsertLoop cs acc).1 j).failure = (getState acc.1 j).failure := by
  induction cs with
  | nil => intro acc j; rfl
  | cons c cs ih =>
    intro acc j
    rcases acc with ⟨sts, cnt, st⟩
    show (getState (trieInsertLoop cs (trieStep (sts, cnt, st) c)).1 j).failure = _
    rw [ih _ j, trieStep_failure]

/-- Invariant preservation along the whole per-character loop: the walk ends
at an in-bounds state carrying the word `w₀ ++ consumed characters`, the
skeleton invariants persist, and existing goto edges are untouched. -/
theorem trieInsertLoop_spec (cs : List Nat) :
    ∀ (sts : List ACState) (cnt st : Nat) (w₀ : List Nat),
      TrieSkeleton sts → cnt = sts.length → st < sts.length → StateWord sts st w₀ →
      TrieSkeleton (trieInsertLoop cs (sts, cnt, st)).1 ∧
      (trieInsertLoop cs (sts, cnt, st)).2.1 = (trieInsertLoop cs (sts, cnt, st)).1.length ∧
      (trieInsertLoop cs (sts, cnt, st)).2.2 < (trieInsertLoop cs (sts, cnt, st)).1.length ∧
      StateWord (trieInsertLoop cs (sts, cnt, st)).1 (trieInsertLoop cs (sts, cnt, st)).2.2
        (w₀ ++ cs.filter (fun c => c < 256)) ∧
      (∀ p c', (getState sts p).next c' ≠ 0 →
        (getState (trieInsertLoop cs (sts, cnt, st)).1 p).next c' =
          (getState sts p).next c') ∧
      sts.length ≤ (trieInsertLoop cs (sts, cnt, st)).1.length := by
  induction cs with
  | nil =>
    intro sts cnt st w₀ hskel hcnt hst hw
    simp only [trieInsertLoop, List.filter_nil, List.append_nil]
    exact ⟨hskel, hcnt, hst, hw, fun p c' hh => trivial, le_refl _⟩
  | cons c cs ih =>
    intro sts cnt st w₀ hskel hcnt hst hw
    obtain ⟨hskel1, hcnt1, hst1, hw1, hpres1, hlen1⟩ :=
      trieStep_spec sts cnt st c w₀ hskel hcnt hst hw
    rcases ht : trieStep (sts, cnt, st) c with ⟨sts1, cnt1, st1⟩
    rw [ht] at hskel1 hcnt1 hst1 hw1 hpres1 hlen1
    have hloop : trieInsertLoop (c :: cs) (sts, cnt, st) =
        trieInsertLoop cs (sts1, cnt1, st1) := by
      show trieInsertLoop cs (trieStep (sts, cnt, st) c) = _
      rw [ht]
    rw [hloop]
    obtain ⟨k1, k2, k3, k4, k5, k6⟩ := ih sts1 cnt1 st1 _ hskel1 hcnt1 hst1 hw1
    refine ⟨k1, k2, k3, ?_, ?_, ?_⟩
    · rw [List.filter_cons]
      by_cases hc : c < 256
      · have : (decide (c < 256)) = true := by simpa using hc
        rw [this]
        simp only [if_true]
        have hws : w₀ ++ c :: cs.filter (fun c => decide (c < 256)) =
            (w₀ ++ [c]) ++ cs.filter (fun c => decide (c < 256)) := by simp
        rw [hws]
        have : (if c < 256 then [c] else []) = [c] := by rw [if_pos hc]
        rw [this] at k4
        exact k4
      · have : (decide (c < 256)) = false := by simpa using hc
        rw [this]
        simp only [Bool.false_eq_true, if_false]
        have : (if c < 256 then [c] else []) = [] := by rw [if_neg hc]
        rw [this] at k4
        simpa using k4
    · intro p c' hne
      rw [k5 p c' (by rw [hpres1 p c' hne]; exact hne), hpres1 p c' hne]
    · exact le_trans hlen1 k6

/-- Full effect of `insertPattern`: skeleton and failure links persist, the
pattern's id is appended at the node of its consumed characters, all other
output lists are unchanged, and existing goto edges are untouched. -/
theorem insertPattern_spec (sts : List ACState) (cnt : Nat) (pid : Nat) (p : List Nat)
    (hskel : TrieSkeleton sts) (hcnt : cnt = sts.length) :
    TrieSkeleton (insertPattern (sts, cnt) pid p).1 ∧
    (insertPattern (sts, cnt) pid p).2 = (insertPattern (sts, cnt) pid p).1.length ∧
    (∀ p' c', (getState sts p').next c' ≠ 0 →
      (getState (insertPattern (sts, cnt) pid p).1 p').next c' =
        (getState sts p').next c') ∧
    (∀ j, (getState (insertPattern (sts, cnt) pid p).1 j).failure =
      (getState sts j).failure) ∧
    (∃ t, StateWord (insertPattern (sts, cnt) pid p).1 t (patChars p) ∧
      (getState (insertPattern (sts, cnt) pid p).1 t).outputs =
        (getState sts t).outputs ++ [pid] ∧
      (∀ j, j ≠ t → (getState (insertPattern (sts, cnt) pid p).1 j).outputs =
        (getState sts j).outputs)) ∧
    sts.length ≤ (insertPattern (sts, cnt) pid p).1.length := by
  have hw0 : StateWord sts 0 [] := StateWord.root
  obtain ⟨k1, k2, k3, k4, k5, k6⟩ :=
    trieInsertLoop_spec ((goRunes (goToLower p)).map Prod.snd) sts cnt 0 []
      hskel hcnt hskel.posLen hw0
  set r := trieInsertLoop ((goRunes (goToLower p)).map Prod.snd) (sts, cnt, 0) with hr
  have hofail : ∀ j, (getState r.1 j).failure = (getState sts j).failure := by
    intro j
    have h := trieInsertLoop_failure ((goRunes (goToLower p)).map Prod.snd) (sts, cnt, 0) j
    rw [← hr] at h
    exact h
  have hoout : ∀ j, (getState r.1 j).outputs = (getState sts j).outputs := by
    intro j
    have h := trieInsertLoop_outputs ((goRunes (goToLower p)).map Prod.snd) (sts, cnt, 0) j
    rw [← hr] at h
    exact h
  have hshape : insertPattern (sts, cnt) pid p =
      (r.1.set r.2.2 { getState r.1 r.2.2 with
        outputs := (getState r.1 r.2.2).outputs ++ [pid] }, r.2.1) := rfl
  rw [hshape]
  dsimp only
  have hget : ∀ j, getState (r.1.set r.2.2 { getState r.1 r.2.2 with
      outputs := (getState r.1 r.2.2).outputs ++ [pid] }) j =
      if r.2.2 = j then { getState r.1 r.2.2 with
        outputs := (getState r.1 r.2.2).outputs ++ [pid] }
      else getState r.1 j := by
    intro j
    rw [getState_set]
    by_cases hj : r.2.2 = j
    · rw [if_pos ⟨hj, k3⟩, if_pos hj]
    · rw [if_neg (fun hh => hj hh.1), if_neg hj]
  have hnext : ∀ j, (getState (r.1.set r.2.2 { getState r.1 r.2.2 with
      outputs := (getState r.1 r.2.2).outputs ++ [pid] }) j).next =
      (getState r.1 j).next := by
    intro j
    rw [hget j]
    by_cases hj : r.2.2 = j
    · rw [if_pos hj, hj]
    · rw [if_neg hj]
  have hmono : ∀ {s : Nat} {w : List Nat}, StateWord r.1 s w →
      StateWord (r.1.set r.2.2 { getState r.1 r.2.2 with
        outputs := (getState r.1 r.2.2).outputs ++ [pid] }) s w :=
    fun h => StateWord.mono (fun pp cc hh => by rw [hnext pp]) h
  refine ⟨?_, ?_, ?_, ?_, ?_, ?_⟩
  · constructor
    · rw [List.length_set]
      exact lt_of_lt_of_le hskel.posLen k6
    · intro s c' hne
      rw [hnext s] at hne ⊢
      exact k1.edgeLt s c' hne
    · intro s c' hne
      rw [List.length_set]
      rw [hnext s] at hne ⊢
      exact k1.edgeBound s c' hne
    · intro s c' hne
      rw [hnext s] at hne
      exact k1.edgeChar s c' hne
    · intro s₁ c₁ s₂ c₂ hne heq
      rw [hnext s₁, hnext s₂] at heq
      rw [hnext s₁] at hne
      exact k1.edgeInj s₁ c₁ s₂ c₂ hne heq
    · intro s hs
      rw [List.length_set] at hs
      obtain ⟨w, hwv⟩ := k1.allReach s hs
      exact ⟨w, hmono hwv⟩
  · rw [List.length_set]
    exact k2
  · intro p' c' hne
    rw [hnext p']
    exact k5 p' c' hne
  · intro j
    rw [hget j]
    by_cases hj : r.2.2 = j
    · rw [if_pos hj, ← hj]
      show (getState r.1 r.2.2).failure = _
      rw [hofail]
    · rw [if_neg hj]
      exact hofail j
  · refine ⟨r.2.2, ?_, ?_, ?_⟩
    · have hpw : patChars p = [] ++ ((goRunes (goToLower p)).map Prod.snd).filter
          (fun c => c < 256) := by
        unfold patChars
        simp
      rw [hpw]
      exact hmono k4
    · rw [hget r.2.2, if_pos rfl]
      show (getState r.1 r.2.2).outputs ++ [pid] = _
      rw [hoout]
    · intro j hj
      rw [hget j, if_neg (fun hh => hj hh.symm)]
      exact hoout j
  · rw [List.length_set]
    exact k6

/-- States with a non-empty output list are in bounds. -/
theorem mem_outputs_lt {sts : List ACState} {s id : Nat}
    (h : id ∈ (getState sts s).outputs) : s < sts.length := by
  by_cases hs : s < sts.length
  · exact hs
  · rw [getState_of_ge _ _ (Nat.le_of_not_lt hs)] at h
    exact absurd h (List.not_mem_nil _)

/-- Invariant preservation over the whole per-pattern loop of the trie
phase: the skeleton persists, failure links stay 0, output lists are exactly
sound for `L`, every processed pattern's id is output at the node of its
consumed characters, and prior outputs and goto edges persist. -/
theorem buildTrieLoop_spec (ps : List (Nat × List Nat)) (L : List (List Nat)) :
    ∀ (sts : List ACState) (cnt : Nat),
      TrieSkeleton sts → cnt = sts.length →
      (∀ pc ∈ ps, L[pc.1]? = some pc.2) →
      (∀ j, (getState sts j).failure = 0) →
      (∀ s w id, StateWord sts s w → id ∈ (getState sts s).outputs →
        ∃ pat, L[id]? = some pat ∧ patChars pat = w) →
      TrieSkeleton (buildTrieLoop ps (sts, cnt)).1 ∧
      (buildTrieLoop ps (sts, cnt)).2 = (buildTrieLoop ps (sts, cnt)).1.length ∧
      (∀ j, (getState (buildTrieLoop ps (sts, cnt)).1 j).failure = 0) ∧
      (∀ s w id, StateWord (buildTrieLoop ps (sts, cnt)).1 s w →
        id ∈ (getState (buildTrieLoop ps (sts, cnt)).1 s).outputs →
        ∃ pat, L[id]? = some pat ∧ patChars pat = w) ∧
      (∀ pc ∈ ps, ∃ t, StateWord (buildTrieLoop ps (sts, cnt)).1 t (patChars pc.2) ∧
        pc.1 ∈ (getState (buildTrieLoop ps (sts, cnt)).1 t).outputs) ∧
      (∀ j id, id ∈ (getState sts j).outputs →
        id ∈ (getState (buildTrieLoop ps (sts, cnt)).1 j).outputs) ∧
      (∀ p' c', (getState sts p').next c' ≠ 0 →
        (getState (buildTrieLoop ps (sts, cnt)).1 p').next c' =
          (getState sts p').next c') := by
  induction ps with
  | nil =>
    intro sts cnt hskel hcnt _ hfail hsound
    refine ⟨hskel, hcnt, hfail, hsound, ?_, fun j id h => h, fun p' c' _ => rfl⟩
    intro pc hpc
    exact absurd hpc (List.not_mem_nil _)
  | cons q ps ih =>
    intro sts cnt hskel hcnt hps hfail hsound
    obtain ⟨j1, j2, j3, j4, ⟨t, jt1, jt2, jt3⟩, j6⟩ :=
      insertPattern_spec sts cnt q.1 q.2 hskel hcnt
    rcases hi : insertPattern (sts, cnt) q.1 q.2 with ⟨sts1, cnt1⟩
    rw [hi] at j1 j2 j3 j4 jt1 jt2 jt3 j6
    have hloop : buildTrieLoop (q :: ps) (sts, cnt) = buildTrieLoop ps (sts1, cnt1) := by
      show buildTrieLoop ps (insertPattern (sts, cnt) q.1 q.2) = _
      rw [hi]
    rw [hloop]
    have hmono1 : ∀ {s : Nat} {w : List Nat}, StateWord sts s w → StateWord sts1 s w :=
      fun h => StateWord.mono j3 h
    have hsound1 : ∀ s w id, StateWord sts1 s w → id ∈ (getState sts1 s).outputs →
        ∃ pat, L[id]? = some pat ∧ patChars pat = w := by
      intro s w id hwv hid
      by_cases hst : s = t
      · subst hst
        rw [jt2] at hid
        rcases List.mem_append.mp hid with hold | hnew
        · have hlt : s < sts.length := mem_outputs_lt hold
          obtain ⟨wold, hwold⟩ := hskel.allReach s hlt
          have hww : w = wold := word_unique j1 hwv (hmono1 hwold)
          subst hww
          exact hsound s w id hwold hold
        · have hidq : id = q.1 := by simpa using hnew
          subst hidq
          have hww : w = patChars q.2 := word_unique j1 hwv jt1
          subst hww
          exact ⟨q.2, hps q (List.mem_cons_self _ _), rfl⟩
      · rw [jt3 s hst] at hid
        have hlt : s < sts.length := mem_outputs_lt hid
        obtain ⟨wold, hwold⟩ := hskel.allReach s hlt
        have hww : w = wold := word_unique j1 hwv (hmono1 hwold)
        subst hww
        exact hsound s w id hwold hid
    obtain ⟨m1, m2, m3, m4, m5, m6, m7⟩ := ih sts1 cnt1 j1 j2
      (fun pc hpc => hps pc (List.mem_cons_of_mem _ hpc))
      (fun j => (j4 j).trans (hfail j)) hsound1
    refine ⟨m1, m2, m3, m4, ?_, ?_, ?_⟩
    · intro pc hpc
      rcases List.mem_cons.mp hpc with hh | hh
      · subst hh
        refine ⟨t, StateWord.mono m7 jt1, ?_⟩
        refine m6 t pc.1 ?_
        rw [jt2]
        simp
      · exact m5 pc hh
    · intro j id hid
      refine m6 j id ?_
      by_cases hjt : j = t
      · subst hjt
        rw [jt2]
        exact List.mem_append_left _ hid
      · rw [jt3 j hjt]
        exact hid
    · intro p' c' hne
      rw [m7 p' c' (by rw [j3 p' c' hne]; exact hne), j3 p' c' hne]

/-- The result of the trie phase: a well-formed skeleton with all failure
links 0, whose output lists are exactly the ids of the patterns whose
consumed characters label the state. -/
theorem buildTrie_spec (L : List (List Nat)) :
    TrieSkeleton (buildTrie L).1 ∧
    (buildTrie L).2 = (buildTrie L).1.length ∧
    (∀ j, (getState (buildTrie L).1 j).failure = 0) ∧
    (∀ s w id, StateWord (buildTrie L).1 s w →
      id ∈ (getState (buildTrie L).1 s).outputs →
      ∃ pat, L[id]? = some pat ∧ patChars pat = w) ∧
    (∀ id pat, L[id]? = some pat → ∃ t, StateWord (buildTrie L).1 t (patChars pat) ∧
      id ∈ (getState (buildTrie L).1 t).outputs) := by
  have hget0 : ∀ s, getState [newACState] s = newACState := by
    intro s
    match s with
    | 0 => rfl
    | s + 1 =>
      exact getState_of_ge _ _ (by simp)
  have hskel0 : TrieSkeleton [newACState] := by
    constructor
    · simp
    · intro s c hne
      rw [hget0 s] at hne
      exact absurd rfl hne
    · intro s c hne
      rw [hget0 s] at hne
      exact absurd rfl hne
    · intro s c hne
      rw [hget0 s] at hne
      exact absurd rfl hne
    · intro s₁ c₁ s₂ c₂ hne _
      rw [hget0 s₁] at hne
      exact absurd rfl hne
    · intro s hs
      have : s = 0 := by simpa using hs
      subst this
      exact ⟨[], StateWord.root⟩
  obtain ⟨m1, m2, m3, m4, m5, _, _⟩ := buildTrieLoop_spec L.enum L [newACState] 1
    hskel0 (by simp)
    (by
      intro pc hpc
      rcases pc with ⟨pid, pat⟩
      exact List.mk_mem_enum_iff_getElem?.mp hpc)
    (fun j => by rw [hget0 j]; rfl)
    (by
      intro s w id _ hid
      rw [hget0 s] at hid
      exact absurd hid (List.not_mem_nil _))
  refine ⟨m1, m2, m3, m4, ?_⟩
  intro id pat hpat
  exact m5 (id, pat) (List.mk_mem_enum_iff_getElem?.mpr hpat)

/-- Appending the same character preserves and reflects the suffix order. -/
theorem suffix_snoc_iff {v w : List Nat} {c : Nat} :
    (v ++ [c]) <:+ (w ++ [c]) ↔ v <:+ w := by
  constructor
  · intro h
    rcases List.suffix_concat_iff.mp h with h0 | ⟨t, hteq, hts⟩
    · exact absurd h0 (by simp)
    · have : v = t := by simpa using hteq
      rw [this]
      exact hts
  · intro h
    obtain ⟨t, ht⟩ := h
    exact ⟨t, by rw [← List.append_assoc, ht]⟩

/-- The set of node words is closed under removing the last character. -/
theorem isNode_of_snoc {sts : List ACState} {u : List Nat} {c : Nat}
    (h : IsNode sts (u ++ [c])) : IsNode sts u := by
  obtain ⟨s, hs⟩ := h
  obtain ⟨p, hp, _, _⟩ := word_snoc_inv hs
  exact ⟨p, hp⟩

/-- The failure walk started at the node of `w` ends at the node of the
longest suffix `v` of `w` whose extension by `c` is a node (at the root if
no such non-empty extension exists); correct failure links for all states at
most as deep as `w` suffice. -/
theorem walkFailure_spec {sts : List ACState} (hsk : TrieSkeleton sts) (c : Nat) :
    ∀ (fuel : Nat) (w : List Nat) (p : Nat), w.length < fuel →
      StateWord sts p w →
      (∀ s ws, StateWord sts s ws → ws.length ≤ w.length → s ≠ 0 →
        FailSpec sts s ((getState sts s).failure)) →
      ∃ v, StateWord sts (walkFailure fuel sts c p) v ∧ v <:+ w ∧
        (∀ u, u <:+ w → IsNode sts (u ++ [c]) → u.length ≤ v.length) ∧
        ((getState sts (walkFailure fuel sts c p)).next c ≠ 0 ∨
          (walkFailure fuel sts c p = 0 ∧ v = [])) := by
  intro fuel
  induction fuel with
  | zero =>
    intro w p hlt
    exact absurd hlt (Nat.not_lt_zero _)
  | succ fuel ih =>
    intro w p hlt hw hfs
    by_cases hcond : p ≠ 0 ∧ (getState sts p).next c = 0
    · have hstep : walkFailure (fuel + 1) sts c p =
          walkFailure fuel sts c (getState sts p).failure := by
        simp only [walkFailure]
        rw [if_pos hcond]
      obtain ⟨v₁, hv₁, hsuf₁, hlt₁, hmax₁⟩ := hfs p w hw le_rfl hcond.1 w hw
      have hfs' : ∀ s ws, StateWord sts s ws → ws.length ≤ v₁.length → s ≠ 0 →
          FailSpec sts s ((getState sts s).failure) :=
        fun s ws hws hle hs => hfs s ws hws (by omega) hs
      obtain ⟨v, hv, hvsuf, hvmax, hvdisj⟩ := ih v₁ (getState sts p).failure
        (by omega) hv₁ hfs'
      rw [hstep]
      refine ⟨v, hv, hvsuf.trans hsuf₁, ?_, hvdisj⟩
      intro u hu hnode
      have hunode : IsNode sts u := isNode_of_snoc hnode
      have hult : u.length < w.length := by
        rcases Nat.lt_or_ge u.length w.length with h | h
        · exact h
        · exfalso
          have hue : u = w := hu.eq_of_length (le_antisymm hu.length_le h)
          subst hue
          obtain ⟨s', hs'⟩ := hnode
          obtain ⟨p', hp', hpe, hne⟩ := word_snoc_inv hs'
          rw [node_unique hp' hw] at hpe
          have : s' = 0 := by rw [← hpe, hcond.2]
          exact hne this
      have h1 := hmax₁ u hu hult hunode
      have husuf : u <:+ v₁ := List.suffix_of_suffix_length_le hu hsuf₁ h1
      exact hvmax u husuf hnode
    · have hstep : walkFailure (fuel + 1) sts c p = p := by
        simp only [walkFailure]
        rw [if_neg hcond]
      rw [hstep]
      by_cases hne : (getState sts p).next c = 0
      · have hp0 : p = 0 := by
          by_contra hp
          exact hcond ⟨hp, hne⟩
        subst hp0
        have hw0 : w = [] := word_of_root hw
        subst hw0
        exact ⟨[], StateWord.root, List.nil_suffix,
          fun u hu _ => hu.length_le, Or.inr ⟨rfl, rfl⟩⟩
      · exact ⟨w, hw, List.suffix_refl w, fun u hu _ => hu.length_le, Or.inl hne⟩

/-- The BFS failure computation for the child of a node `r` on character `c`
(the failure walk from `r`'s failure link followed by the goto on `c`)
produces the node of the longest proper suffix of `r`'s word extended by
`c`, provided all states at most as deep as `r` carry correct failure
links. -/
theorem failTarget_spec {sts : List ACState} (hsk : TrieSkeleton sts) {r : Nat}
    {w : List Nat} (c : Nat) (hw : StateWord sts r w) (hr : r ≠ 0)
    (hfs : ∀ s ws, StateWord sts s ws → ws.length ≤ w.length → s ≠ 0 →
      FailSpec sts s ((getState sts s).failure)) :
    FailSpecW sts (w ++ [c])
      ((getState sts
        (walkFailure sts.length sts c ((getState sts r).failure))).next c) := by
  obtain ⟨v₁, hv₁, hsuf₁, hlt₁, hmax₁⟩ := hfs r w hw le_rfl hr w hw
  have hfuel : v₁.length < sts.length := by
    have h1 : w.length ≤ r := word_length_le hsk hw
    have h2 : r < sts.length := word_state_lt hsk hw
    omega
  obtain ⟨v, hv, hvsuf, hvmax, hvdisj⟩ := walkFailure_spec hsk c sts.length v₁
    ((getState sts r).failure) hfuel hv₁
    (fun s ws hws hle hs => hfs s ws hws (by omega) hs)
  by_cases hne :
      (getState sts
        (walkFailure sts.length sts c ((getState sts r).failure))).next c = 0
  · obtain ⟨hq0, hv0⟩ := hvdisj.resolve_left (fun h => h hne)
    refine ⟨[], by rw [hne]; exact StateWord.root, List.nil_suffix, by simp, ?_⟩
    intro u hu hul hunode
    rcases List.suffix_concat_iff.mp hu with h0 | ⟨t, hteq, hts⟩
    · subst h0
      simp
    · subst hteq
      have htlt : t.length < w.length := by
        simp only [List.length_append, List.length_cons, List.length_nil] at hul
        omega
      have htnode : IsNode sts t := isNode_of_snoc hunode
      have h1 := hmax₁ t hts htlt htnode
      have hts' : t <:+ v₁ := List.suffix_of_suffix_length_le hts hsuf₁ h1
      have h2 := hvmax t hts' hunode
      rw [hv0] at h2
      have ht0 : t = [] := List.length_eq_zero.mp (Nat.le_zero.mp h2)
      subst ht0
      exfalso
      obtain ⟨s', hs'⟩ := hunode
      obtain ⟨p₀, hp₀, hpe, hsne⟩ := word_snoc_inv hs'
      rw [word_nil_state hp₀] at hpe
      rw [hq0] at hne
      exact hsne (by rw [← hpe, hne])
  · refine ⟨v ++ [c], StateWord.step hv rfl hne,
      suffix_snoc_iff.mpr (hvsuf.trans hsuf₁), ?_, ?_⟩
    · have := hvsuf.length_le
      simp only [List.length_append, List.length_cons, List.length_nil]
      omega
    · intro u hu hul hunode
      rcases List.suffix_concat_iff.mp hu with h0 | ⟨t, hteq, hts⟩
      · subst h0
        simp
      · subst hteq
        have htlt : t.length < w.length := by
          simp only [List.length_append, List.length_cons, List.length_nil] at hul
          omega
        have htnode : IsNode sts t := isNode_of_snoc hunode
        have h1 := hmax₁ t hts htlt htnode
        have hts' : t <:+ v₁ := List.suffix_of_suffix_length_le hts hsuf₁ h1
        have h2 := hvmax t hts' hunode
        simp only [List.length_append, List.length_cons, List.length_nil]
        omega

/-- The node of the longest proper suffix is unique. -/
theorem failSpecW_unique {sts : List ACState} (hsk : TrieSkeleton sts)
    {w : List Nat} {t₁ t₂ : Nat} (h₁ : FailSpecW sts w t₁) (h₂ : FailSpecW sts w t₂) :
    t₁ = t₂ := by
  obtain ⟨v₁, hv₁, hs₁, hl₁, hm₁⟩ := h₁
  obtain ⟨v₂, hv₂, hs₂, hl₂, hm₂⟩ := h₂
  have h12 : v₁.length ≤ v₂.length := hm₂ v₁ hs₁ hl₁ ⟨t₁, hv₁⟩
  have h21 : v₂.length ≤ v₁.length := hm₁ v₂ hs₂ hl₂ ⟨t₂, hv₂⟩
  have hv : v₁ = v₂ :=
    (List.suffix_of_suffix_length_le hs₁ hs₂ h12).eq_of_length (le_antisymm h12 h21)
  subst hv
  exact node_unique hv₁ hv₂

/-- A word-level failure fact yields the state-level one. -/
theorem failSpec_of_word {sts : List ACState} (hsk : TrieSkeleton sts) {s t : Nat}
    {w : List Nat} (hw : StateWord sts s w) (h : FailSpecW sts w t) :
    FailSpec sts s t := by
  intro w' hw'
  rw [word_unique hsk hw' hw]
  exact h

/-- `StateWord` transfers along pointwise equality of the goto tables. -/
theorem stateWord_of_nextEq {sts sts' : List ACState}
    (h : ∀ j, (getState sts' j).next = (getState sts j).next) {s : Nat}
    {w : List Nat} (hw : StateWord sts s w) : StateWord sts' s w :=
  StateWord.mono (fun p _ _ => by rw [h p]) hw

/-- `FailSpec` transfers along pointwise equality of the goto tables. -/
theorem failSpec_of_nextEq {sts sts' : List ACState}
    (h : ∀ j, (getState sts' j).next = (getState sts j).next) {s t : Nat}
    (hf : FailSpec sts s t) : FailSpec sts' s t := by
  intro w hw
  obtain ⟨v, hv, h1, h2, h3⟩ := hf w (stateWord_of_nextEq (fun j => (h j).symm) hw)
  refine ⟨v, stateWord_of_nextEq h hv, h1, h2, ?_⟩
  rintro u hu hul ⟨s', hs'⟩
  exact h3 u hu hul ⟨s', stateWord_of_nextEq (fun j => (h j).symm) hs'⟩

/-- `FailSpecW` transfers along pointwise equality of the goto tables. -/
theorem failSpecW_of_nextEq {sts sts' : List ACState}
    (h : ∀ j, (getState sts' j).next = (getState sts j).next) {w : List Nat}
    {t : Nat} (hf : FailSpecW sts w t) : FailSpecW sts' w t := by
  obtain ⟨v, hv, h1, h2, h3⟩ := hf
  refine ⟨v, stateWord_of_nextEq h hv, h1, h2, ?_⟩
  rintro u hu hul ⟨s', hs'⟩
  exact h3 u hu hul ⟨s', stateWord_of_nextEq (fun j => (h j).symm) hs'⟩

/-- `TrieSkeleton` transfers along pointwise equality of the goto tables. -/
theorem skeleton_of_nextEq {sts sts' : List ACState}
    (hlen : sts'.length = sts.length)
    (h : ∀ j, (getState sts' j).next = (getState sts j).next)
    (hsk : TrieSkeleton sts) : TrieSkeleton sts' := by
  constructor
  · rw [hlen]
    exact hsk.posLen
  · intro s c
    rw [h s]
    exact hsk.edgeLt s c
  · intro s c
    rw [h s, hlen]
    exact hsk.edgeBound s c
  · intro s c
    rw [h s]
    exact hsk.edgeChar s c
  · intro s₁ c₁ s₂ c₂
    rw [h s₁, h s₂]
    exact hsk.edgeInj s₁ c₁ s₂ c₂
  · intro s hs
    rw [hlen] at hs
    obtain ⟨w, hw⟩ := hsk.allReach s hs
    exact ⟨w, stateWord_of_nextEq h hw⟩

/-- Writing back the value just read leaves the list unchanged. -/
theorem set_getState_self : ∀ (l : List ACState) (i : Nat),
    l.set i (getState l i) = l := by
  intro l
  induction l with
  | nil => intro i; rfl
  | cons a l ih =>
    intro i
    match i with
    | 0 => rfl
    | i + 1 =>
      show a :: l.set i (getState (a :: l) (i + 1)) = a :: l
      have : getState (a :: l) (i + 1) = getState l i := rfl
      rw [this, ih i]

/-- Overwriting the failure link with its current value is the identity. -/
theorem acstate_refail (x : ACState) (h : x.failure = 0) :
    { x with failure := 0 } = x := by
  cases x
  simp_all

/-- When every failure link is already 0, the depth-1 initialisation pass
leaves the state list unchanged and enqueues exactly the root's children in
character order. -/
theorem initLoop_eq (cs : List Nat) : ∀ (sts : List ACState) (q : List Nat),
    (∀ j, (getState sts j).failure = 0) →
    initLoop cs (sts, q) = (sts, q ++ cs.filterMap (fun c =>
      if (getState sts 0).next c = 0 then none
      else some ((getState sts 0).next c))) := by
  induction cs with
  | nil =>
    intro sts q _
    simp [initLoop]
  | cons c cs ih =>
    intro sts q hf
    by_cases hc : (getState sts 0).next c = 0
    · have hstep : initLoop (c :: cs) (sts, q) = initLoop cs (sts, q) := by
        simp only [initLoop]
        rw [if_neg (by simpa using hc)]
      rw [hstep, ih sts q hf, List.filterMap_cons, if_pos hc]
    · have hset : sts.set ((getState sts 0).next c)
          { getState sts ((getState sts 0).next c) with failure := 0 } = sts := by
        rw [acstate_refail _ (hf _), set_getState_self]
      have hstep : initLoop (c :: cs) (sts, q) =
          initLoop cs (sts, q ++ [(getState sts 0).next c]) := by
        simp only [initLoop]
        rw [if_pos (by simpa using hc), hset]
      rw [hstep, ih sts _ hf, List.filterMap_cons, if_neg hc]
      simp

/-- Level completeness of the BFS: any non-root state whose depth does not
exceed the depth of every queued state has already been seen (it is in
`done ++ q`). -/
theorem levels_in_E {sts0 sts : List ACState} {done q : List Nat}
    (hsk : TrieSkeleton sts0) (inv : BfsInv sts0 sts done q) :
    ∀ (n : Nat) (s : Nat) (ws : List Nat), ws.length ≤ n →
      StateWord sts0 s ws → s ≠ 0 →
      (∀ x wx, x ∈ q → StateWord sts0 x wx → ws.length ≤ wx.length) →
      s ∈ done ++ q := by
  intro n
  induction n with
  | zero =>
    intro s ws hn hw hs _
    have h0 : ws = [] := List.length_eq_zero.mp (Nat.le_zero.mp hn)
    subst h0
    exact absurd (word_nil_state hw) hs
  | succ n ih =>
    intro s ws hn hw hs hq
    rcases List.eq_nil_or_concat ws with h0 | ⟨w', c, hws⟩
    · subst h0
      exact absurd (word_nil_state hw) hs
    · rw [List.concat_eq_append] at hws
      subst hws
      obtain ⟨p, hp, hpe, _⟩ := word_snoc_inv hw
      by_cases hp0 : p = 0
      · exact (inv.memE p c s hpe hs).mpr (Or.inl hp0)
      · have hpE : p ∈ done ++ q := by
          refine ih p w' ?_ hp hp0 ?_
          · simp only [List.length_append, List.length_cons, List.length_nil] at hn
            omega
          · intro x wx hx hwx
            have h2 := hq x wx hx hwx
            simp only [List.length_append, List.length_cons, List.length_nil] at h2
            omega
        rcases List.mem_append.mp hpE with hd | hqm
        · exact (inv.memE p c s hpe hs).mpr (Or.inr hd)
        · exfalso
          have h3 := hq p w' hqm hp
          simp only [List.length_append, List.length_cons, List.length_nil] at h3
          omega

/-- The effect of `bfsChild` when the dequeued state has a goto edge on `c`:
the child is enqueued, its failure link is set to the goto target of the
failure walk, the failure state's outputs are appended to the child's, and
no other state changes. -/
theorem bfsChild_edge (r : Nat) (sts : List ACState) (q : List Nat) (c : Nat)
    (hu : (getState sts r).next c ≠ 0)
    (hub : (getState sts r).next c < sts.length)
    (hfune : (getState sts (walkFailure sts.length sts c
        ((getState sts r).failure))).next c ≠ (getState sts r).next c) :
    (bfsChild r (sts, q) c).2 = q ++ [(getState sts r).next c] ∧
    (bfsChild r (sts, q) c).1.length = sts.length ∧
    (∀ j, j ≠ (getState sts r).next c →
      getState (bfsChild r (sts, q) c).1 j = getState sts j) ∧
    getState (bfsChild r (sts, q) c).1 ((getState sts r).next c) =
      { next := (getState sts ((getState sts r).next c)).next,
        failure := (getState sts (walkFailure sts.length sts c
          ((getState sts r).failure))).next c,
        outputs := (getState sts ((getState sts r).next c)).outputs ++
          (getState sts ((getState sts (walkFailure sts.length sts c
            ((getState sts r).failure))).next c)).outputs } := by
  have hch : bfsChild r (sts, q) c =
      ((sts.set ((getState sts r).next c)
          { getState sts ((getState sts r).next c) with
            failure := (getState sts (walkFailure sts.length sts c
              ((getState sts r).failure))).next c }).set ((getState sts r).next c)
        { getState (sts.set ((getState sts r).next c)
            { getState sts ((getState sts r).next c) with
              failure := (getState sts (walkFailure sts.length sts c
                ((getState sts r).failure))).next c }) ((getState sts r).next c) with
          outputs := (getState (sts.set ((getState sts r).next c)
              { getState sts ((getState sts r).next c) with
                failure := (getState sts (walkFailure sts.length sts c
                  ((getState sts r).failure))).next c }) ((getState sts r).next c)).outputs ++
            (getState (sts.set ((getState sts r).next c)
              { getState sts ((getState sts r).next c) with
                failure := (getState sts (walkFailure sts.length sts c
                  ((getState sts r).failure))).next c })
              ((getState sts (walkFailure sts.length sts c
                ((getState sts r).failure))).next c)).outputs },
       q ++ [(getState sts r).next c]) := by
    simp only [bfsChild]
    rw [if_neg hu]
  rw [hch]
  have hg1 : getState (sts.set ((getState sts r).next c)
      { getState sts ((getState sts r).next c) with
        failure := (getState sts (walkFailure sts.length sts c
          ((getState sts r).failure))).next c }) ((getState sts r).next c) =
      { getState sts ((getState sts r).next c) with
        failure := (getState sts (walkFailure sts.length sts c
          ((getState sts r).failure))).next c } := by
    rw [getState_set, if_pos ⟨rfl, hub⟩]
  have hg2 : getState (sts.set ((getState sts r).next c)
      { getState sts ((getState sts r).next c) with
        failure := (getState sts (walkFailure sts.length sts c
          ((getState sts r).failure))).next c })
      ((getState sts (walkFailure sts.length sts c
        ((getState sts r).failure))).next c) =
      getState sts ((getState sts (walkFailure sts.length sts c
        ((getState sts r).failure))).next c) := by
    rw [getState_set, if_neg (fun hx => hfune hx.1.symm)]
  refine ⟨rfl, by simp, ?_, ?_⟩
  · intro j hj
    rw [getState_set, if_neg (fun hx => hj hx.1.symm), getState_set,
      if_neg (fun hx => hj hx.1.symm)]
  · rw [getState_set, if_pos ⟨rfl, by simpa using hub⟩, hg1, hg2]

/-- Invariant preservation over the inner `for c := 0; c < 256` loop of the
BFS: the goto structure is unchanged, exactly the children of the dequeued
state `r` are enqueued (in character order), every non-child state is
untouched, and each child receives the failure link demanded by `FailSpecW`
together with the outputs of that failure state. -/
theorem bfsChildLoop_spec {sts0 : List ACState} (hsk0 : TrieSkeleton sts0)
    {r : Nat} {wr : List Nat} (hwr : StateWord sts0 r wr) (hr : r ≠ 0) :
    ∀ (cs : List Nat), cs.Nodup → ∀ (sts : List ACState) (q : List Nat),
      sts.length = sts0.length →
      (∀ j, (getState sts j).next = (getState sts0 j).next) →
      (∀ s ws, StateWord sts0 s ws → ws.length ≤ wr.length → s ≠ 0 →
        FailSpec sts0 s ((getState sts s).failure)) →
      (bfsChildLoop r cs (sts, q)).1.length = sts0.length ∧
      (∀ j, (getState (bfsChildLoop r cs (sts, q)).1 j).next =
        (getState sts0 j).next) ∧
      (bfsChildLoop r cs (sts, q)).2 = q ++ cs.filterMap (fun c =>
        if (getState sts0 r).next c = 0 then none
        else some ((getState sts0 r).next c)) ∧
      (∀ j, (j = 0 ∨ ∀ c ∈ cs, (getState sts0 r).next c ≠ j) →
        getState (bfsChildLoop r cs (sts, q)).1 j = getState sts j) ∧
      (∀ c ∈ cs, ∀ u, (getState sts0 r).next c = u → u ≠ 0 →
        FailSpecW sts0 (wr ++ [c])
          ((getState (bfsChildLoop r cs (sts, q)).1 u).failure) ∧
        (getState (bfsChildLoop r cs (sts, q)).1 u).outputs =
          (getState sts u).outputs ++
            (getState (bfsChildLoop r cs (sts, q)).1
              ((getState (bfsChildLoop r cs (sts, q)).1 u).failure)).outputs) := by
  intro cs
  induction cs with
  | nil =>
    intro _ sts q hlen hnext _
    refine ⟨hlen, hnext, by simp [bfsChildLoop], fun j _ => rfl, ?_⟩
    intro c hc
    exact absurd hc (List.not_mem_nil _)
  | cons c cs ih =>
    intro hnodup sts q hlen hnext hfs
    obtain ⟨hcnotin, hnodup'⟩ := List.nodup_cons.mp hnodup
    by_cases hu : (getState sts0 r).next c = 0
    · -- no edge on c: bfsChild is the identity
      have hchild : bfsChild r (sts, q) c = (sts, q) := by
        simp only [bfsChild]
        rw [hnext r, if_pos hu]
      have hunfold : bfsChildLoop r (c :: cs) (sts, q) =
          bfsChildLoop r cs (sts, q) := by
        rw [show bfsChildLoop r (c :: cs) (sts, q) =
          bfsChildLoop r cs (bfsChild r (sts, q) c) from rfl, hchild]
      obtain ⟨m1, m2, m3, m4, m5⟩ := ih hnodup' sts q hlen hnext hfs
      rw [hunfold]
      refine ⟨m1, m2, ?_, ?_, ?_⟩
      · rw [m3, List.filterMap_cons_none (by rw [if_pos hu])]
      · intro j hj
        refine m4 j ?_
        rcases hj with hj | hj
        · exact Or.inl hj
        · exact Or.inr (fun c' hc' => hj c' (List.mem_cons_of_mem _ hc'))
      · intro c'' hc'' u'' he'' hne''
        rcases List.mem_cons.mp hc'' with hh | hh
        · subst hh
          rw [hu] at he''
          exact absurd he''.symm hne''
        · exact m5 c'' hh u'' he'' hne''
    · -- edge on c exists: the child is processed
      have huw : StateWord sts0 ((getState sts0 r).next c) (wr ++ [c]) :=
        StateWord.step hwr rfl hu
      -- the failure target of the child, characterised semantically
      have hskS : TrieSkeleton sts := skeleton_of_nextEq hlen hnext hsk0
      have hwrS : StateWord sts r wr := stateWord_of_nextEq hnext hwr
      have hfsS : ∀ s ws, StateWord sts s ws → ws.length ≤ wr.length → s ≠ 0 →
          FailSpec sts s ((getState sts s).failure) :=
        fun s ws hws hle hs => failSpec_of_nextEq hnext
          (hfs s ws (stateWord_of_nextEq (fun j => (hnext j).symm) hws) hle hs)
      have hft := failTarget_spec hskS c hwrS hr hfsS
      have hft0 : FailSpecW sts0 (wr ++ [c])
          ((getState sts (walkFailure sts.length sts c
            ((getState sts r).failure))).next c) :=
        failSpecW_of_nextEq (fun j => (hnext j).symm) hft
      obtain ⟨v, hvfu, hvsuf, hvlen, hvmax⟩ := hft0
      have hfune : (getState sts (walkFailure sts.length sts c
          ((getState sts r).failure))).next c ≠ (getState sts r).next c := by
        intro he
        rw [hnext r] at he
        rw [he] at hvfu
        have := word_unique hsk0 hvfu huw
        rw [this] at hvlen
        exact absurd hvlen (lt_irrefl _)
      have hedge := bfsChild_edge r sts q c
        (by rw [hnext r]; exact hu)
        (by rw [hnext r, hlen]; exact hsk0.edgeBound r c hu) hfune
      rcases hch : bfsChild r (sts, q) c with ⟨stsB, qB⟩
      rw [hch] at hedge
      obtain ⟨e1, e2, e3, e4⟩ := hedge
      rw [hnext r] at e1 e3 e4
      dsimp only at e1 e2 e3 e4
      -- premises for the remaining characters
      have hlenB : stsB.length = sts0.length := by rw [e2, hlen]
      have hnextB : ∀ j, (getState stsB j).next = (getState sts0 j).next := by
        intro j
        by_cases hj : j = (getState sts0 r).next c
        · subst hj
          rw [e4]
          exact hnext _
        · rw [e3 j hj]
          exact hnext j
      have hfsB : ∀ s ws, StateWord sts0 s ws → ws.length ≤ wr.length → s ≠ 0 →
          FailSpec sts0 s ((getState stsB s).failure) := by
        intro s ws hws hle hs
        have hsne : s ≠ (getState sts0 r).next c := by
          intro he
          rw [he] at hws
          have := word_unique hsk0 hws huw
          rw [this] at hle
          simp only [List.length_append, List.length_cons, List.length_nil] at hle
          omega
        rw [e3 s hsne]
        exact hfs s ws hws hle hs
      obtain ⟨m1, m2, m3, m4, m5⟩ := ih hnodup' stsB qB hlenB hnextB hfsB
      have hunfold : bfsChildLoop r (c :: cs) (sts, q) =
          bfsChildLoop r cs (stsB, qB) := by
        rw [show bfsChildLoop r (c :: cs) (sts, q) =
          bfsChildLoop r cs (bfsChild r (sts, q) c) from rfl, hch]
      rw [hunfold]
      -- the child and its failure state are untouched by the rest of the loop
      have hchildfix : ∀ c' ∈ cs, (getState sts0 r).next c' ≠
          (getState sts0 r).next c := by
        intro c' hc' he
        by_cases h0 : (getState sts0 r).next c' = 0
        · rw [h0] at he
          exact hu he.symm
        · exact hcnotin ((hsk0.edgeInj r c' r c h0 he).2 ▸ hc')
      have hfufix : (getState sts (walkFailure sts.length sts c
          ((getState sts r).failure))).next c = 0 ∨
          ∀ c' ∈ cs, (getState sts0 r).next c' ≠
            (getState sts (walkFailure sts.length sts c
              ((getState sts r).failure))).next c := by
        by_cases h0 : (getState sts (walkFailure sts.length sts c
            ((getState sts r).failure))).next c = 0
        · exact Or.inl h0
        · refine Or.inr ?_
          intro c' hc' he
          by_cases hz : (getState sts0 r).next c' = 0
          · exact h0 (hz ▸ he).symm
          · have hw' : StateWord sts0 ((getState sts0 r).next c') (wr ++ [c']) :=
              StateWord.step hwr rfl hz
            rw [he] at hw'
            have := word_unique hsk0 hvfu hw'
            rw [this] at hvlen
            simp only [List.length_append, List.length_cons, List.length_nil] at hvlen
            omega
      refine ⟨m1, m2, ?_, ?_, ?_⟩
      · rw [m3, e1, List.filterMap_cons_some (by rw [if_neg hu])]
        simp
      · intro j hj
        have hjne : j ≠ (getState sts0 r).next c := by
          rcases hj with hj | hj
          · subst hj
            exact fun he => hu he.symm
          · exact fun he => hj c (List.mem_cons_self _ _) he.symm
        have hjB : getState stsB j = getState sts j := e3 j hjne
        rw [← hjB]
        refine m4 j ?_
        rcases hj with hj | hj
        · exact Or.inl hj
        · exact Or.inr (fun c' hc' => hj c' (List.mem_cons_of_mem _ hc'))
      · intro c'' hc'' u'' he'' hne''
        rcases List.mem_cons.mp hc'' with hh | hh
        · rw [hh] at he'' ⊢
          subst he''
          have hgu : getState (bfsChildLoop r cs (stsB, qB)).1
              ((getState sts0 r).next c) = getState stsB ((getState sts0 r).next c) :=
            m4 _ (Or.inr (fun c' hc' => hchildfix c' hc'))
          have hgfu : getState (bfsChildLoop r cs (stsB, qB)).1
              ((getState sts (walkFailure sts.length sts c
                ((getState sts r).failure))).next c) =
              getState sts ((getState sts (walkFailure sts.length sts c
                ((getState sts r).failure))).next c) := by
            rcases hfufix with h0 | hfix
            · rw [h0]
              have hz : getState (bfsChildLoop r cs (stsB, qB)).1 0 = getState stsB 0 :=
                m4 0 (Or.inl rfl)
              rw [hz, e3 0 (fun he => hu he.symm)]
            · have h1 : getState (bfsChildLoop r cs (stsB, qB)).1
                  ((getState sts (walkFailure sts.length sts c
                    ((getState sts r).failure))).next c) =
                  getState stsB ((getState sts (walkFailure sts.length sts c
                    ((getState sts r).failure))).next c) :=
                m4 _ (Or.inr hfix)
              rw [h1, e3 _ (by rw [hnext r] at hfune; exact hfune)]
          rw [hgu, e4]
          refine ⟨⟨v, hvfu, hvsuf, hvlen, hvmax⟩, ?_⟩
          dsimp only
          rw [hgfu]
        · obtain ⟨f1, f2⟩ := m5 c'' hh u'' he'' hne''
          refine ⟨f1, ?_⟩
          rw [f2]
          have hune : u'' ≠ (getState sts0 r).next c := he'' ▸ hchildfix c'' hh
          rw [e3 u'' hune]

/-- A duplicate-free list of non-zero states below `n` has fewer than `n`
elements. -/
theorem nodup_bound_length {E : List Nat} {n : Nat} (hn : 0 < n) (h1 : E.Nodup)
    (h2 : 0 ∉ E) (h3 : ∀ s ∈ E, s < n) : E.length < n := by
  have hsub : E.toFinset ⊆ (Finset.range n).erase 0 := by
    intro x hx
    rw [List.mem_toFinset] at hx
    exact Finset.mem_erase.mpr ⟨fun h => h2 (h ▸ hx), Finset.mem_range.mpr (h3 x hx)⟩
  have hc := Finset.card_le_card hsub
  rw [List.toFinset_card_of_nodup h1, Finset.card_erase_of_mem (Finset.mem_range.mpr hn),
    Finset.card_range] at hc
  omega

/-- The BFS queue loop, run with enough fuel from any configuration
satisfying the loop invariant, produces an automaton with unchanged goto
structure, untouched root record, correct failure links everywhere, and
output lists given by the base outputs plus the failure state's outputs
(for states of depth at least two). -/
theorem bfsLoop_spec {sts0 : List ACState} (hsk0 : TrieSkeleton sts0) :
    ∀ (fuel : Nat) (sts : List ACState) (q done : List Nat),
      BfsInv sts0 sts done q →
      sts0.length ≤ fuel + done.length →
      (bfsLoop fuel (sts, q)).length = sts0.length ∧
      (∀ j, (getState (bfsLoop fuel (sts, q)) j).next = (getState sts0 j).next) ∧
      getState (bfsLoop fuel (sts, q)) 0 = getState sts0 0 ∧
      (∀ s, s ≠ 0 → s < sts0.length →
        FailSpec sts0 s ((getState (bfsLoop fuel (sts, q)) s).failure)) ∧
      (∀ s w, s ≠ 0 → StateWord sts0 s w →
        (w.length = 1 → (getState (bfsLoop fuel (sts, q)) s).outputs =
          (getState sts0 s).outputs) ∧
        (2 ≤ w.length → (getState (bfsLoop fuel (sts, q)) s).outputs =
          (getState sts0 s).outputs ++
            (getState (bfsLoop fuel (sts, q))
              ((getState (bfsLoop fuel (sts, q)) s).failure)).outputs)) := by
  intro fuel
  induction fuel with
  | zero =>
    intro sts q done inv hfuel
    exfalso
    have hlt := nodup_bound_length hsk0.posLen inv.nodupE inv.zeroE inv.boundE
    have hdq : done.length ≤ (done ++ q).length := by simp
    omega
  | succ fuel ih =>
    intro sts q done inv hfuel
    cases q with
    | nil =>
      have hrfl : bfsLoop (fuel + 1) (sts, ([] : List Nat)) = sts := rfl
      rw [hrfl]
      have hmem : ∀ s, s ≠ 0 → s < sts0.length → s ∈ done ++ ([] : List Nat) := by
        intro s hs hslt
        obtain ⟨ws, hws⟩ := hsk0.allReach s hslt
        exact levels_in_E hsk0 inv ws.length s ws le_rfl hws hs
          (fun x wx hx _ => absurd hx (List.not_mem_nil _))
      refine ⟨inv.len, inv.nextEq, inv.untouched 0 inv.zeroE, ?_, ?_⟩
      · intro s hs hslt
        exact inv.fail s (hmem s hs hslt)
      · intro s w hs hw
        exact inv.outs s (hmem s hs (word_state_lt hsk0 hw)) w hw
    | cons r q' =>
      have hrE : r ∈ done ++ r :: q' := by simp
      have hr : r ≠ 0 := fun h => inv.zeroE (h ▸ hrE)
      have hrlt : r < sts0.length := inv.boundE r hrE
      obtain ⟨wr, hwr⟩ := hsk0.allReach r hrlt
      have hpw := List.pairwise_append.mp inv.sorted
      have hdepth_done : ∀ a ∈ done, ∀ wa, StateWord sts0 a wa →
          wa.length ≤ wr.length :=
        fun a ha wa hwa => hpw.2.2 a ha r (List.mem_cons_self _ _) wa wr hwa hwr
      have hrq : ∀ x ∈ q', ∀ wx, StateWord sts0 x wx → wr.length ≤ wx.length := by
        intro x hx wx hwx
        exact (List.pairwise_cons.mp hpw.2.1).1 x hx wr wx hwr hwx
      have hqbound : ∀ x ∈ r :: q', ∀ wx, StateWord sts0 x wx →
          wr.length ≤ wx.length := by
        intro x hx wx hwx
        rcases List.mem_cons.mp hx with hh | hh
        · rw [word_unique hsk0 hwx (hh ▸ hwr)]
        · exact hrq x hh wx hwx
      have hshallow : ∀ s ws, StateWord sts0 s ws → ws.length ≤ wr.length →
          s ≠ 0 → s ∈ done ++ r :: q' := by
        intro s ws hws hle hs
        refine levels_in_E hsk0 inv ws.length s ws le_rfl hws hs ?_
        intro x wx hx hwx
        exact le_trans hle (hqbound x hx wx hwx)
      have hfs : ∀ s ws, StateWord sts0 s ws → ws.length ≤ wr.length → s ≠ 0 →
          FailSpec sts0 s ((getState sts s).failure) :=
        fun s ws hws hle hs => inv.fail s (hshallow s ws hws hle hs)
      obtain ⟨m1, m2, m3, m4, m5⟩ := bfsChildLoop_spec hsk0 hwr hr
        (List.range 256) (List.nodup_range 256) sts q' inv.len inv.nextEq hfs
      rcases hL : bfsChildLoop r (List.range 256) (sts, q') with ⟨stsC, qC⟩
      rw [hL] at m1 m2 m3 m4 m5
      dsimp only at m1 m2 m3 m4 m5
      have hcm : ∀ x, x ∈ (List.range 256).filterMap (fun c =>
          if (getState sts0 r).next c = 0 then none
          else some ((getState sts0 r).next c)) ↔
          ∃ c, c < 256 ∧ (getState sts0 r).next c = x ∧ x ≠ 0 := by
        intro x
        rw [List.mem_filterMap]
        constructor
        · rintro ⟨c, hc, hfc⟩
          by_cases h0 : (getState sts0 r).next c = 0
          · rw [if_pos h0] at hfc
            exact absurd hfc (by simp)
          · rw [if_neg h0] at hfc
            have hx : (getState sts0 r).next c = x := Option.some.inj hfc
            exact ⟨c, List.mem_range.mp hc, hx, fun h => h0 (by rw [hx, h])⟩
        · rintro ⟨c, hc, hx, hne⟩
          exact ⟨c, List.mem_range.mpr hc, by rw [if_neg (by rw [hx]; exact hne), hx]⟩
      have hrdone : r ∉ done := by
        have hdisj := (List.nodup_append.mp inv.nodupE).2.2
        exact fun hd => hdisj hd (List.mem_cons_self _ _)
      have hnotold : ∀ c x, (getState sts0 r).next c = x → x ≠ 0 →
          x ∉ done ++ r :: q' := by
        intro c x he hne hold
        rcases (inv.memE r c x he hne).mp hold with h0 | hd
        · exact hr h0
        · exact hrdone hd
      have hchildword : ∀ c x, (getState sts0 r).next c = x → x ≠ 0 →
          StateWord sts0 x (wr ++ [c]) :=
        fun c x he hne => StateWord.step hwr he hne
      have hnotchild : ∀ x, x ∈ done ++ r :: q' →
          (x = 0 ∨ ∀ c ∈ List.range 256, (getState sts0 r).next c ≠ x) := by
        intro x hold
        refine Or.inr ?_
        intro c _ he
        have hne : x ≠ 0 := fun h => inv.zeroE (h ▸ hold)
        exact hnotold c x he hne hold
      have holdfix : ∀ x, x ∈ done ++ r :: q' → getState stsC x = getState sts x :=
        fun x hx => m4 x (hnotchild x hx)
      have hzfix : getState stsC 0 = getState sts 0 := m4 0 (Or.inl rfl)
      have hE' : (done ++ [r]) ++ qC = (done ++ r :: q') ++
          (List.range 256).filterMap (fun c =>
            if (getState sts0 r).next c = 0 then none
            else some ((getState sts0 r).next c)) := by
        rw [m3]
        simp
      have inv' : BfsInv sts0 stsC (done ++ [r]) qC := by
        refine ⟨m1, m2, ?_, ?_, ?_, ?_, ?_, ?_, ?_, ?_, ?_⟩
        · -- nodup
          rw [hE', List.nodup_append]
          refine ⟨inv.nodupE, ?_, ?_⟩
          · refine List.Nodup.filterMap ?_ (List.nodup_range 256)
            intro a a' b hb hb'
            rw [Option.mem_def] at hb hb'
            by_cases h0 : (getState sts0 r).next a = 0
            · rw [if_pos h0] at hb
              exact absurd hb (by simp)
            · rw [if_neg h0] at hb
              by_cases h0' : (getState sts0 r).next a' = 0
              · rw [if_pos h0'] at hb'
                exact absurd hb' (by simp)
              · rw [if_neg h0'] at hb'
                exact (hsk0.edgeInj r a r a' h0
                  ((Option.some.inj hb).trans (Option.some.inj hb').symm)).2
          · rw [List.disjoint_left]
            intro x hold hch2
            obtain ⟨c, _, he, hne⟩ := (hcm x).mp hch2
            exact hnotold c x he hne hold
        · -- zero
          rw [hE']
          intro h
          rcases List.mem_append.mp h with h | h
          · exact inv.zeroE h
          · obtain ⟨c, _, _, hne⟩ := (hcm 0).mp h
            exact hne rfl
        · -- bound
          intro s hs
          rw [hE'] at hs
          rcases List.mem_append.mp hs with hold | hch2
          · exact inv.boundE s hold
          · obtain ⟨c, _, he, hne⟩ := (hcm s).mp hch2
            have := hsk0.edgeBound r c (by rw [he]; exact hne)
            rw [he] at this
            exact this
        · -- membership characterisation
          intro p c s he hne
          constructor
          · intro hsE'
            rw [hE'] at hsE'
            rcases List.mem_append.mp hsE' with hold | hch2
            · rcases (inv.memE p c s he hne).mp hold with h0 | hd
              · exact Or.inl h0
              · exact Or.inr (List.mem_append_left _ hd)
            · obtain ⟨c', _, he', hne'⟩ := (hcm s).mp hch2
              refine Or.inr (List.mem_append_right _ ?_)
              have hpr := (hsk0.edgeInj p c r c' (by rw [he]; exact hne)
                (by rw [he, he'])).1
              simp [hpr]
          · intro hp
            rw [hE']
            rcases hp with h0 | hd
            · exact List.mem_append_left _ ((inv.memE p c s he hne).mpr (Or.inl h0))
            · rcases List.mem_append.mp hd with hd | hpr
              · exact List.mem_append_left _ ((inv.memE p c s he hne).mpr (Or.inr hd))
              · have hpr' : p = r := by simpa using hpr
                rw [hpr'] at he
                exact List.mem_append_right _ ((hcm s).mpr
                  ⟨c, hsk0.edgeChar r c (by rw [he]; exact hne), he, hne⟩)
        · -- sorted
          rw [hE', List.pairwise_append]
          refine ⟨inv.sorted, ?_, ?_⟩
          · refine List.pairwise_of_forall_mem_list ?_
            intro a ha b hb wa wb hwa hwb
            obtain ⟨ca, _, hea, hnea⟩ := (hcm a).mp ha
            obtain ⟨cb, _, heb, hneb⟩ := (hcm b).mp hb
            rw [word_unique hsk0 hwa (hchildword ca a hea hnea),
              word_unique hsk0 hwb (hchildword cb b heb hneb)]
            simp
          · intro a ha b hb wa wb hwa hwb
            obtain ⟨cb, _, heb, hneb⟩ := (hcm b).mp hb
            rw [word_unique hsk0 hwb (hchildword cb b heb hneb)]
            simp only [List.length_append, List.length_cons, List.length_nil]
            rcases List.mem_append.mp ha with hd | hq
            · have := hdepth_done a hd wa hwa
              omega
            · have hane : a ≠ 0 := fun h =>
                inv.zeroE (h ▸ List.mem_append_right _ hq)
              rcases List.eq_nil_or_concat wa with h0 | ⟨w'', c'', hwa2⟩
              · subst h0
                simp
              · rw [List.concat_eq_append] at hwa2
                subst hwa2
                obtain ⟨p'', hp'', hpe'', _⟩ := word_snoc_inv hwa
                rcases (inv.memE p'' c'' a hpe'' hane).mp
                    (List.mem_append_right _ hq) with h0 | hd
                · rw [h0] at hp''
                  rw [word_of_root hp'']
                  simp
                · have := hdepth_done p'' hd w'' hp''
                  simp only [List.length_append, List.length_cons, List.length_nil]
                  omega
        · -- failure links
          intro s hsE'
          rw [hE'] at hsE'
          rcases List.mem_append.mp hsE' with hold | hch2
          · rw [holdfix s hold]
            exact inv.fail s hold
          · obtain ⟨c, hc, he, hne⟩ := (hcm s).mp hch2
            exact failSpec_of_word hsk0 (hchildword c s he hne)
              (m5 c (List.mem_range.mpr hc) s he hne).1
        · -- failure membership
          intro s hsE'
          rw [hE'] at hsE' ⊢
          rcases List.mem_append.mp hsE' with hold | hch2
          · rw [holdfix s hold]
            rcases inv.failMem s hold with h0 | hm
            · exact Or.inl h0
            · exact Or.inr (List.mem_append_left _ hm)
          · obtain ⟨c, hc, he, hne⟩ := (hcm s).mp hch2
            obtain ⟨v, hvw, hvsuf, hvlen, _⟩ := (m5 c (List.mem_range.mpr hc) s he hne).1
            by_cases h0 : (getState stsC s).failure = 0
            · exact Or.inl h0
            · refine Or.inr (List.mem_append_left _ ?_)
              refine hshallow _ v hvw ?_ h0
              simp only [List.length_append, List.length_cons, List.length_nil] at hvlen
              omega
        · -- untouched
          intro s hsE'
          rw [hE'] at hsE'
          have hold : s ∉ done ++ r :: q' := fun h => hsE' (List.mem_append_left _ h)
          have hch2 : s ∉ (List.range 256).filterMap (fun c =>
              if (getState sts0 r).next c = 0 then none
              else some ((getState sts0 r).next c)) :=
            fun h => hsE' (List.mem_append_right _ h)
          have hm4 : getState stsC s = getState sts s := by
            refine m4 s ?_
            by_cases hs0 : s = 0
            · exact Or.inl hs0
            · refine Or.inr ?_
              intro c hcr he
              exact hch2 ((hcm s).mpr ⟨c, List.mem_range.mp hcr, he, hs0⟩)
          rw [hm4]
          exact inv.untouched s hold
        · -- outputs
          intro s hsE' w hw
          rw [hE'] at hsE'
          rcases List.mem_append.mp hsE' with hold | hch2
          · have hfix := holdfix s hold
            have hout := inv.outs s hold w hw
            refine ⟨fun h1 => by rw [hfix]; exact hout.1 h1, fun h2 => ?_⟩
            rw [hfix, hout.2 h2]
            have htfix : getState stsC ((getState sts s).failure) =
                getState sts ((getState sts s).failure) := by
              rcases inv.failMem s hold with h0 | hm
              · rw [h0, hzfix]
              · exact holdfix _ hm
            rw [htfix]
          · obtain ⟨c, hc, he, hne⟩ := (hcm s).mp hch2
            obtain ⟨hf1, hf2⟩ := m5 c (List.mem_range.mpr hc) s he hne
            have hwc : w = wr ++ [c] := word_unique hsk0 hw (hchildword c s he hne)
            have hwrpos : 0 < wr.length := List.length_pos.mpr (word_ne_nil hwr hr)
            constructor
            · intro h1
              exfalso
              rw [hwc] at h1
              simp only [List.length_append, List.length_cons, List.length_nil] at h1
              omega
            · intro _
              rw [hf2, inv.untouched s (hnotold c s he hne)]
      have hstep : bfsLoop (fuel + 1) (sts, r :: q') = bfsLoop fuel (stsC, qC) := by
        rw [show bfsLoop (fuel + 1) (sts, r :: q') =
          bfsLoop fuel (bfsChildLoop r (List.range 256) (sts, q')) from rfl, hL]
      rw [hstep]
      refine ih stsC qC (done ++ [r]) inv' ?_
      simp only [List.length_append, List.length_cons, List.length_nil]
      omega

/-- Membership in the child list built by filtering the 256 goto entries of
state `r`. -/
theorem mem_childList {sts0 : List ACState} (r x : Nat) :
    x ∈ (List.range 256).filterMap (fun c =>
      if (getState sts0 r).next c = 0 then none
      else some ((getState sts0 r).next c)) ↔
    ∃ c, c < 256 ∧ (getState sts0 r).next c = x ∧ x ≠ 0 := by
  rw [List.mem_filterMap]
  constructor
  · rintro ⟨c, hc, hfc⟩
    by_cases h0 : (getState sts0 r).next c = 0
    · rw [if_pos h0] at hfc
      exact absurd hfc (by simp)
    · rw [if_neg h0] at hfc
      have hx : (getState sts0 r).next c = x := Option.some.inj hfc
      exact ⟨c, List.mem_range.mp hc, hx, fun h => h0 (by rw [hx, h])⟩
  · rintro ⟨c, hc, hx, hne⟩
    exact ⟨c, List.mem_range.mpr hc, by rw [if_neg (by rw [hx]; exact hne), hx]⟩

/-- A state reached by a single character has the root as the node of the
longest proper suffix of its word. -/
theorem failSpec_depth1 {sts : List ACState} (hsk : TrieSkeleton sts)
    {s c : Nat} (hw : StateWord sts s [c]) : FailSpec sts s 0 := by
  intro w hw'
  have hwc : w = [c] := word_unique hsk hw' hw
  subst hwc
  refine ⟨[], StateWord.root, List.nil_suffix, by simp, ?_⟩
  intro u hu hul _
  simp only [List.length_cons, List.length_nil] at hul
  simp only [List.length_nil]
  omega

/-- The state array of the built automaton: the goto structure and the root
record of the trie phase are unchanged, every non-root state carries the
failure link of the longest proper suffix of its word, and output lists are
the trie outputs extended (for depth at least two) by the failure state's
outputs. -/
theorem build_states_spec (L : List (List Nat)) :
    (buildAhoCorasickAutomaton L).states.length = (buildTrie L).1.length ∧
    (∀ j, (getState (buildAhoCorasickAutomaton L).states j).next =
      (getState (buildTrie L).1 j).next) ∧
    getState (buildAhoCorasickAutomaton L).states 0 = getState (buildTrie L).1 0 ∧
    (∀ s, s ≠ 0 → s < (buildTrie L).1.length →
      FailSpec (buildTrie L).1 s
        ((getState (buildAhoCorasickAutomaton L).states s).failure)) ∧
    (∀ s w, s ≠ 0 → StateWord (buildTrie L).1 s w →
      (w.length = 1 → (getState (buildAhoCorasickAutomaton L).states s).outputs =
        (getState (buildTrie L).1 s).outputs) ∧
      (2 ≤ w.length → (getState (buildAhoCorasickAutomaton L).states s).outputs =
        (getState (buildTrie L).1 s).outputs ++
          (getState (buildAhoCorasickAutomaton L).states
            ((getState (buildAhoCorasickAutomaton L).states s).failure)).outputs)) := by
  obtain ⟨b1, b2, b3, b4, b5⟩ := buildTrie_spec L
  have hiq : initQueue (buildTrie L).1 = ((buildTrie L).1,
      (List.range 256).filterMap (fun c =>
        if (getState (buildTrie L).1 0).next c = 0 then none
        else some ((getState (buildTrie L).1 0).next c))) := by
    have h := initLoop_eq (List.range 256) (buildTrie L).1 [] b3
    rw [List.nil_append] at h
    exact h
  have hA : (buildAhoCorasickAutomaton L).states =
      bfsLoop (buildTrie L).1.length ((buildTrie L).1,
        (List.range 256).filterMap (fun c =>
          if (getState (buildTrie L).1 0).next c = 0 then none
          else some ((getState (buildTrie L).1 0).next c))) := by
    have h0 : (buildAhoCorasickAutomaton L).states =
        bfsLoop (initQueue (buildTrie L).1).1.length
          ((initQueue (buildTrie L).1).1, (initQueue (buildTrie L).1).2) := rfl
    rw [h0, hiq]
  have hword1 : ∀ x, (∃ c, c < 256 ∧ (getState (buildTrie L).1 0).next c = x ∧
      x ≠ 0) → ∃ c, StateWord (buildTrie L).1 x ([] ++ [c]) := by
    rintro x ⟨c, _, he, hne⟩
    exact ⟨c, StateWord.step StateWord.root he hne⟩
  have inv0 : BfsInv (buildTrie L).1 (buildTrie L).1 []
      ((List.range 256).filterMap (fun c =>
        if (getState (buildTrie L).1 0).next c = 0 then none
        else some ((getState (buildTrie L).1 0).next c))) := by
    refine ⟨rfl, fun j => rfl, ?_, ?_, ?_, ?_, ?_, ?_, ?_, fun s _ => rfl, ?_⟩
    · rw [List.nil_append]
      refine List.Nodup.filterMap ?_ (List.nodup_range 256)
      intro a a' b hb hb'
      rw [Option.mem_def] at hb hb'
      by_cases h0 : (getState (buildTrie L).1 0).next a = 0
      · rw [if_pos h0] at hb
        exact absurd hb (by simp)
      · rw [if_neg h0] at hb
        by_cases h0' : (getState (buildTrie L).1 0).next a' = 0
        · rw [if_pos h0'] at hb'
          exact absurd hb' (by simp)
        · rw [if_neg h0'] at hb'
          exact (b1.edgeInj 0 a 0 a' h0
            ((Option.some.inj hb).trans (Option.some.inj hb').symm)).2
    · intro h
      rw [List.nil_append] at h
      obtain ⟨c, _, _, hne⟩ := (mem_childList 0 0).mp h
      exact hne rfl
    · intro s hs
      rw [List.nil_append] at hs
      obtain ⟨c, _, he, hne⟩ := (mem_childList 0 s).mp hs
      have := b1.edgeBound 0 c (by rw [he]; exact hne)
      rw [he] at this
      exact this
    · intro p c s he hne
      rw [List.nil_append]
      constructor
      · intro hs
        obtain ⟨c', _, he', _⟩ := (mem_childList 0 s).mp hs
        exact Or.inl (b1.edgeInj p c 0 c' (by rw [he]; exact hne) (by rw [he, he'])).1
      · intro hp
        rcases hp with h0 | hd
        · subst h0
          exact (mem_childList 0 s).mpr
            ⟨c, b1.edgeChar 0 c (by rw [he]; exact hne), he, hne⟩
        · exact absurd hd (List.not_mem_nil _)
    · rw [List.nil_append]
      refine List.pairwise_of_forall_mem_list ?_
      intro a ha b hb wa wb hwa hwb
      obtain ⟨ca, hca⟩ := hword1 a ((mem_childList 0 a).mp ha)
      obtain ⟨cb, hcb⟩ := hword1 b ((mem_childList 0 b).mp hb)
      rw [word_unique b1 hwa hca, word_unique b1 hwb hcb]
      simp
    · intro s hs
      rw [List.nil_append] at hs
      obtain ⟨c, hc⟩ := hword1 s ((mem_childList 0 s).mp hs)
      rw [b3 s]
      exact failSpec_depth1 b1 hc
    · intro s _
      rw [b3 s]
      exact Or.inl rfl
    · intro s hs w hw
      rw [List.nil_append] at hs
      obtain ⟨c, hc⟩ := hword1 s ((mem_childList 0 s).mp hs)
      have hwc : w = [] ++ [c] := word_unique b1 hw hc
      refine ⟨fun _ => rfl, ?_⟩
      intro h2
      exfalso
      rw [hwc] at h2
      simp at h2
  obtain ⟨z1, z2, z3, z4, z5⟩ := bfsLoop_spec b1 (buildTrie L).1.length
    (buildTrie L).1 ((List.range 256).filterMap (fun c =>
      if (getState (buildTrie L).1 0).next c = 0 then none
      else some ((getState (buildTrie L).1 0).next c))) [] inv0 (by simp)
  rw [hA]
  exact ⟨z1, z2, z3, z4, z5⟩

/-- The built automaton: a well-formed goto skeleton, correct failure links
at every non-root state, and output lists that are sound and complete for
the pattern list (completeness applying to patterns with at least one
consumed character). -/
theorem buildAutomaton_spec (L : List (List Nat)) :
    TrieSkeleton (buildAhoCorasickAutomaton L).states ∧
    (∀ s, s ≠ 0 → s < (buildAhoCorasickAutomaton L).states.length →
      FailSpec (buildAhoCorasickAutomaton L).states s
        ((getState (buildAhoCorasickAutomaton L).states s).failure)) ∧
    OutputsSound (buildAhoCorasickAutomaton L).states L ∧
    OutputsComplete (buildAhoCorasickAutomaton L).states L ∧
    (∀ (id : Nat) (pat : List Nat), L[id]? = some pat →
      IsNode (buildAhoCorasickAutomaton L).states (patChars pat)) := by
  obtain ⟨b1, b2, b3, b4, b5⟩ := buildTrie_spec L
  obtain ⟨z1, z2, z3, z4, z5⟩ := build_states_spec L
  set S := (buildTrie L).1 with hSd
  set F := (buildAhoCorasickAutomaton L).states with hFd
  have hskF : TrieSkeleton F := skeleton_of_nextEq z1 z2 b1
  have hWf : ∀ {s : Nat} {w : List Nat}, StateWord F s w → StateWord S s w :=
    fun h => stateWord_of_nextEq (fun j => (z2 j).symm) h
  have hW0 : ∀ {s : Nat} {w : List Nat}, StateWord S s w → StateWord F s w :=
    fun h => stateWord_of_nextEq z2 h
  have hfail : ∀ s, s ≠ 0 → s < F.length →
      FailSpec F s ((getState F s).failure) :=
    fun s hs hlt => failSpec_of_nextEq z2 (z4 s hs (z1 ▸ hlt))
  have hsoundN : ∀ n s w id, w.length ≤ n → StateWord F s w →
      id ∈ (getState F s).outputs → ∃ pat, L[id]? = some pat ∧
        patChars pat <:+ w := by
    intro n
    induction n with
    | zero =>
      intro s w id hn hw hid
      have hw0 : w = [] := List.length_eq_zero.mp (Nat.le_zero.mp hn)
      subst hw0
      have hs0 : s = 0 := word_nil_state hw
      subst hs0
      rw [z3] at hid
      obtain ⟨pat, hpat, hpc⟩ := b4 0 [] id StateWord.root hid
      exact ⟨pat, hpat, by rw [hpc]⟩
    | succ n ih =>
      intro s w id hn hw hid
      by_cases hs0 : s = 0
      · subst hs0
        have hw0 : w = [] := word_of_root hw
        subst hw0
        rw [z3] at hid
        obtain ⟨pat, hpat, hpc⟩ := b4 0 [] id StateWord.root hid
        exact ⟨pat, hpat, by rw [hpc]⟩
      · have hw0 : StateWord S s w := hWf hw
        rcases Nat.lt_or_ge w.length 2 with h1 | h2
        · have hlen1 : w.length = 1 := by
            have hnn : w ≠ [] := word_ne_nil hw hs0
            have := List.length_pos.mpr hnn
            omega
          rw [(z5 s w hs0 hw0).1 hlen1] at hid
          obtain ⟨pat, hpat, hpc⟩ := b4 s w id hw0 hid
          exact ⟨pat, hpat, by rw [hpc]⟩
        · rw [(z5 s w hs0 hw0).2 h2] at hid
          rcases List.mem_append.mp hid with hb | hf
          · obtain ⟨pat, hpat, hpc⟩ := b4 s w id hw0 hb
            exact ⟨pat, hpat, by rw [hpc]⟩
          · have hfl := z4 s hs0 (word_state_lt b1 hw0)
            obtain ⟨v, hvw, hvsuf, hvlt, _⟩ := hfl w hw0
            obtain ⟨pat, hpat, hpc⟩ := ih ((getState F s).failure) v id
              (by omega) (hW0 hvw) hf
            exact ⟨pat, hpat, hpc.trans hvsuf⟩
  have hcompN : ∀ n s w id pat, w.length ≤ n → StateWord F s w →
      L[id]? = some pat → patChars pat ≠ [] → patChars pat <:+ w →
      id ∈ (getState F s).outputs := by
    intro n
    induction n with
    | zero =>
      intro s w id pat hn _ _ hne hsuf
      have hw0 : w = [] := List.length_eq_zero.mp (Nat.le_zero.mp hn)
      rw [hw0] at hsuf
      exact absurd (List.length_eq_zero.mp (Nat.le_zero.mp
        (by simpa using hsuf.length_le))) hne
    | succ n ih =>
      intro s w id pat hn hw hpat hne hsuf
      have hw0 : StateWord S s w := hWf hw
      have hs0 : s ≠ 0 := by
        intro h
        subst h
        have hwn : w = [] := word_of_root hw
        rw [hwn] at hsuf
        exact hne (List.length_eq_zero.mp (Nat.le_zero.mp
          (by simpa using hsuf.length_le)))
      by_cases heq : patChars pat = w
      · obtain ⟨t0, ht0w, ht0mem⟩ := b5 id pat hpat
        rw [heq] at ht0w
        have hts : t0 = s := node_unique ht0w hw0
        rw [hts] at ht0mem
        rcases Nat.lt_or_ge w.length 2 with h1 | h2
        · have hlen1 : w.length = 1 := by
            have hnn : w ≠ [] := word_ne_nil hw hs0
            have := List.length_pos.mpr hnn
            omega
          rw [(z5 s w hs0 hw0).1 hlen1]
          exact ht0mem
        · rw [(z5 s w hs0 hw0).2 h2]
          exact List.mem_append_left _ ht0mem
      · have hlt : (patChars pat).length < w.length :=
          lt_of_le_of_ne hsuf.length_le (fun h => heq (hsuf.eq_of_length h))
        have h2 : 2 ≤ w.length := by
          have := List.length_pos.mpr hne
          omega
        have hfl := z4 s hs0 (word_state_lt b1 hw0)
        obtain ⟨v, hvw, hvsuf, hvlt, hvmax⟩ := hfl w hw0
        obtain ⟨t0, ht0w, _⟩ := b5 id pat hpat
        have hmax := hvmax (patChars pat) hsuf hlt ⟨t0, ht0w⟩
        have hsufv : patChars pat <:+ v :=
          List.suffix_of_suffix_length_le hsuf hvsuf hmax
        have hidf := ih ((getState F s).failure) v id pat (by omega)
          (hW0 hvw) hpat hne hsufv
        rw [(z5 s w hs0 hw0).2 h2]
        exact List.mem_append_right _ hidf
  refine ⟨hskF, hfail,
    fun s w id hw hid => hsoundN w.length s w id le_rfl hw hid,
    fun s w id pat hw hpat hne hsuf =>
      hcompN w.length s w id pat le_rfl hw hpat hne hsuf, ?_⟩
  intro id pat hpat
  obtain ⟨t0, ht0w, _⟩ := b5 id pat hpat
  exact ⟨t0, hW0 ht0w⟩

/-- In any automaton with a well-formed skeleton and semantically correct
failure links, the failure link of each non-root state satisfies the
textbook recurrence: children of the root fail to the root, and a child of
`p ≠ 0` on `c` fails to the effective transition `g(f(p), c)`. -/
theorem gEff_of_failSpec {sts : List ACState} (hsk : TrieSkeleton sts)
    (hfs : ∀ s, s ≠ 0 → s < sts.length →
      FailSpec sts s ((getState sts s).failure)) :
    ∀ p c u, (getState sts p).next c = u → u ≠ 0 →
      (getState sts u).failure =
        if p = 0 then 0 else gEff sts ((getState sts p).failure) c := by
  intro p c u he hne
  have hplt : p < sts.length := by
    by_contra hge
    rw [getState_of_ge sts p (Nat.le_of_not_lt hge)] at he
    exact hne he.symm
  obtain ⟨wp, hwp⟩ := hsk.allReach p hplt
  have hulen : u < sts.length := by
    have hb := hsk.edgeBound p c (by rw [he]; exact hne)
    rw [he] at hb
    exact hb
  have huw : StateWord sts u (wp ++ [c]) := StateWord.step hwp he hne
  have hfu := hfs u hne hulen (wp ++ [c]) huw
  by_cases hp0 : p = 0
  · rw [if_pos hp0]
    subst hp0
    have hwp0 : wp = [] := word_of_root hwp
    subst hwp0
    obtain ⟨v, hvw, _, hvlt, _⟩ := hfu
    have hv0 : v = [] := by
      refine List.length_eq_zero.mp ?_
      simp only [List.nil_append, List.length_cons, List.length_nil] at hvlt
      omega
    rw [hv0] at hvw
    exact word_nil_state hvw
  · rw [if_neg hp0]
    have hfsW : ∀ s ws, StateWord sts s ws → ws.length ≤ wp.length → s ≠ 0 →
        FailSpec sts s ((getState sts s).failure) :=
      fun s ws hws _ hs => hfs s hs (word_state_lt hsk hws)
    have hft : FailSpecW sts (wp ++ [c]) (gEff sts ((getState sts p).failure) c) :=
      failTarget_spec hsk c hwp hp0 hfsW
    exact failSpecW_unique hsk hfu hft

/-- C3 (amended): in the automaton built by `buildAhoCorasickAutomaton`,
for every non-root state `u` reached by a goto edge on byte `c` from parent
state `p`, the failure link of `u` equals the effective transition
`g(f(p), c)` when `p` is not the root, and equals the root when `p` is the
root (the code sets depth-1 failure links to 0 directly, which differs from
`g(f(0), c) = u` asserted by the unrestricted recurrence). -/
theorem failure_link_recurrence (L : List (List Nat)) (p c u : Nat)
    (he : (getState (buildAhoCorasickAutomaton L).states p).next c = u)
    (hne : u ≠ 0) :
    (getState (buildAhoCorasickAutomaton L).states u).failure =
      if p = 0 then 0
      else gEff (buildAhoCorasickAutomaton L).states
        ((getState (buildAhoCorasickAutomaton L).states p).failure) c := by
  obtain ⟨hsk, hfs, _, _, _⟩ := buildAutomaton_spec L
  exact gEff_of_failSpec hsk hfs p c u he hne

/-- Witness for the failure-link recurrence: for patterns `["ab", "b"]`,
the state for `"ab"` (state 2, the child of state 1 on byte 98) has failure
link `g(f(1), 98) = 3`, the state for `"b"`. -/
theorem failure_link_recurrence_witness :
    ((getState (buildAhoCorasickAutomaton [[97, 98], [98]]).states 1).next 98 = 2 ∧
      (2 : Nat) ≠ 0) ∧
    (getState (buildAhoCorasickAutomaton [[97, 98], [98]]).states 2).failure =
      (if (1 : Nat) = 0 then 0
       else gEff (buildAhoCorasickAutomaton [[97, 98], [98]]).states
         ((getState (buildAhoCorasickAutomaton [[97, 98], [98]]).states 1).failure) 98) :=
  ⟨⟨by decide, by decide⟩,
    failure_link_recurrence [[97, 98], [98]] 1 98 2 (by decide) (by decide)⟩

/-- ASCII case folding keeps bytes in the ASCII range. -/
theorem asciiFold_lt_128 {b : Nat} (hb : b < 128) : asciiFold b < 128 := by
  unfold asciiFold
  by_cases h : 65 ≤ b ∧ b ≤ 90
  · rw [if_pos h]
    omega
  · rw [if_neg h]
    exact hb

/-- On ASCII bytes, Go rune lowercasing coincides with ASCII folding. -/
theorem toLowerRune_ascii {b : Nat} (hb : b < 128) :
    toLowerRune b = asciiFold b := by
  unfold toLowerRune asciiFold
  by_cases h : 65 ≤ b ∧ b ≤ 90
  · rw [if_pos h, if_pos h]
  · rw [if_neg h, if_neg h, if_neg (by omega)]

/-- ASCII code points encode as a single byte. -/
theorem encodeRune_ascii {r : Nat} (hr : r < 128) : encodeRune r = [r] := by
  unfold encodeRune
  rw [if_pos hr]

/-- Go's rune iteration over an ASCII byte list enumerates the bytes with
their indices. -/
theorem goRunesAux_ascii : ∀ (s : List Nat) (i : Nat), AsciiText s →
    goRunesAux s.length i s = List.enumFrom i s := by
  intro s
  induction s with
  | nil => intro i _; rfl
  | cons b rest ih =>
    intro i ha
    have hb : b < 128 := ha b (List.mem_cons_self _ _)
    have hdec : decodeRune b rest = (b, 0) := by
      unfold decodeRune
      rw [if_pos hb]
    show (i, (decodeRune b rest).1) ::
        goRunesAux rest.length (i + 1 + (decodeRune b rest).2)
          (rest.drop (decodeRune b rest).2) = _
    rw [hdec]
    show (i, b) :: goRunesAux rest.length (i + 1 + 0) rest = _
    rw [ih (i + 1 + 0) (fun x hx => ha x (List.mem_cons_of_mem _ hx))]
    rfl

/-- `goRunes` of an ASCII byte list is its enumeration. -/
theorem goRunes_ascii {s : List Nat} (ha : AsciiText s) :
    goRunes s = s.enum :=
  goRunesAux_ascii s 0 ha

/-- Lowercasing an ASCII byte list is bytewise ASCII folding. -/
theorem goToLower_ascii {s : List Nat} (ha : AsciiText s) :
    goToLower s = s.map asciiFold := by
  unfold goToLower
  rw [goRunes_ascii ha]
  show ((List.enumFrom 0 s).map
    (fun p => encodeRune (toLowerRune p.2))).flatten = s.map asciiFold
  have key : ∀ (t : List Nat) (i : Nat), AsciiText t →
      ((List.enumFrom i t).map
        (fun p => encodeRune (toLowerRune p.2))).flatten = t.map asciiFold := by
    intro t
    induction t with
    | nil => intro i _; rfl
    | cons b rest ih =>
      intro i hat
      have hb : b < 128 := hat b (List.mem_cons_self _ _)
      show (encodeRune (toLowerRune b) ::
        (List.enumFrom (i + 1) rest).map
          (fun p => encodeRune (toLowerRune p.2))).flatten = _
      rw [List.flatten_cons, toLowerRune_ascii hb,
        encodeRune_ascii (asciiFold_lt_128 hb),
        ih (i + 1) (fun x hx => hat x (List.mem_cons_of_mem _ hx))]
      rfl
  exact key s 0 ha

/-- ASCII folding preserves the ASCII property. -/
theorem asciiText_map_fold {s : List Nat} (ha : AsciiText s) :
    AsciiText (s.map asciiFold) := by
  intro b hb
  obtain ⟨x, hx, hbx⟩ := List.mem_map.mp hb
  rw [← hbx]
  exact asciiFold_lt_128 (ha x hx)

/-- The consumed characters of an ASCII pattern are exactly its folded
bytes. -/
theorem patChars_ascii {p : List Nat} (ha : AsciiText p) :
    patChars p = p.map asciiFold := by
  unfold patChars
  rw [goToLower_ascii ha, goRunes_ascii (asciiText_map_fold ha)]
  have henum : ∀ (t : List Nat) (i : Nat),
      (List.enumFrom i t).map Prod.snd = t := by
    intro t
    induction t with
    | nil => intro i; rfl
    | cons b rest ih =>
      intro i
      show b :: (List.enumFrom (i + 1) rest).map Prod.snd = _
      rw [ih (i + 1)]
  show ((List.enumFrom 0 (p.map asciiFold)).map Prod.snd).filter
    (fun c => c < 256) = p.map asciiFold
  rw [henum]
  rw [List.filter_eq_self]
  intro a hax
  have := asciiText_map_fold ha a hax
  simp
  omega

/-- One scan transition preserves the longest-suffix-node invariant: from the
state of the longest node suffix of `txt`, the failure walk followed by the
goto on `c` reaches the state of the longest node suffix of `txt ++ [c]`. -/
theorem scanState_step {sts : List ACState} (hsk : TrieSkeleton sts)
    (hfs : ∀ s, s ≠ 0 → s < sts.length →
      FailSpec sts s ((getState sts s).failure))
    {txt : List Nat} {st : Nat} (hms : MaxSuffixState sts txt st) (c : Nat) :
    MaxSuffixState sts (txt ++ [c])
      ((getState sts (walkFailure sts.length sts c st)).next c) := by
  obtain ⟨v, hv, hvsuf, hvmax⟩ := hms
  have hfuel : v.length < sts.length := by
    have h1 := word_length_le hsk hv
    have h2 := word_state_lt hsk hv
    omega
  obtain ⟨v', hv', hv'suf, hv'max, hdisj⟩ := walkFailure_spec hsk c sts.length v st
    hfuel hv (fun s ws hws _ hs => hfs s hs (word_state_lt hsk hws))
  by_cases hne : (getState sts (walkFailure sts.length sts c st)).next c = 0
  · obtain ⟨hq0, hv'0⟩ := hdisj.resolve_left (fun h => h hne)
    rw [hne]
    refine ⟨[], StateWord.root, List.nil_suffix, ?_⟩
    intro u hu hunode
    rcases List.suffix_concat_iff.mp hu with h0 | ⟨t, hteq, hts⟩
    · subst h0
      simp
    · subst hteq
      have htnode : IsNode sts t := isNode_of_snoc hunode
      have h1 := hvmax t hts htnode
      have hts' : t <:+ v := List.suffix_of_suffix_length_le hts hvsuf h1
      have h2 := hv'max t hts' hunode
      rw [hv'0] at h2
      have ht0 : t = [] := List.length_eq_zero.mp (Nat.le_zero.mp h2)
      subst ht0
      exfalso
      obtain ⟨s', hs'⟩ := hunode
      obtain ⟨p₀, hp₀, hpe, hsne⟩ := word_snoc_inv hs'
      rw [word_nil_state hp₀] at hpe
      rw [hq0] at hne
      exact hsne (by rw [← hpe, hne])
  · refine ⟨v' ++ [c], StateWord.step hv' rfl hne,
      suffix_snoc_iff.mpr (hv'suf.trans hvsuf), ?_⟩
    intro u hu hunode
    rcases List.suffix_concat_iff.mp hu with h0 | ⟨t, hteq, hts⟩
    · subst h0
      simp
    · subst hteq
      have htnode : IsNode sts t := isNode_of_snoc hunode
      have h1 := hvmax t hts htnode
      have hts' : t <:+ v := List.suffix_of_suffix_length_le hts hvsuf h1
      have h2 := hv'max t hts' hunode
      simp only [List.length_append, List.length_cons, List.length_nil]
      omega

/-- Records already collected survive the emission loop. -/
theorem emitOutputs_mono (patterns : List (List Nat)) (text : List Nat) (i : Nat) :
    ∀ (outs : List Nat) (res : List MatchResult) (r : MatchResult),
      r ∈ res → r ∈ emitOutputs patterns text i outs res := by
  intro outs
  induction outs with
  | nil =>
    intro res r hr
    exact hr
  | cons pid outs ih =>
    intro res r hr
    have hexp : emitOutputs patterns text i (pid :: outs) res =
        emitOutputs patterns text i outs
          (if pid < patterns.length then
            (if 0 ≤ (i : Int) - ((patterns.getD pid []).length : Int) + 1 ∧
                (i : Int) - ((patterns.getD pid []).length : Int) + 1 +
                  ((patterns.getD pid []).length : Int) ≤ (text.length : Int) then
              res ++ [⟨((i : Int) - ((patterns.getD pid []).length : Int) + 1).toNat,
                (patterns.getD pid []).length, pid, 95,
                (text.drop ((i : Int) - ((patterns.getD pid []).length : Int) + 1).toNat).take
                  (patterns.getD pid []).length⟩]
            else res)
          else res) := rfl
    rw [hexp]
    refine ih _ r ?_
    by_cases h1 : pid < patterns.length
    · rw [if_pos h1]
      by_cases h2 : 0 ≤ (i : Int) - ((patterns.getD pid []).length : Int) + 1 ∧
          (i : Int) - ((patterns.getD pid []).length : Int) + 1 +
            ((patterns.getD pid []).length : Int) ≤ (text.length : Int)
      · rw [if_pos h2]
        exact List.mem_append_left _ hr
      · rw [if_neg h2]
        exact hr
    · rw [if_neg h1]
      exact hr

/-- A pattern id in the output list whose guards pass emits its record. -/
theorem emitOutputs_emit (patterns : List (List Nat)) (text : List Nat) (i : Nat) :
    ∀ (outs : List Nat) (res : List MatchResult) (pid : Nat),
      pid ∈ outs → pid < patterns.length →
      0 ≤ (i : Int) - ((patterns.getD pid []).length : Int) + 1 →
      (i : Int) - ((patterns.getD pid []).length : Int) + 1 +
        ((patterns.getD pid []).length : Int) ≤ (text.length : Int) →
      (⟨((i : Int) - ((patterns.getD pid []).length : Int) + 1).toNat,
        (patterns.getD pid []).length, pid, 95,
        (text.drop ((i : Int) - ((patterns.getD pid []).length : Int) + 1).toNat).take
          (patterns.getD pid []).length⟩ : MatchResult) ∈
        emitOutputs patterns text i outs res := by
  intro outs
  induction outs with
  | nil =>
    intro res pid hmem
    exact absurd hmem (List.not_mem_nil _)
  | cons q outs ih =>
    intro res pid hmem h1 h2 h3
    have hexp : emitOutputs patterns text i (q :: outs) res =
        emitOutputs patterns text i outs
          (if q < patterns.length then
            (if 0 ≤ (i : Int) - ((patterns.getD q []).length : Int) + 1 ∧
                (i : Int) - ((patterns.getD q []).length : Int) + 1 +
                  ((patterns.getD q []).length : Int) ≤ (text.length : Int) then
              res ++ [⟨((i : Int) - ((patterns.getD q []).length : Int) + 1).toNat,
                (patterns.getD q []).length, q, 95,
                (text.drop ((i : Int) - ((patterns.getD q []).length : Int) + 1).toNat).take
                  (patterns.getD q []).length⟩]
            else res)
          else res) := rfl
    rw [hexp]
    rcases List.mem_cons.mp hmem with hh | hmem'
    · rw [← hh]
      rw [if_pos h1, if_pos ⟨h2, h3⟩]
      exact emitOutputs_mono patterns text i outs _ _
        (List.mem_append_right _ (List.mem_singleton_self _))
    · exact ih _ pid hmem' h1 h2 h3

/-- Strengthening of `emitOutputs_mem`: a newly emitted record's pattern id
is in the emitted output list. -/
theorem emitOutputs_mem_pid (patterns : List (List Nat)) (text : List Nat) (i : Nat) :
    ∀ (outs : List Nat) (res : List MatchResult), ∀ r ∈ emitOutputs patterns text i outs res,
      r ∈ res ∨
        (r.PatternID ∈ outs ∧ r.PatternID < patterns.length ∧
         r.Length = (patterns.getD r.PatternID []).length ∧
         r.Confidence = 95 ∧
         ((r.Offset : Int) = (i : Int) - (r.Length : Int) + 1) ∧
         i + 1 ≤ text.length ∧
         r.Offset + r.Length ≤ text.length ∧
         r.Text = (text.drop r.Offset).take r.Length) := by
  intro outs
  induction outs with
  | nil =>
    intro res r hr
    exact Or.inl hr
  | cons pid outs ih =>
    intro res r hr
    have hexp : emitOutputs patterns text i (pid :: outs) res =
        emitOutputs patterns text i outs
          (if pid < patterns.length then
            (if 0 ≤ (i : Int) - ((patterns.getD pid []).length : Int) + 1 ∧
                (i : Int) - ((patterns.getD pid []).length : Int) + 1 +
                  ((patterns.getD pid []).length : Int) ≤ (text.length : Int) then
              res ++ [⟨((i : Int) - ((patterns.getD pid []).length : Int) + 1).toNat,
                (patterns.getD pid []).length, pid, 95,
                (text.drop ((i : Int) - ((patterns.getD pid []).length : Int) + 1).toNat).take
                  (patterns.getD pid []).length⟩]
            else res)
          else res) := rfl
    rw [hexp] at hr
    rcases ih _ r hr with h | h
    · by_cases h1 : pid < patterns.length
      · rw [if_pos h1] at h
        by_cases h2 : 0 ≤ (i : Int) - ((patterns.getD pid []).length : Int) + 1 ∧
            (i : Int) - ((patterns.getD pid []).length : Int) + 1 +
              ((patterns.getD pid []).length : Int) ≤ (text.length : Int) 
        · rw [if_pos h2] at h
          rcases List.mem_append.mp h with h | h
          · exact Or.inl h
          · right
            have hre := List.mem_singleton.mp h
            subst hre
            have hoff : ((((i : Int) - ((patterns.getD pid []).length : Int) + 1).toNat : Int))
                = (i : Int) - ((patterns.getD pid []).length : Int) + 1 :=
              Int.toNat_of_nonneg h2.1
            obtain ⟨h2a, h2b⟩ := h2
            dsimp only
            refine ⟨List.mem_cons_self _ _, h1, rfl, rfl, ?_, ?_, ?_, rfl⟩
            · exact hoff
            · omega
            · omega
        · rw [if_neg h2] at h
          exact Or.inl h
      · rw [if_neg h1] at h
        exact Or.inl h
    · exact Or.inr ⟨List.mem_cons_of_mem _ h.1, h.2⟩

/-- A suffix of `l.take (k+1)` of length `k + 1 - off` is the slice of `l`
starting at `off`. -/
theorem suffix_take_slice {l s : List Nat} {k off : Nat}
    (h : s <:+ l.take (k + 1)) (hk : k + 1 ≤ l.length)
    (hoff : off + s.length = k + 1) :
    (l.drop off).take s.length = s := by
  obtain ⟨pre, hpre⟩ := h
  have h1 : (l.take (k + 1)).length = k + 1 := by
    rw [List.length_take]
    exact inf_eq_left.mpr hk
  have hlen : pre.length + s.length = k + 1 := by
    have h2 := congrArg List.length hpre
    rwa [List.length_append, h1] at h2
  have hoff2 : off = pre.length := by omega
  have hl : l = pre ++ (s ++ l.drop (k + 1)) := by
    rw [← List.append_assoc, hpre, List.take_append_drop]
  rw [hoff2]
  conv_lhs => rw [hl]
  rw [List.drop_left, List.take_left]

/-- Invariant of the scanning loop on ASCII input: starting from the state
of the longest node suffix of the processed prefix, every record ever
collected is sound, and every occurrence whose end lies in the processed
text has had its record emitted. -/
theorem scanLoop_ascii (L : List (List Nat)) (T : List Nat)
    (hT : AsciiText T) (hL : ∀ p ∈ L, AsciiText p) :
    ∀ (u pre : List Nat), T.map asciiFold = pre ++ u →
      ∀ (res : List MatchResult) (st : Nat),
      MaxSuffixState (buildAhoCorasickAutomaton L).states pre st →
      (∀ r ∈ res, SoundRec L T r) →
      (∀ (pid : Nat) (pat : List Nat) (j : Nat), L[pid]? = some pat → pat ≠ [] →
        j + pat.length ≤ pre.length →
        ((T.map asciiFold).drop j).take pat.length = pat.map asciiFold →
        (⟨j, pat.length, pid, 95, (T.drop j).take pat.length⟩ : MatchResult) ∈ res) →
      (∀ r ∈ (scanLoop (buildAhoCorasickAutomaton L) L T
          (List.enumFrom pre.length u) (res, st)).1, SoundRec L T r) ∧
      (∀ (pid : Nat) (pat : List Nat) (j : Nat), L[pid]? = some pat → pat ≠ [] →
        j + pat.length ≤ T.length →
        ((T.map asciiFold).drop j).take pat.length = pat.map asciiFold →
        (⟨j, pat.length, pid, 95, (T.drop j).take pat.length⟩ : MatchResult) ∈
          (scanLoop (buildAhoCorasickAutomaton L) L T
            (List.enumFrom pre.length u) (res, st)).1) := by
  obtain ⟨hsk, hfs, hsound, hcomp, hnode⟩ := buildAutomaton_spec L
  intro u
  induction u with
  | nil =>
    intro pre hsplit res st _ hgood hdone
    have hTpre : T.length = pre.length := by
      have h1 := congrArg List.length hsplit
      simpa using h1
    refine ⟨fun r hr => hgood r hr, ?_⟩
    intro pid pat j hpat hne hjb hocc
    exact hdone pid pat j hpat hne (by omega) hocc
  | cons c u' ih =>
    intro pre hsplit res st hms hgood hdone
    have hc : c < 128 := by
      refine asciiText_map_fold hT c ?_
      rw [hsplit]
      simp
    have htake : (T.map asciiFold).take (pre.length + 1) = pre ++ [c] := by
      rw [hsplit, List.take_append]
      rfl
    have hftlen : pre.length + 1 ≤ (T.map asciiFold).length := by
      rw [hsplit]
      simp
    have hTlen : pre.length + 1 ≤ T.length := by
      rwa [List.length_map] at hftlen
    have hstep : scanLoop (buildAhoCorasickAutomaton L) L T
        (List.enumFrom pre.length (c :: u')) (res, st) =
        scanLoop (buildAhoCorasickAutomaton L) L T
          (List.enumFrom (pre.length + 1) u')
          (scanStep (buildAhoCorasickAutomaton L) L T (res, st)
            (pre.length, c)) := rfl
    have hstep2 : scanStep (buildAhoCorasickAutomaton L) L T (res, st)
        (pre.length, c) =
        (emitOutputs L T pre.length
           (getState (buildAhoCorasickAutomaton L).states
             ((getState (buildAhoCorasickAutomaton L).states
               (walkFailure (buildAhoCorasickAutomaton L).states.length
                 (buildAhoCorasickAutomaton L).states c st)).next c)).outputs res,
         (getState (buildAhoCorasickAutomaton L).states
           (walkFailure (buildAhoCorasickAutomaton L).states.length
             (buildAhoCorasickAutomaton L).states c st)).next c) := by
      simp only [scanStep]
      rw [if_neg (by omega)]
    obtain ⟨w1, hw1, hw1suf, hw1max⟩ := scanState_step hsk hfs hms c
    have hms'' : MaxSuffixState (buildAhoCorasickAutomaton L).states (pre ++ [c])
        ((getState (buildAhoCorasickAutomaton L).states
          (walkFailure (buildAhoCorasickAutomaton L).states.length
            (buildAhoCorasickAutomaton L).states c st)).next c) :=
      ⟨w1, hw1, hw1suf, hw1max⟩
    have hgood' : ∀ r ∈ emitOutputs L T pre.length
        (getState (buildAhoCorasickAutomaton L).states
          ((getState (buildAhoCorasickAutomaton L).states
            (walkFailure (buildAhoCorasickAutomaton L).states.length
              (buildAhoCorasickAutomaton L).states c st)).next c)).outputs res,
        SoundRec L T r := by
      intro r hr
      rcases emitOutputs_mem_pid L T pre.length _ res r hr with h | h
      · exact hgood r h
      · obtain ⟨hpidmem, hpidlt, hlen, _, hoffInt, _, hoffb, _⟩ := h
        obtain ⟨pat, hpat, hsufw⟩ := hsound _ w1 r.PatternID hw1 hpidmem
        have hpara : AsciiText pat := hL pat (List.getElem?_mem hpat)
        have hpd : L.getD r.PatternID [] = pat := by
          rw [List.getD_eq_getElem?_getD, hpat]
          rfl
        have hpc : patChars pat = pat.map asciiFold := patChars_ascii hpara
        have hsclen : pat.map asciiFold <:+
            (T.map asciiFold).take (pre.length + 1) := by
          rw [← hpc, htake]
          exact hsufw.trans hw1suf
        have hlenp : r.Length = pat.length := by
          rw [hlen, hpd]
        have hpatle : pat.length ≤ pre.length + 1 := by
          have h2 := hsclen.length_le
          have h3 : ((T.map asciiFold).take (pre.length + 1)).length ≤
              pre.length + 1 := by
            rw [List.length_take]
            exact inf_le_left
          rw [List.length_map] at h2
          omega
        have hoffn : r.Offset + pat.length = pre.length + 1 := by
          rw [hlenp] at hoffInt
          omega
        have hslice := suffix_take_slice hsclen hftlen
          (by rw [List.length_map]; exact hoffn)
        refine ⟨pat, hpat, hlenp, hoffb, ?_⟩
        rw [hlenp, show pat.length = (pat.map asciiFold).length by simp]
        exact hslice
    have hdone' : ∀ (pid : Nat) (pat : List Nat) (j : Nat), L[pid]? = some pat →
        pat ≠ [] → j + pat.length ≤ pre.length + 1 →
        ((T.map asciiFold).drop j).take pat.length = pat.map asciiFold →
        (⟨j, pat.length, pid, 95, (T.drop j).take pat.length⟩ : MatchResult) ∈
          emitOutputs L T pre.length
            (getState (buildAhoCorasickAutomaton L).states
              ((getState (buildAhoCorasickAutomaton L).states
                (walkFailure (buildAhoCorasickAutomaton L).states.length
                  (buildAhoCorasickAutomaton L).states c st)).next c)).outputs
            res := by
      intro pid pat j hpat hne hjb hocc
      rcases Nat.lt_or_ge (j + pat.length) (pre.length + 1) with hlt | hge
      · exact emitOutputs_mono L T pre.length _ res _
          (hdone pid pat j hpat hne (by omega) hocc)
      · have hEq : j + pat.length = pre.length + 1 := le_antisymm hjb hge
        have hsuftk : pat.map asciiFold <:+ pre ++ [c] := by
          rw [← htake]
          have ht : (T.map asciiFold).take (pre.length + 1) =
              (T.map asciiFold).take j ++
                ((T.map asciiFold).drop j).take pat.length := by
            rw [← hEq, List.take_add]
          rw [ht, hocc]
          exact List.suffix_append _ _
        have hpc : patChars pat = pat.map asciiFold :=
          patChars_ascii (hL pat (List.getElem?_mem hpat))
        have hnd : IsNode (buildAhoCorasickAutomaton L).states (patChars pat) :=
          hnode pid pat hpat
        have hlemax : (patChars pat).length ≤ w1.length :=
          hw1max (patChars pat) (by rw [hpc]; exact hsuftk) hnd
        have hsufw1 : patChars pat <:+ w1 :=
          List.suffix_of_suffix_length_le (by rw [hpc]; exact hsuftk) hw1suf hlemax
        have hmem : pid ∈ (getState (buildAhoCorasickAutomaton L).states
            ((getState (buildAhoCorasickAutomaton L).states
              (walkFailure (buildAhoCorasickAutomaton L).states.length
                (buildAhoCorasickAutomaton L).states c st)).next c)).outputs :=
          hcomp _ w1 pid pat hw1 hpat
            (by rw [hpc]; intro hh; exact hne (List.map_eq_nil_iff.mp hh)) hsufw1
        have hlp : L.getD pid [] = pat := by
          rw [List.getD_eq_getElem?_getD, hpat]
          rfl
        have hpl : pid < L.length := by
          by_contra hc2
          rw [List.getElem?_eq_none (le_of_not_lt hc2)] at hpat
          exact absurd hpat (by simp)
        have hg1 : 0 ≤ (pre.length : Int) - ((L.getD pid []).length : Int) + 1 := by
          rw [hlp]
          omega
        have hg2 : (pre.length : Int) - ((L.getD pid []).length : Int) + 1 +
            ((L.getD pid []).length : Int) ≤ (T.length : Int) := by
          rw [hlp]
          omega
        have hrec := emitOutputs_emit L T pre.length
          (getState (buildAhoCorasickAutomaton L).states
            ((getState (buildAhoCorasickAutomaton L).states
              (walkFailure (buildAhoCorasickAutomaton L).states.length
                (buildAhoCorasickAutomaton L).states c st)).next c)).outputs
          res pid hmem hpl hg1 hg2
        rw [hlp] at hrec
        have hco2 : (((pre.length : Int) - ((pat.length : Nat) : Int) + 1).toNat) = j := by
          omega
        rw [hco2] at hrec
        exact hrec
    have hsplit' : T.map asciiFold = (pre ++ [c]) ++ u' := by
      rw [hsplit]
      simp
    obtain ⟨hA, hB⟩ := ih (pre ++ [c]) hsplit'
      (emitOutputs L T pre.length
        (getState (buildAhoCorasickAutomaton L).states
          ((getState (buildAhoCorasickAutomaton L).states
            (walkFailure (buildAhoCorasickAutomaton L).states.length
              (buildAhoCorasickAutomaton L).states c st)).next c)).outputs res)
      ((getState (buildAhoCorasickAutomaton L).states
        (walkFailure (buildAhoCorasickAutomaton L).states.length
          (buildAhoCorasickAutomaton L).states c st)).next c)
      hms'' hgood'
      (fun pid pat j hpat hne hjb hocc =>
        hdone' pid pat j hpat hne (by simpa using hjb) hocc)
    have hlen' : (pre ++ [c]).length = pre.length + 1 := by simp
    rw [hlen'] at hA hB
    constructor
    · intro r hr
      rw [hstep, hstep2] at hr
      exact hA r hr
    · intro pid pat j hpat hne hjb hocc
      rw [hstep, hstep2]
      exact hB pid pat j hpat hne hjb hocc

/-- C1 (amended): completeness restricted to ASCII inputs.  For every
non-empty ASCII pattern `P`, ASCII text `T`, and position `i` such that
`T[i..i+|P|)` equals `P` after ASCII case folding, `Search` on a fresh
matcher built from the one-pattern list `[P]` returns the match record with
offset `i`, length `|P|`, pattern id 0 (and confidence 95 and the text
slice).  The unrestricted claim fails for non-ASCII patterns, whose bytes
are decoded as UTF-8 runes rather than matched bytewise. -/
theorem search_complete_ascii (P T : List Nat) (cap : Nat) (i : Nat)
    (hP : AsciiText P) (hT : AsciiText T) (hPne : P ≠ [])
    (hib : i + P.length ≤ T.length)
    (hocc : ((T.map asciiFold).drop i).take P.length = P.map asciiFold) :
    (⟨i, P.length, 0, 95, (T.drop i).take P.length⟩ : MatchResult) ∈
      (Search (NewAhoCorasickMatcher [P] cap) T).1.1 := by
  rw [Search_fresh]
  have hsts : scanText (buildAhoCorasickAutomaton [P]) [P] T =
      (scanLoop (buildAhoCorasickAutomaton [P]) [P] T
        (List.enumFrom 0 (T.map asciiFold)) ([], 0)).1 := by
    unfold scanText
    rw [goToLower_ascii hT, goRunes_ascii (asciiText_map_fold hT)]
    rfl
  rw [hsts]
  have hms0 : MaxSuffixState (buildAhoCorasickAutomaton [P]).states [] 0 :=
    ⟨[], StateWord.root, List.nil_suffix, fun u hu _ => hu.length_le⟩
  obtain ⟨_, hB⟩ := scanLoop_ascii [P] T hT
    (fun p hp => by rw [List.mem_singleton.mp hp]; exact hP)
    (T.map asciiFold) [] (by simp) [] 0 hms0
    (fun r hr => absurd hr (List.not_mem_nil _))
    (fun pid pat j hpat hne hjb _ => by
      exfalso
      have h1 := List.length_pos.mpr hne
      simp only [List.length_nil] at hjb
      omega)
  simp only [List.length_nil] at hB
  exact hB 0 P i rfl hPne hib hocc

/-- Witness for ASCII completeness: pattern `"b"`, text `"ab"`, occurrence
at position 1. -/
theorem search_complete_ascii_witness :
    (AsciiText [98] ∧ AsciiText [97, 98] ∧ ([98] : List Nat) ≠ [] ∧
      1 + ([98] : List Nat).length ≤ ([97, 98] : List Nat).length ∧
      ((([97, 98] : List Nat).map asciiFold).drop 1).take
        ([98] : List Nat).length = ([98] : List Nat).map asciiFold) ∧
    (⟨1, ([98] : List Nat).length, 0, 95,
        (([97, 98] : List Nat).drop 1).take ([98] : List Nat).length⟩ :
      MatchResult) ∈
      (Search (NewAhoCorasickMatcher [[98]] 10) [97, 98]).1.1 :=
  ⟨⟨by unfold AsciiText; decide, by unfold AsciiText; decide, by decide,
      by decide, by decide⟩,
    search_complete_ascii [98] [97, 98] 10 1 (by unfold AsciiText; decide)
      (by unfold AsciiText; decide) (by decide) (by decide) (by decide)⟩

/-- C2 (amended): soundness restricted to ASCII inputs.  For every list of
ASCII patterns and every ASCII text, each record returned by `Search` names
a valid pattern index, has that pattern's length, fits inside the text, and
its text slice equals the pattern after ASCII case folding.  The
unrestricted claim fails on non-ASCII texts, where skipped runes misalign
the reported offsets. -/
theorem search_sound_ascii (L : List (List Nat)) (T : List Nat) (cap : Nat)
    (hL : ∀ p ∈ L, AsciiText p) (hT : AsciiText T) :
    ∀ r ∈ (Search (NewAhoCorasickMatcher L cap) T).1.1,
      r.PatternID < L.length ∧
      r.Length = (L.getD r.PatternID []).length ∧
      r.Offset + r.Length ≤ T.length ∧
      ((T.drop r.Offset).take r.Length).map asciiFold =
        (L.getD r.PatternID []).map asciiFold := by
  intro r hr
  rw [Search_fresh] at hr
  have hsts : scanText (buildAhoCorasickAutomaton L) L T =
      (scanLoop (buildAhoCorasickAutomaton L) L T
        (List.enumFrom 0 (T.map asciiFold)) ([], 0)).1 := by
    unfold scanText
    rw [goToLower_ascii hT, goRunes_ascii (asciiText_map_fold hT)]
    rfl
  rw [hsts] at hr
  have hms0 : MaxSuffixState (buildAhoCorasickAutomaton L).states [] 0 :=
    ⟨[], StateWord.root, List.nil_suffix, fun u hu _ => hu.length_le⟩
  obtain ⟨hA, _⟩ := scanLoop_ascii L T hT hL
    (T.map asciiFold) [] (by simp) [] 0 hms0
    (fun r' hr' => absurd hr' (List.not_mem_nil _))
    (fun pid pat j hpat hne hjb _ => by
      exfalso
      have h1 := List.length_pos.mpr hne
      simp only [List.length_nil] at hjb
      omega)
  simp only [List.length_nil] at hA
  obtain ⟨pat, hpat, hlen, hb, hslice⟩ := hA r hr
  have hpl : r.PatternID < L.length := by
    by_contra hc2
    rw [List.getElem?_eq_none (le_of_not_lt hc2)] at hpat
    exact absurd hpat (by simp)
  have hgd : L.getD r.PatternID [] = pat := by
    rw [List.getD_eq_getElem?_getD, hpat]
    rfl
  refine ⟨hpl, by rw [hgd]; exact hlen, hb, ?_⟩
  rw [hgd, List.map_take, List.map_drop, hslice]

/-- Witness for ASCII soundness: the single record returned for pattern
`"a"` on text `"a"` satisfies all four soundness conjuncts. -/
theorem search_sound_ascii_witness :
    ((∀ p ∈ [[97]], AsciiText p) ∧ AsciiText ([97] : List Nat) ∧
      (⟨0, 1, 0, 95, [97]⟩ : MatchResult) ∈
        (Search (NewAhoCorasickMatcher [[97]] 10) [97]).1.1) ∧
    ((⟨0, 1, 0, 95, [97]⟩ : MatchResult).PatternID <
        ([[97]] : List (List Nat)).length ∧
      (⟨0, 1, 0, 95, [97]⟩ : MatchResult).Length =
        (([[97]] : List (List Nat)).getD
          (⟨0, 1, 0, 95, [97]⟩ : MatchResult).PatternID []).length ∧
      (⟨0, 1, 0, 95, [97]⟩ : MatchResult).Offset +
          (⟨0, 1, 0, 95, [97]⟩ : MatchResult).Length ≤ ([97] : List Nat).length ∧
      ((([97] : List Nat).drop (⟨0, 1, 0, 95, [97]⟩ : MatchResult).Offset).take
          (⟨0, 1, 0, 95, [97]⟩ : MatchResult).Length).map asciiFold =
        (([[97]] : List (List Nat)).getD
          (⟨0, 1, 0, 95, [97]⟩ : MatchResult).PatternID []).map asciiFold) :=
  ⟨⟨by unfold AsciiText; decide, by unfold AsciiText; decide, by decide⟩,
    search_sound_ascii [[97]] [97] 10 (by unfold AsciiText; decide)
      (by unfold AsciiText; decide) ⟨0, 1, 0, 95, [97]⟩ (by decide)⟩
